import Mathlib

/-!
# Verification of the `bi` arbitrary-precision integer library

Shallow embedding of the C++ core (`src/include/bi.hpp`, `src/src/bi.cpp`,
compiled with 32-bit digits, the default configuration) together with
spec-modelled definitions for the operations whose implementations are not
part of the provided sources (general-base string conversion, `pow`).

Machine arithmetic is modelled on `Nat`/`Int` with explicit `% 2^w`
wherever the C computation can wrap.
-/

namespace Bi

/-! ## Configuration (`bi_config.hpp`, 32-bit digit build) -/

/-- Number of bits in a digit (`bi_dwidth`/`bi_dbits`, 32-bit build). -/
def bi_dwidth : Nat := 32

/-- The limb base `bi_base = 2^32`. -/
def bi_base : Nat := 2 ^ 32

/-- Largest digit value `bi_dmax = 2^32 - 1`. -/
def bi_dmax : Nat := bi_base - 1

/-- `bi_max_digits = min(SIZE_MAX / sizeof(digit), ULONG_MAX / bi_dbits)`
on a 64-bit host: `(2^64 - 1) / 32`. -/
def bi_max_digits : Nat := (2 ^ 64 - 1) / 32

/-- `max_bits = bi_max_digits * bi_dwidth` (`constants.hpp`). -/
def max_bits : Nat := bi_max_digits * bi_dwidth

/-- Error taxonomy of the spec (tagged variant over the exception kinds). -/
inductive Err where
  | DivisionByZero
  | Overflow
  | ParseError
  | InvalidArgument
  deriving Repr, DecidableEq

/-! ## Data model (`bi_t`: digit vector, LSB first, plus sign flag) -/

/-- The representation of a `bi_t`: a boolean `negative_` flag and the digit
vector (least-significant digit first). -/
structure bi_t where
  negative : Bool
  limbs : List Nat
  deriving Repr, DecidableEq

/-- Value of a digit vector, least-significant digit first. -/
def natVal : List Nat → Nat
  | [] => 0
  | d :: ds => d + bi_base * natVal ds

/-- The integer represented by a `bi_t`. -/
def toInt (x : bi_t) : Int :=
  if x.negative then -(natVal x.limbs : Int) else (natVal x.limbs : Int)

/-- All digits are in `[0, bi_base)`. -/
def WfLimbs (ls : List Nat) : Prop := ∀ d ∈ ls, d < bi_base

/-- Canonical form: digits in range, no trailing (most-significant) zero limb,
and the zero value is never negative. -/
def Canonical (x : bi_t) : Prop :=
  WfLimbs x.limbs ∧ x.limbs.getLast? ≠ some 0 ∧ (x.limbs = [] → x.negative = false)

instance : DecidablePred WfLimbs := fun ls =>
  decidable_of_iff (∀ d ∈ ls, d < bi_base) Iff.rfl

instance (x : bi_t) : Decidable (Canonical x) := by
  unfold Canonical; infer_instance

/-- `trim_trailing_zeros` on the digit vector: drop most-significant zero
limbs (`bi.hpp`, lines 329-338). -/
def trimLimbs : List Nat → List Nat
  | [] => []
  | d :: ds =>
    match trimLimbs ds with
    | [] => if d = 0 then [] else [d]
    | ds' => d :: ds'

/-- `bi_t::trim_trailing_zeros`: trim the vector and reset the sign to `+`
when the result is empty. -/
def trim (x : bi_t) : bi_t :=
  let ls := trimLimbs x.limbs
  ⟨if ls = [] then false else x.negative, ls⟩

/-! ## Increment / decrement (`bi.cpp`, lines 131-223) -/

/-- Carry loop of `bi_t::increment_abs`: add one to the magnitude, with the
final carry pushed as a new limb (also covers the `size() == 0` branch). -/
def incLimbs : List Nat → List Nat
  | [] => [1]
  | d :: ds => if d = bi_dmax then 0 :: incLimbs ds else (d + 1) :: ds

/-- `bi_t::increment_abs`. -/
def increment_abs (x : bi_t) : bi_t := ⟨x.negative, incLimbs x.limbs⟩

/-- Borrow loop of `bi_t::decrement_abs` (the `size() > 0` case). -/
def decLimbs : List Nat → List Nat
  | [] => []
  | d :: ds => if d = 0 then bi_dmax :: decLimbs ds else (d - 1) :: ds

/-- `bi_t::decrement_abs`: if the magnitude is zero the value becomes `-1`;
otherwise subtract one from the magnitude and trim. -/
def decrement_abs (x : bi_t) : bi_t :=
  if x.limbs = [] then ⟨true, [1]⟩
  else trim ⟨x.negative, decLimbs x.limbs⟩

/-- `bi_t::operator++` (prefix). -/
def preInc (x : bi_t) : bi_t :=
  if !x.negative then increment_abs x
  else
    let y := decrement_abs x
    if y.limbs = [] then { y with negative := false } else y

/-- `bi_t::operator--` (prefix). -/
def preDec (x : bi_t) : bi_t :=
  if !x.negative then decrement_abs x else increment_abs x

/-! ## Basic value lemmas -/

theorem bi_base_pos : 0 < bi_base := by decide

theorem natVal_cons (d : Nat) (ds : List Nat) :
    natVal (d :: ds) = d + bi_base * natVal ds := rfl

theorem natVal_trimLimbs (ls : List Nat) : natVal (trimLimbs ls) = natVal ls := by
  induction ls with
  | nil => rfl
  | cons d ds ih =>
    simp only [trimLimbs]
    cases h : trimLimbs ds with
    | nil =>
      rw [h] at ih
      by_cases hd : d = 0 <;>
        simp [hd, natVal_cons, ← ih, natVal]
    | cons e es =>
      rw [h] at ih
      simp [natVal_cons, ih]

theorem natVal_trim (x : bi_t) : natVal (trim x).limbs = natVal x.limbs := by
  simp [trim, natVal_trimLimbs]

theorem natVal_lt (ls : List Nat) (h : WfLimbs ls) :
    natVal ls < bi_base ^ ls.length := by
  induction ls with
  | nil => simp [natVal]
  | cons d ds ih =>
    have hd : d < bi_base := h d (List.mem_cons_self ..)
    have hds : WfLimbs ds := fun e he => h e (List.mem_cons_of_mem _ he)
    have := ih hds
    have hb := bi_base_pos
    calc d + bi_base * natVal ds
        < bi_base * (natVal ds + 1) := by
          rw [Nat.mul_add, Nat.mul_one]; omega
      _ ≤ bi_base * bi_base ^ ds.length := by
          have : natVal ds + 1 ≤ bi_base ^ ds.length := this
          exact Nat.mul_le_mul_left _ this
      _ = bi_base ^ (d :: ds).length := by rw [List.length_cons]; ring

theorem natVal_pos_of_getLast (ls : List Nat) (hne : ls ≠ [])
    (h : ls.getLast? ≠ some 0) : 0 < natVal ls := by
  induction ls with
  | nil => exact absurd rfl hne
  | cons d ds ih =>
    cases hds : ds with
    | nil =>
      subst hds
      simp only [List.getLast?_singleton, ne_eq, Option.some.injEq] at h
      simp [natVal]
      omega
    | cons e es =>
      subst hds
      have hlast : (e :: es).getLast? ≠ some 0 := by
        rwa [List.getLast?_cons_cons] at h
      have := ih (by simp) hlast
      have := bi_base_pos
      simp only [natVal_cons]
      positivity

theorem natVal_eq_zero_iff_trim (ls : List Nat) :
    trimLimbs ls = [] ↔ natVal ls = 0 := by
  induction ls with
  | nil => simp [trimLimbs, natVal]
  | cons d ds ih =>
    simp only [trimLimbs]
    cases h : trimLimbs ds with
    | nil =>
      rw [h] at ih
      have hds : natVal ds = 0 := ih.mp rfl
      by_cases hd : d = 0
      · simp [hd, natVal_cons, hds]
      · simp [hd, natVal_cons, hds]
    | cons e es =>
      rw [h] at ih
      constructor
      · intro hc; exact absurd hc (by simp)
      · intro hv
        simp only [natVal_cons] at hv
        have hb := bi_base_pos
        have h2 : natVal ds = 0 := by
          rcases Nat.eq_zero_or_pos (natVal ds) with h0 | h0
          · exact h0
          · exfalso
            have : 0 < bi_base * natVal ds := Nat.mul_pos hb h0
            omega
        exact absurd (ih.mpr h2) (by simp [h])

theorem wf_incLimbs (ls : List Nat) (h : WfLimbs ls) : WfLimbs (incLimbs ls) := by
  induction ls with
  | nil => intro d hd; simp [incLimbs] at hd; simp [hd]; decide
  | cons d ds ih =>
    have hd : d < bi_base := h d (List.mem_cons_self ..)
    have hds : WfLimbs ds := fun e he => h e (List.mem_cons_of_mem _ he)
    intro e he
    simp only [incLimbs] at he
    by_cases hmax : d = bi_dmax
    · simp [hmax] at he
      rcases he with he | he
      · simp [he]; decide
      · exact ih hds e he
    · simp [hmax] at he
      rcases he with he | he
      · subst he
        have : d ≤ bi_dmax := by
          have : bi_dmax = bi_base - 1 := rfl
          omega
        simp only [bi_dmax] at hmax
        omega
      · exact hds e he

theorem natVal_incLimbs (ls : List Nat) (h : WfLimbs ls) :
    natVal (incLimbs ls) = natVal ls + 1 := by
  induction ls with
  | nil => simp [incLimbs, natVal]
  | cons d ds ih =>
    have hd : d < bi_base := h d (List.mem_cons_self ..)
    have hds : WfLimbs ds := fun e he => h e (List.mem_cons_of_mem _ he)
    by_cases hmax : d = bi_dmax
    · simp only [incLimbs, if_pos hmax, natVal_cons, ih hds]
      subst hmax
      simp only [bi_dmax]
      have := bi_base_pos
      ring_nf
      omega
    · simp only [incLimbs, if_neg hmax, natVal_cons]
      omega

theorem natVal_decLimbs (ls : List Nat) (h : natVal ls ≠ 0) :
    natVal (decLimbs ls) = natVal ls - 1 := by
  induction ls with
  | nil => simp [natVal] at h
  | cons d ds ih =>
    by_cases hd : d = 0
    · subst hd
      simp only [natVal_cons, Nat.zero_add] at h
      have hds : natVal ds ≠ 0 := by
        intro hc; exact h (by simp [hc])
      have hb := bi_base_pos
      obtain ⟨k, hk⟩ : ∃ k, natVal ds = k + 1 :=
        ⟨natVal ds - 1, by omega⟩
      show natVal (decLimbs (0 :: ds)) = natVal (0 :: ds) - 1
      rw [show decLimbs (0 :: ds) = bi_dmax :: decLimbs ds from rfl]
      simp only [natVal_cons, ih hds, hk, bi_dmax]
      simp only [Nat.add_sub_cancel, Nat.mul_add, Nat.mul_one]
      omega
    · simp only [decLimbs, if_neg hd, natVal_cons]
      omega

/-! ## Addition / subtraction kernels (`bi.cpp`, lines 903-1023) -/

/-- Digit loop of `bi_t::add_abs` (Knuth Algorithm A): `uaddc` steps over the
small operand, carry propagation over the rest of the large operand, and the
final carry digit (`r[i] = carry`, trimmed away when zero). The carry is the
`Nat` `0`/`1` of the boolean carry bit. -/
def addLoop : List Nat → List Nat → Nat → List Nat
  | [], [], c => [c]
  | x :: xs, [], c => (x + c) % bi_base :: addLoop xs [] ((x + c) / bi_base)
  | [], y :: ys, c => (y + c) % bi_base :: addLoop [] ys ((y + c) / bi_base)
  | x :: xs, y :: ys, c =>
    (x + y + c) % bi_base :: addLoop xs ys ((x + y + c) / bi_base)

/-- `bi_t::add_abs`: `|x| + |y|`. `reserve_(large.size() + 1)` throws
`overflow_error` when the requested capacity exceeds `max_size()`
(`digit_vector::reserve`); the check happens before any digit is written. -/
def add_abs (x y : bi_t) : Except Err bi_t :=
  let large := if x.limbs.length ≥ y.limbs.length then x else y
  let small := if x.limbs.length ≥ y.limbs.length then y else x
  if large.limbs.length + 1 > bi_max_digits then .error .Overflow
  else .ok ⟨false, trimLimbs (addLoop large.limbs small.limbs 0)⟩

/-- Digit loop of `bi_t::sub_abs_gt` (Knuth Algorithm S): `usubb` steps over
`y`, then borrow propagation over the rest of `x`. Assumes
`x.size() >= y.size()`. -/
def subLoop : List Nat → List Nat → Nat → List Nat
  | [], _, _ => []
  | x :: xs, [], b =>
    (x + bi_base - b) % bi_base :: subLoop xs [] (if x < b then 1 else 0)
  | x :: xs, y :: ys, b =>
    (x + bi_base - (y + b)) % bi_base ::
      subLoop xs ys (if x < y + b then 1 else 0)

/-- `bi_t::sub_abs_gt`: `|x| - |y|` assuming `|x| > |y|`. The
`reserve_(x.size())` check never fires for in-range operands. -/
def sub_abs_gt (x y : bi_t) : Except Err bi_t :=
  if x.limbs.length > bi_max_digits then .error .Overflow
  else .ok ⟨false, trimLimbs (subLoop x.limbs y.limbs 0)⟩

/-- The `std::mismatch`-based most-significant-digit-first comparison used by
`bi_t::sub_abs` and `bi_t::cmp_abs` (arguments are reversed digit vectors:
most significant first). -/
def cmpTop : List Nat → List Nat → Ordering
  | x :: xs, y :: ys =>
    if x < y then .lt else if y < x then .gt else cmpTop xs ys
  | _, _ => .eq

/-- `bi_t::sub_abs`: `|x| - |y|` as a signed result. -/
def sub_abs (x y : bi_t) : Except Err bi_t :=
  if x.limbs.length = y.limbs.length then
    match cmpTop x.limbs.reverse y.limbs.reverse with
    | .eq => .ok ⟨false, []⟩
    | .lt => do
      let r ← sub_abs_gt y x
      .ok { r with negative := true }
    | .gt => sub_abs_gt x y
  else if x.limbs.length > y.limbs.length then sub_abs_gt x y
  else do
    let r ← sub_abs_gt y x
    .ok { r with negative := true }

/-- `bi_t::add`: sign dispatch of `x + y` to the magnitude kernels. -/
def add (x y : bi_t) : Except Err bi_t :=
  if x.negative then
    if y.negative then do
      let r ← add_abs x y
      .ok { r with negative := true }
    else sub_abs y x
  else
    if y.negative then sub_abs x y
    else add_abs x y

/-- `bi_t::sub`: sign dispatch of `x - y` to the magnitude kernels. -/
def sub (x y : bi_t) : Except Err bi_t :=
  if x.negative then
    if y.negative then sub_abs y x
    else do
      let r ← add_abs x y
      .ok { r with negative := true }
  else
    if y.negative then add_abs x y
    else sub_abs x y

/-! ### Value lemmas for the additive kernels -/

theorem natVal_addLoop (xs ys : List Nat) (c : Nat) :
    natVal (addLoop xs ys c) = natVal xs + natVal ys + c := by
  induction xs generalizing ys c with
  | nil =>
    induction ys generalizing c with
    | nil => simp [addLoop, natVal]
    | cons y ys ihy =>
      simp only [addLoop, natVal_cons, ihy, natVal]
      have := Nat.div_add_mod (y + c) bi_base
      ring_nf
      omega
  | cons x xs ihx =>
    cases ys with
    | nil =>
      simp only [addLoop, natVal_cons, ihx, natVal]
      have := Nat.div_add_mod (x + c) bi_base
      ring_nf
      omega
    | cons y ys =>
      simp only [addLoop, natVal_cons, ihx]
      have := Nat.div_add_mod (x + y + c) bi_base
      ring_nf
      omega

theorem natVal_subLoop (xs ys : List Nat) (b : Nat)
    (hlen : ys.length ≤ xs.length) (hwx : WfLimbs xs) (hwy : WfLimbs ys)
    (hb : b ≤ 1) (hge : natVal ys + b ≤ natVal xs) :
    natVal (subLoop xs ys b) = natVal xs - natVal ys - b := by
  induction xs generalizing ys b with
  | nil =>
    have : ys = [] := List.eq_nil_of_length_eq_zero (Nat.le_zero.mp hlen)
    subst this
    simp [subLoop, natVal]
  | cons x xs ihx =>
    have hx : x < bi_base := hwx x (List.mem_cons_self ..)
    have hwxs : WfLimbs xs := fun e he => hwx e (List.mem_cons_of_mem _ he)
    cases ys with
    | nil =>
      simp only [subLoop, natVal_cons]
      simp only [natVal] at hge ⊢
      by_cases hlt : x < b
      · -- borrow propagates
        have hx0 : x = 0 := by omega
        have hb1 : b = 1 := by omega
        subst hx0; subst hb1
        rw [if_pos (by omega)]
        have hxs : 1 ≤ natVal xs := by
          rcases Nat.eq_zero_or_pos (natVal xs) with h0 | h0
          · exfalso; rw [h0] at hge; simp [natVal] at hge
          · exact h0
        rw [ihx [] 1 (by simp) hwxs (by intro e he; cases he) (le_refl 1)
          (by simp [natVal]; omega)]
        simp only [natVal]
        have hBB : (0 + bi_base - 1) % bi_base = bi_base - 1 :=
          Nat.mod_eq_of_lt (by have := bi_base_pos; omega)
        rw [hBB]
        obtain ⟨k, hk⟩ : ∃ k, natVal xs = k + 1 := ⟨natVal xs - 1, by omega⟩
        have hsub : natVal xs - 0 - 1 = k := by omega
        rw [hsub, hk]
        simp only [Nat.mul_add, Nat.mul_one]
        omega
      · push_neg at hlt
        rw [if_neg (by omega)]
        rw [ihx [] 0 (by simp) hwxs (by intro e he; cases he) (by omega)
          (by simp [natVal])]
        simp only [natVal, Nat.sub_zero]
        have : (x + bi_base - b) % bi_base = x - b := by
          have h1 : x + bi_base - b = (x - b) + bi_base := by omega
          rw [h1, Nat.add_mod_right, Nat.mod_eq_of_lt (by omega)]
        rw [this]
        omega
    | cons y ys =>
      have hy : y < bi_base := hwy y (List.mem_cons_self ..)
      have hwys : WfLimbs ys := fun e he => hwy e (List.mem_cons_of_mem _ he)
      have hlen' : ys.length ≤ xs.length := by simpa using hlen
      simp only [subLoop, natVal_cons]
      simp only [natVal_cons] at hge
      have hrec : natVal ys ≤ natVal xs := by
        by_contra hc
        push_neg at hc
        have h1 : natVal xs + 1 ≤ natVal ys := hc
        have h2 : bi_base * natVal xs + bi_base ≤ bi_base * natVal ys := by
          calc bi_base * natVal xs + bi_base = bi_base * (natVal xs + 1) := by
                ring
            _ ≤ bi_base * natVal ys := Nat.mul_le_mul_left _ h1
        omega
      by_cases hlt : x < y + b
      · rw [if_pos hlt]
        have hstrict : natVal ys + 1 ≤ natVal xs := by
          by_contra hc
          push_neg at hc
          have hys : natVal ys = natVal xs := le_antisymm hrec (by omega)
          rw [hys] at hge
          omega
        rw [ihx ys 1 hlen' hwxs hwys (le_refl 1) hstrict]
        have hdig : (x + bi_base - (y + b)) % bi_base = x + bi_base - (y + b) :=
          Nat.mod_eq_of_lt (by omega)
        rw [hdig]
        obtain ⟨k, hk⟩ : ∃ k, natVal xs = k + (natVal ys + 1) :=
          ⟨natVal xs - (natVal ys + 1), by omega⟩
        have hsub : natVal xs - natVal ys - 1 = k := by omega
        rw [hsub, hk]
        simp only [Nat.mul_add, Nat.mul_one]
        omega
      · push_neg at hlt
        rw [if_neg (by omega)]
        rw [ihx ys 0 hlen' hwxs hwys (by omega) (by omega)]
        have hdig : (x + bi_base - (y + b)) % bi_base = x - (y + b) := by
          have h1 : x + bi_base - (y + b) = (x - (y + b)) + bi_base := by omega
          rw [h1, Nat.add_mod_right, Nat.mod_eq_of_lt (by omega)]
        rw [hdig]
        obtain ⟨k, hk⟩ : ∃ k, natVal xs = k + natVal ys :=
          ⟨natVal xs - natVal ys, by omega⟩
        have hsub : natVal xs - natVal ys - 0 = k := by omega
        rw [hsub, hk]
        simp only [Nat.mul_add]
        omega

theorem natVal_append (p q : List Nat) :
    natVal (p ++ q) = natVal p + bi_base ^ p.length * natVal q := by
  induction p with
  | nil => simp [natVal]
  | cons d ds ih =>
    simp only [List.cons_append, natVal_cons, ih, List.length_cons]
    ring

theorem wf_reverse (ls : List Nat) (h : WfLimbs ls) : WfLimbs ls.reverse :=
  fun d hd => h d (List.mem_reverse.mp hd)

theorem natVal_ge_getLast (ls : List Nat) (hne : ls ≠ [])
    (hl : ls.getLast? ≠ some 0) : bi_base ^ (ls.length - 1) ≤ natVal ls := by
  induction ls with
  | nil => exact absurd rfl hne
  | cons d ds ih =>
    cases hds : ds with
    | nil =>
      subst hds
      simp only [List.getLast?_singleton, ne_eq, Option.some.injEq] at hl
      simp [natVal]
      omega
    | cons e es =>
      subst hds
      have hl' : (e :: es).getLast? ≠ some 0 := by
        rwa [List.getLast?_cons_cons] at hl
      have := ih (by simp) hl'
      simp only [natVal_cons, List.length_cons, Nat.add_sub_cancel]
      calc bi_base ^ (e :: es).length
          = bi_base * bi_base ^ ((e :: es).length - 1) := by
            simp only [List.length_cons, Nat.add_sub_cancel]; ring
        _ ≤ bi_base * natVal (e :: es) := Nat.mul_le_mul_left _ this
        _ ≤ d + bi_base * natVal (e :: es) := Nat.le_add_left _ _

/-- The most-significant-first comparison decides the order of the values
(arguments are reversed digit vectors). -/
theorem cmpTop_cases (as bs : List Nat) (hlen : as.length = bs.length)
    (hwa : WfLimbs as) (hwb : WfLimbs bs) :
    (cmpTop as bs = .lt → natVal as.reverse < natVal bs.reverse) ∧
    (cmpTop as bs = .gt → natVal bs.reverse < natVal as.reverse) ∧
    (cmpTop as bs = .eq → natVal as.reverse = natVal bs.reverse) := by
  induction as generalizing bs with
  | nil =>
    have : bs = [] := List.eq_nil_of_length_eq_zero (by simpa using hlen.symm)
    subst this
    refine ⟨fun h => ?_, fun h => ?_, fun _ => rfl⟩ <;> simp [cmpTop] at h
  | cons a as iha =>
    cases bs with
    | nil => simp at hlen
    | cons b bs =>
      have hlen' : as.length = bs.length := by simpa using hlen
      have hwa' : WfLimbs as := fun e he => hwa e (List.mem_cons_of_mem _ he)
      have hwb' : WfLimbs bs := fun e he => hwb e (List.mem_cons_of_mem _ he)
      have ha : a < bi_base := hwa a (List.mem_cons_self ..)
      have hb : b < bi_base := hwb b (List.mem_cons_self ..)
      have hva : natVal as.reverse < bi_base ^ as.length := by
        have := natVal_lt as.reverse (wf_reverse as hwa')
        rwa [List.length_reverse] at this
      have hvb : natVal bs.reverse < bi_base ^ bs.length := by
        have := natVal_lt bs.reverse (wf_reverse bs hwb')
        rwa [List.length_reverse] at this
      have hrw : ∀ (c : Nat) (cs : List Nat),
          natVal (c :: cs).reverse = natVal cs.reverse +
            bi_base ^ cs.length * c := by
        intro c cs
        rw [List.reverse_cons, natVal_append, List.length_reverse]
        simp [natVal]
      -- digit dominance: a < b forces the values apart
      have hdom : ∀ (c d : Nat) (cs ds : List Nat), c < d →
          cs.length = ds.length →
          natVal cs.reverse < bi_base ^ cs.length →
          natVal (c :: cs).reverse < natVal (d :: ds).reverse := by
        intro c d cs ds hcd hlcd hv
        rw [hrw, hrw, ← hlcd]
        calc natVal cs.reverse + bi_base ^ cs.length * c
            < bi_base ^ cs.length + bi_base ^ cs.length * c := by omega
          _ = bi_base ^ cs.length * (c + 1) := by ring
          _ ≤ bi_base ^ cs.length * d := Nat.mul_le_mul_left _ (by omega)
          _ ≤ natVal ds.reverse + bi_base ^ cs.length * d := Nat.le_add_left _ _
      by_cases hab : a < b
      · refine ⟨fun _ => hdom a b as bs hab hlen' hva, fun h => ?_, fun h => ?_⟩
        <;> simp [cmpTop, hab] at h
      · by_cases hba : b < a
        · refine ⟨fun h => ?_, fun _ => hdom b a bs as hba hlen'.symm hvb,
            fun h => ?_⟩ <;>
            simp [cmpTop, hab, hba] at h
        · have heq : a = b := by omega
          subst heq
          have hct : cmpTop (a :: as) (a :: bs) = cmpTop as bs := by
            simp [cmpTop]
          obtain ⟨h1, h2, h3⟩ := iha bs hlen' hwa' hwb'
          refine ⟨fun h => ?_, fun h => ?_, fun h => ?_⟩ <;>
            rw [hct] at h <;> rw [hrw, hrw, hlen']
          · have := h1 h; omega
          · have := h2 h; omega
          · have := h3 h; omega

theorem toInt_of_neg (x : bi_t) (h : x.negative = true) :
    toInt x = -(natVal x.limbs : Int) := by simp [toInt, h]

theorem toInt_of_nonneg (x : bi_t) (h : x.negative = false) :
    toInt x = (natVal x.limbs : Int) := by simp [toInt, h]

/-- Value and shape of `sub_abs`: produces `|x| - |y|` as a signed integer. -/
theorem sub_abs_val (x y : bi_t)
    (hwx : WfLimbs x.limbs) (hlx : x.limbs.getLast? ≠ some 0)
    (hwy : WfLimbs y.limbs) (hly : y.limbs.getLast? ≠ some 0)
    (hmx : x.limbs.length ≤ bi_max_digits)
    (hmy : y.limbs.length ≤ bi_max_digits) :
    ∃ r, sub_abs x y = .ok r ∧
      toInt r = (natVal x.limbs : Int) - natVal y.limbs := by
  have hgt_val : ∀ (u v : bi_t), WfLimbs u.limbs → WfLimbs v.limbs →
      v.limbs.length ≤ u.limbs.length → natVal v.limbs ≤ natVal u.limbs →
      u.limbs.length ≤ bi_max_digits →
      ∃ r, sub_abs_gt u v = .ok r ∧
        r.negative = false ∧
        (natVal r.limbs : Int) = (natVal u.limbs : Int) - natVal v.limbs := by
    intro u v hwu hwv hlen hval hmax
    refine ⟨⟨false, trimLimbs (subLoop u.limbs v.limbs 0)⟩, ?_, rfl, ?_⟩
    · simp [sub_abs_gt, Nat.not_lt.mpr hmax]
    · rw [natVal_trimLimbs,
        natVal_subLoop u.limbs v.limbs 0 hlen hwu hwv (by omega) (by omega)]
      omega
  by_cases hlen : x.limbs.length = y.limbs.length
  · obtain ⟨h1, h2, h3⟩ := cmpTop_cases x.limbs.reverse y.limbs.reverse
      (by simp [hlen]) (wf_reverse _ hwx) (wf_reverse _ hwy)
    simp only [List.reverse_reverse] at h1 h2 h3
    rcases hct : cmpTop x.limbs.reverse y.limbs.reverse with heq | hlt | hgt
    · -- .lt: |x| < |y|
      have hv := h1 hct
      obtain ⟨r, hr, hneg, hval⟩ := hgt_val y x hwy hwx (by omega) (by omega) hmy
      refine ⟨{ r with negative := true }, ?_, ?_⟩
      · simp only [sub_abs, if_pos hlen, hct, hr]; rfl
      · have : toInt { r with negative := true } = -(natVal r.limbs : Int) := by
          simp [toInt]
        rw [this]
        omega
    · -- .eq
      have hv := h3 hct
      refine ⟨⟨false, []⟩, ?_, ?_⟩
      · simp only [sub_abs, if_pos hlen, hct]
      · simp [toInt, natVal]
        omega
    · -- .gt: |x| > |y|
      have hv := h2 hct
      obtain ⟨r, hr, hneg, hval⟩ := hgt_val x y hwx hwy (by omega) (by omega) hmx
      refine ⟨r, ?_, ?_⟩
      · simp only [sub_abs, if_pos hlen, hct, hr]
      · rw [toInt, hneg]
        simp only [Bool.false_eq_true, if_false]
        omega
  · by_cases hgt : x.limbs.length > y.limbs.length
    · have hxne : x.limbs ≠ [] := by
        intro hc; rw [hc] at hgt; simp at hgt
      have hv : natVal y.limbs ≤ natVal x.limbs := by
        have h1 := natVal_lt y.limbs hwy
        have h2 := natVal_ge_getLast x.limbs hxne hlx
        have h3 : bi_base ^ y.limbs.length ≤ bi_base ^ (x.limbs.length - 1) :=
          Nat.pow_le_pow_right (by have := bi_base_pos; omega) (by omega)
        omega
      obtain ⟨r, hr, hneg, hval⟩ := hgt_val x y hwx hwy (by omega) hv hmx
      refine ⟨r, ?_, ?_⟩
      · simp only [sub_abs, if_neg hlen, if_pos hgt, hr]
      · rw [toInt, hneg]
        simp only [Bool.false_eq_true, if_false]
        omega
    · have hlt : x.limbs.length < y.limbs.length := by omega
      have hyne : y.limbs ≠ [] := by
        intro hc; rw [hc] at hlt; simp at hlt
      have hv : natVal x.limbs ≤ natVal y.limbs := by
        have h1 := natVal_lt x.limbs hwx
        have h2 := natVal_ge_getLast y.limbs hyne hly
        have h3 : bi_base ^ x.limbs.length ≤ bi_base ^ (y.limbs.length - 1) :=
          Nat.pow_le_pow_right (by have := bi_base_pos; omega) (by omega)
        omega
      obtain ⟨r, hr, hneg, hval⟩ := hgt_val y x hwy hwx (by omega) hv hmy
      refine ⟨{ r with negative := true }, ?_, ?_⟩
      · simp only [sub_abs, if_neg hlen,
          if_neg (by omega : ¬x.limbs.length > y.limbs.length), hr]
        rfl
      · have : toInt { r with negative := true } = -(natVal r.limbs : Int) := by
          simp [toInt]
        rw [this]
        omega

/-- Value of `add_abs`: produces `|x| + |y|` (nonnegative). -/
theorem add_abs_val (x y : bi_t)
    (hmx : x.limbs.length + 1 ≤ bi_max_digits)
    (hmy : y.limbs.length + 1 ≤ bi_max_digits) :
    ∃ r, add_abs x y = .ok r ∧
      r.negative = false ∧
      (natVal r.limbs : Int) = (natVal x.limbs : Int) + natVal y.limbs := by
  by_cases hge : x.limbs.length ≥ y.limbs.length
  · refine ⟨⟨false, trimLimbs (addLoop x.limbs y.limbs 0)⟩, ?_, rfl, ?_⟩
    · simp [add_abs, hge, Nat.not_lt.mpr hmx]
    · rw [natVal_trimLimbs, natVal_addLoop]
      push_cast
      ring
  · refine ⟨⟨false, trimLimbs (addLoop y.limbs x.limbs 0)⟩, ?_, rfl, ?_⟩
    · simp [add_abs, hge, Nat.not_lt.mpr hmy]
    · rw [natVal_trimLimbs, natVal_addLoop]
      push_cast
      ring

/-- Value of signed addition `bi_t::add`. -/
theorem add_val (x y : bi_t) (hx : Canonical x) (hy : Canonical y)
    (hmx : x.limbs.length + 1 ≤ bi_max_digits)
    (hmy : y.limbs.length + 1 ≤ bi_max_digits) :
    ∃ r, add x y = .ok r ∧ toInt r = toInt x + toInt y := by
  obtain ⟨hwx, hlx, hzx⟩ := hx
  obtain ⟨hwy, hly, hzy⟩ := hy
  by_cases hnx : x.negative <;> by_cases hny : y.negative
  · obtain ⟨r, hr, hneg, hval⟩ := add_abs_val x y hmx hmy
    refine ⟨{ r with negative := true }, ?_, ?_⟩
    · simp only [add, if_pos hnx, if_pos hny, hr]
      rfl
    · rw [toInt_of_neg _ rfl, toInt_of_neg x hnx, toInt_of_neg y hny]
      show -(natVal r.limbs : Int) = _
      omega
  · obtain ⟨r, hr, hval⟩ := sub_abs_val y x hwy hly hwx hlx (by omega) (by omega)
    refine ⟨r, ?_, ?_⟩
    · simp only [add, if_pos hnx, if_neg hny, hr]
    · rw [hval, toInt_of_neg x hnx,
        toInt_of_nonneg y (Bool.of_not_eq_true hny)]
      omega
  · obtain ⟨r, hr, hval⟩ := sub_abs_val x y hwx hlx hwy hly (by omega) (by omega)
    refine ⟨r, ?_, ?_⟩
    · simp only [add, if_neg hnx, if_pos hny, hr]
    · rw [hval, toInt_of_nonneg x (Bool.of_not_eq_true hnx), toInt_of_neg y hny]
      omega
  · obtain ⟨r, hr, hneg, hval⟩ := add_abs_val x y hmx hmy
    refine ⟨r, ?_, ?_⟩
    · simp only [add, if_neg hnx, if_neg hny, hr]
    · rw [toInt_of_nonneg r hneg, toInt_of_nonneg x (Bool.of_not_eq_true hnx),
        toInt_of_nonneg y (Bool.of_not_eq_true hny)]
      omega

/-- Value of signed subtraction `bi_t::sub`. -/
theorem sub_val (x y : bi_t) (hx : Canonical x) (hy : Canonical y)
    (hmx : x.limbs.length + 1 ≤ bi_max_digits)
    (hmy : y.limbs.length + 1 ≤ bi_max_digits) :
    ∃ r, sub x y = .ok r ∧ toInt r = toInt x - toInt y := by
  obtain ⟨hwx, hlx, hzx⟩ := hx
  obtain ⟨hwy, hly, hzy⟩ := hy
  by_cases hnx : x.negative <;> by_cases hny : y.negative
  · obtain ⟨r, hr, hval⟩ := sub_abs_val y x hwy hly hwx hlx (by omega) (by omega)
    refine ⟨r, ?_, ?_⟩
    · simp only [sub, if_pos hnx, if_pos hny, hr]
    · rw [hval, toInt_of_neg x hnx, toInt_of_neg y hny]
      omega
  · obtain ⟨r, hr, hneg, hval⟩ := add_abs_val x y hmx hmy
    refine ⟨{ r with negative := true }, ?_, ?_⟩
    · simp only [sub, if_pos hnx, if_neg hny, hr]
      rfl
    · rw [toInt_of_neg _ rfl, toInt_of_neg x hnx,
        toInt_of_nonneg y (Bool.of_not_eq_true hny)]
      show -(natVal r.limbs : Int) = _
      omega
  · obtain ⟨r, hr, hneg, hval⟩ := add_abs_val x y hmx hmy
    refine ⟨r, ?_, ?_⟩
    · simp only [sub, if_neg hnx, if_pos hny, hr]
    · rw [toInt_of_nonneg r hneg, toInt_of_nonneg x (Bool.of_not_eq_true hnx),
        toInt_of_neg y hny]
      omega
  · obtain ⟨r, hr, hval⟩ := sub_abs_val x y hwx hlx hwy hly (by omega) (by omega)
    refine ⟨r, ?_, ?_⟩
    · simp only [sub, if_neg hnx, if_neg hny, hr]
    · rw [hval, toInt_of_nonneg x (Bool.of_not_eq_true hnx),
        toInt_of_nonneg y (Bool.of_not_eq_true hny)]

/-! ### Increment / decrement values -/

/-- `bi_t` literal `1`. -/
def bi_one : bi_t := ⟨false, [1]⟩

theorem toInt_preInc (x : bi_t) (hx : Canonical x) :
    toInt (preInc x) = toInt x + 1 := by
  obtain ⟨hwx, hlx, hzx⟩ := hx
  by_cases hnx : x.negative
  · have hne : x.limbs ≠ [] := fun hc => by
      rw [hzx hc] at hnx; exact Bool.false_ne_true hnx
    have hpos : 0 < natVal x.limbs := natVal_pos_of_getLast _ hne hlx
    have hdec : natVal (decLimbs x.limbs) = natVal x.limbs - 1 :=
      natVal_decLimbs _ (by omega)
    simp only [preInc, hnx, Bool.not_true, Bool.false_eq_true, if_false,
      decrement_abs, if_neg hne]
    set y := trim ⟨true, decLimbs x.limbs⟩ with hy
    have hyval : natVal y.limbs = natVal x.limbs - 1 := by
      rw [hy, natVal_trim]; exact hdec
    by_cases hynil : y.limbs = []
    · rw [if_pos hynil]
      have h1 : natVal x.limbs = 1 := by
        rw [hynil] at hyval; simp [natVal] at hyval; omega
      rw [toInt_of_neg x hnx, h1]
      show toInt { y with negative := false } = _
      rw [toInt_of_nonneg _ rfl]
      simp [hynil, natVal]
    · rw [if_neg hynil]
      have hytrim : trimLimbs (decLimbs x.limbs) ≠ [] := by
        simpa [hy, trim] using hynil
      have hyneg : y.negative = true := by
        rw [hy]
        simp only [trim]
        rw [if_neg hytrim]
      rw [toInt_of_neg y hyneg, toInt_of_neg x hnx, hyval]
      omega
  · simp only [preInc, hnx, Bool.not_false, if_true, increment_abs]
    have hnx' : x.negative = false := Bool.of_not_eq_true hnx
    rw [toInt_of_nonneg _ (by simp), toInt_of_nonneg x hnx']
    show (natVal (incLimbs x.limbs) : Int) = _
    rw [natVal_incLimbs _ hwx]
    push_cast
    ring

theorem toInt_preDec (x : bi_t) (hwx : WfLimbs x.limbs)
    (hlx : x.limbs.getLast? ≠ some 0) :
    toInt (preDec x) = toInt x - 1 := by
  by_cases hnx : x.negative
  · simp only [preDec, hnx, Bool.not_true, Bool.false_eq_true, if_false,
      increment_abs]
    rw [toInt_of_neg _ (by simp), toInt_of_neg x hnx]
    show -(natVal (incLimbs x.limbs) : Int) = _
    rw [natVal_incLimbs _ hwx]
    push_cast
    ring
  · have hnx' : x.negative = false := Bool.of_not_eq_true hnx
    simp only [preDec, hnx, Bool.not_false, if_true, decrement_abs]
    by_cases hne : x.limbs = []
    · rw [if_pos hne]
      rw [toInt_of_neg _ rfl, toInt_of_nonneg x hnx']
      simp [hne, natVal]
    · rw [if_neg hne]
      have hpos : 0 < natVal x.limbs := natVal_pos_of_getLast _ hne hlx
      set y := trim ⟨false, decLimbs x.limbs⟩ with hy
      have hyval : natVal y.limbs = natVal x.limbs - 1 := by
        rw [hy, natVal_trim]
        exact natVal_decLimbs _ (by omega)
      have hyneg : y.negative = false := by
        rw [hy]
        simp only [trim]
        by_cases hz : trimLimbs (decLimbs x.limbs) = []
        · rw [if_pos hz]
        · rw [if_neg hz]
      rw [toInt_of_nonneg y hyneg, toInt_of_nonneg x hnx', hyval]
      omega

/-! ## `bi_t::test_bit` (`bi.cpp`, lines 583-591) -/

/-- `bi_t::test_bit`: test bit `i` of the magnitude, acting as if the integer
is nonnegative. A total, pure function: indices at or beyond the stored limbs
take the `size() <= digit_idx` early return. -/
def test_bit (x : bi_t) (i : Nat) : Bool :=
  let digit_idx := i / bi_dwidth
  if x.limbs.length ≤ digit_idx then false
  else decide ((x.limbs.getD digit_idx 0 >>> (i % bi_dwidth)) &&& 1 ≠ 0)

theorem testBit_natVal (ls : List Nat) (hw : WfLimbs ls) (i : Nat) :
    (natVal ls).testBit i = (ls.getD (i / bi_dwidth) 0).testBit (i % bi_dwidth) := by
  induction ls generalizing i with
  | nil =>
    simp [natVal, List.getD, Nat.zero_testBit]
  | cons d ds ih =>
    have hd : d < bi_base := hw d (List.mem_cons_self ..)
    have hds : WfLimbs ds := fun e he => hw e (List.mem_cons_of_mem _ he)
    have hcons : natVal (d :: ds) = 2 ^ 32 * natVal ds + d := by
      rw [natVal_cons]; simp [bi_base]; ring
    rw [hcons]
    rw [Nat.testBit_mul_pow_two_add _ (by simpa [bi_base] using hd)]
    by_cases hi : i < 32
    · rw [if_pos hi]
      have h1 : i / bi_dwidth = 0 := Nat.div_eq_of_lt (by simpa [bi_dwidth] using hi)
      have h2 : i % bi_dwidth = i := Nat.mod_eq_of_lt (by simpa [bi_dwidth] using hi)
      simp [h1, h2, List.getD]
    · rw [if_neg hi]
      push_neg at hi
      rw [ih hds (i - 32)]
      have h1 : i / bi_dwidth = (i - 32) / bi_dwidth + 1 := by
        simp only [bi_dwidth]; omega
      have h2 : i % bi_dwidth = (i - 32) % bi_dwidth := by
        simp only [bi_dwidth]; omega
      rw [h1, h2]
      simp [List.getD]

/-! ## Claim C9 -/

/-- C9: for every canonical `bi_t` (of fewer than the maximum number of
limbs), pre-increment computes the same value as adding `1` through the
general signed addition routine, and pre-decrement the same value as
subtracting `1`: the dedicated magnitude carry/borrow paths agree with
`bi_t::add`/`bi_t::sub` applied with operand `1`. -/
theorem preInc_preDec_equiv_add_sub_one (x : bi_t) (hx : Canonical x)
    (hlen : x.limbs.length + 1 ≤ bi_max_digits) :
    toInt (preInc x) = toInt x + 1 ∧
    toInt (preDec x) = toInt x - 1 ∧
    (∃ z, add x bi_one = .ok z ∧ toInt z = toInt (preInc x)) ∧
    (∃ z, sub x bi_one = .ok z ∧ toInt z = toInt (preDec x)) := by
  have hone : Canonical bi_one := by decide
  have h1 : toInt bi_one = 1 := by decide
  have hinc := toInt_preInc x hx
  have hdec := toInt_preDec x hx.1 hx.2.1
  refine ⟨hinc, hdec, ?_, ?_⟩
  · obtain ⟨z, hz, hzval⟩ := add_val x bi_one hx hone hlen (by decide)
    exact ⟨z, hz, by rw [hzval, h1, hinc]⟩
  · obtain ⟨z, hz, hzval⟩ := sub_val x bi_one hx hone hlen (by decide)
    exact ⟨z, hz, by rw [hzval, h1, hdec]⟩

/-- Witness for C9 at `x = -256`. -/
theorem preInc_preDec_equiv_add_sub_one_witness :
    toInt (preInc ⟨true, [256]⟩) = toInt ⟨true, [256]⟩ + 1 ∧
    toInt (preDec ⟨true, [256]⟩) = toInt ⟨true, [256]⟩ - 1 ∧
    (∃ z, add ⟨true, [256]⟩ bi_one = .ok z ∧
      toInt z = toInt (preInc ⟨true, [256]⟩)) ∧
    (∃ z, sub ⟨true, [256]⟩ bi_one = .ok z ∧
      toInt z = toInt (preDec ⟨true, [256]⟩)) :=
  preInc_preDec_equiv_add_sub_one ⟨true, [256]⟩ (by decide) (by decide)

/-! ## Claim C10 -/

/-- C10: `test_bit` is a total pure function returning bit `i` of the
magnitude `|x|` regardless of the sign, and every index at or beyond the
stored limbs (`i ≥ W · size(x)`) returns `false`. -/
theorem test_bit_spec (x : bi_t) (hw : WfLimbs x.limbs) (i : Nat) :
    test_bit x i = (natVal x.limbs).testBit i ∧
    (bi_dwidth * x.limbs.length ≤ i → test_bit x i = false) := by
  constructor
  · rw [testBit_natVal x.limbs hw i]
    simp only [test_bit]
    by_cases hidx : x.limbs.length ≤ i / bi_dwidth
    · rw [if_pos hidx]
      have h0 : x.limbs.getD (i / bi_dwidth) 0 = 0 :=
        List.getD_eq_default _ _ (by omega)
      rw [h0, Nat.zero_testBit]
    · rw [if_neg hidx]
      simp only [Nat.and_one_is_mod, Nat.shiftRight_eq_div_pow]
      rw [Nat.testBit_to_div_mod]
      exact (decide_eq_decide.mpr (by omega)).symm
  · intro hge
    simp only [test_bit]
    rw [if_pos ?_]
    have h32 : bi_dwidth = 32 := rfl
    rw [h32] at hge ⊢
    omega

/-- Witness for C10 at `x = -6` (negative sign, magnitude `6`): bit `1` of
the magnitude is set, and index `64` (beyond the single stored limb) reads
`false`. -/
theorem test_bit_spec_witness :
    (test_bit ⟨true, [6]⟩ 1 = (natVal [6]).testBit 1 ∧
      (bi_dwidth * 1 ≤ 1 → test_bit ⟨true, [6]⟩ 1 = false)) ∧
    (test_bit ⟨true, [6]⟩ 64 = (natVal [6]).testBit 64 ∧
      (bi_dwidth * 1 ≤ 64 → test_bit ⟨true, [6]⟩ 64 = false)) :=
  ⟨test_bit_spec ⟨true, [6]⟩ (by decide) 1,
    test_bit_spec ⟨true, [6]⟩ (by decide) 64⟩

/-! ## `bi_t::right_shift` (`bi.cpp`, lines 1209-1273) -/

/-- `bi_t::right_shift` (used by `operator>>`): truncating shift of the
magnitude, then the floor adjustment for negative values (subtract one when a
discarded bit was set, via `operator--`). -/
def right_shift (x : bi_t) (n_bits : Nat) : bi_t :=
  let size_x := x.limbs.length
  let digit_shift := n_bits / bi_dwidth
  let bit_shift := n_bits % bi_dwidth
  if size_x ≤ digit_shift then
    if x.negative then ⟨true, [1]⟩ else ⟨false, []⟩
  else
    let size_r := size_x - digit_shift
    let limbs :=
      if bit_shift = 0 then
        (List.range size_r).map fun i => x.limbs.getD (i + digit_shift) 0
      else
        (List.range size_r).map fun i =>
          let k := digit_shift + 1 + i
          let lo := x.limbs.getD (k - 1) 0 >>> bit_shift
          if k < size_x then
            lo ||| ((x.limbs.getD k 0 <<< (bi_dwidth - bit_shift)) % bi_base)
          else lo
    -- trim_trailing_zeros, then `result.negative_ = x.negative()` (the sign
    -- reset by the trim is overwritten)
    let r : bi_t := ⟨x.negative, trimLimbs limbs⟩
    if x.negative then
      let mask := (1 <<< bit_shift) - 1
      let s1 : Bool := decide (0 < bit_shift) &&
        decide (x.limbs.getD digit_shift 0 &&& mask ≠ 0)
      let s2 : Bool := !s1 && decide (0 < digit_shift) &&
        ((List.range digit_shift).any fun i => decide (x.limbs.getD i 0 ≠ 0))
      if s1 || s2 then preDec r else r
    else r

/-! ### Helper lemmas for the shift proof -/

theorem or_eq_add_of_lt_pow (a m k : Nat) (ha : a < 2 ^ k) :
    a ||| (m * 2 ^ k) = a + m * 2 ^ k := by
  apply Nat.eq_of_testBit_eq
  intro i
  rw [Nat.testBit_lor]
  have hcomm : m * 2 ^ k = 2 ^ k * m := Nat.mul_comm _ _
  have h1 : (m * 2 ^ k).testBit i = if i < k then false else m.testBit (i - k) := by
    rw [hcomm]
    have := Nat.testBit_mul_pow_two_add m (show 0 < 2 ^ k by positivity) i
    simpa using this
  have h2 : (a + m * 2 ^ k).testBit i =
      if i < k then a.testBit i else m.testBit (i - k) := by
    rw [hcomm, Nat.add_comm a, Nat.testBit_mul_pow_two_add m ha i]
  rw [h1, h2]
  by_cases hik : i < k
  · simp [hik]
  · rw [if_neg hik, if_neg hik]
    have hafalse : a.testBit i = false :=
      Nat.testBit_lt_two_pow (lt_of_lt_of_le ha
        (Nat.pow_le_pow_right (by omega) (by omega)))
    rw [hafalse, Bool.false_or]

theorem mem_trimLimbs (ls : List Nat) (d : Nat) (h : d ∈ trimLimbs ls) :
    d ∈ ls := by
  induction ls with
  | nil => simp [trimLimbs] at h
  | cons e es ih =>
    simp only [trimLimbs] at h
    cases he : trimLimbs es with
    | nil =>
      rw [he] at h
      by_cases hz : e = 0
      · rw [if_pos hz] at h; cases h
      · rw [if_neg hz] at h
        simp at h
        simp [h]
    | cons f fs =>
      rw [he] at h
      rcases List.mem_cons.mp h with heq | hmem
      · simp [heq]
      · refine List.mem_cons_of_mem _ (ih ?_)
        rw [he]
        exact hmem

theorem wf_trimLimbs (ls : List Nat) (h : WfLimbs ls) : WfLimbs (trimLimbs ls) :=
  fun d hd => h d (mem_trimLimbs ls d hd)

theorem trimLimbs_getLast (ls : List Nat) :
    (trimLimbs ls).getLast? ≠ some 0 := by
  induction ls with
  | nil => simp [trimLimbs]
  | cons d ds ih =>
    simp only [trimLimbs]
    cases h : trimLimbs ds with
    | nil =>
      by_cases hz : d = 0
      · simp [hz]
      · simp [hz, List.getLast?_singleton, hz]
    | cons e es =>
      rw [h] at ih
      rw [List.getLast?_cons_cons]
      exact ih

theorem natVal_zero_iff_all (ls : List Nat) :
    natVal ls = 0 ↔ ∀ d ∈ ls, d = 0 := by
  induction ls with
  | nil => simp [natVal]
  | cons d ds ih =>
    have hb := bi_base_pos
    simp only [natVal_cons, List.mem_cons]
    constructor
    · intro h
      have hd : d = 0 := by omega
      have hds : natVal ds = 0 := by
        rcases Nat.eq_zero_or_pos (natVal ds) with h0 | h0
        · exact h0
        · exfalso; have := Nat.mul_pos hb h0; omega
      intro e he
      rcases he with he | he
      · omega
      · exact ih.mp hds e he
    · intro h
      have hd : d = 0 := h d (Or.inl rfl)
      have hds : natVal ds = 0 := ih.mpr fun e he => h e (Or.inr he)
      simp [hd, hds]

theorem natVal_take_zero_iff (ls : List Nat) (k : Nat) :
    natVal (ls.take k) = 0 ↔ ∀ i < k, ls.getD i 0 = 0 := by
  induction ls generalizing k with
  | nil => simp [natVal, List.getD]
  | cons d ds ih =>
    cases k with
    | zero => simp [natVal]
    | succ k =>
      have hb := bi_base_pos
      simp only [List.take_succ_cons, natVal_cons]
      constructor
      · intro h
        have hd : d = 0 := by omega
        have hds : natVal (ds.take k) = 0 := by
          rcases Nat.eq_zero_or_pos (natVal (ds.take k)) with h0 | h0
          · exact h0
          · exfalso; have := Nat.mul_pos hb h0; omega
        intro i hi
        cases i with
        | zero => simpa using hd
        | succ i => simpa using (ih k).mp hds i (by omega)
      · intro h
        have hd : d = 0 := by simpa using h 0 (by omega)
        have hds : natVal (ds.take k) = 0 :=
          (ih k).mpr fun i hi => by simpa using h (i + 1) (by omega)
        simp [hd, hds]

/-- Dropping `k` limbs divides the value by `bi_base ^ k`. -/
theorem natVal_drop (ls : List Nat) (k : Nat) (hw : WfLimbs ls)
    (hk : k ≤ ls.length) :
    natVal (ls.drop k) = natVal ls / bi_base ^ k := by
  conv_rhs => rw [← List.take_append_drop k ls]
  rw [natVal_append]
  have hlen : (ls.take k).length = k := List.length_take_of_le hk
  have htk : natVal (ls.take k) < bi_base ^ k := by
    have := natVal_lt (ls.take k) fun d hd => hw d (List.mem_of_mem_take hd)
    rwa [hlen] at this
  rw [hlen, Nat.add_mul_div_left _ _ (pow_pos bi_base_pos k),
    Nat.div_eq_of_lt htk, Nat.zero_add]

/-- The value of the shifted-digit list produced by the `bit_shift != 0`
branch of `right_shift`: dividing the dropped-limb value by `2 ^ bit_shift`. -/
theorem natVal_bitShiftList (d : List Nat) (bs : Nat) (hbs1 : 0 < bs)
    (hbs2 : bs < 32) (hw : WfLimbs d) :
    natVal ((List.range d.length).map fun i =>
      (d.getD i 0 >>> bs) ||| ((d.getD (i + 1) 0 <<< (32 - bs)) % bi_base)) =
      natVal d / 2 ^ bs := by
  induction d with
  | nil => simp [natVal]
  | cons e es ih =>
    have he : e < bi_base := hw e (List.mem_cons_self ..)
    have hes : WfLimbs es := fun a ha => hw a (List.mem_cons_of_mem _ ha)
    have he0 : es.getD 0 0 < bi_base := by
      cases es with
      | nil => simp [List.getD]; exact bi_base_pos
      | cons a as => simpa [List.getD] using hes a (List.mem_cons_self ..)
    rw [List.length_cons, List.range_succ_eq_map, List.map_cons, List.map_map]
    have hmap : (List.range es.length).map
        ((fun i => ((e :: es).getD i 0 >>> bs) |||
          (((e :: es).getD (i + 1) 0 <<< (32 - bs)) % bi_base)) ∘ Nat.succ) =
        (List.range es.length).map fun i =>
          (es.getD i 0 >>> bs) ||| ((es.getD (i + 1) 0 <<< (32 - bs)) % bi_base) := by
      apply List.map_congr_left
      intro i _
      simp only [Function.comp_apply, Nat.succ_eq_add_one, List.getD_cons_succ]
    rw [hmap, natVal_cons, ih hes]
    simp only [List.getD_cons_zero, List.getD_cons_succ]
    -- head digit: (e >>> bs) ||| ((es[0] <<< (32 - bs)) % 2^32)
    have hsplit : (2 : Nat) ^ 32 = 2 ^ bs * 2 ^ (32 - bs) := by
      rw [← pow_add]; congr 1; omega
    have hmod : (es.getD 0 0 <<< (32 - bs)) % bi_base =
        (es.getD 0 0 % 2 ^ bs) * 2 ^ (32 - bs) := by
      rw [Nat.shiftLeft_eq, bi_base, hsplit, Nat.mul_mod_mul_right]
    have hlo : e >>> bs = e / 2 ^ bs := Nat.shiftRight_eq_div_pow e bs
    have hlolt : e / 2 ^ bs < 2 ^ (32 - bs) := by
      rw [Nat.div_lt_iff_lt_mul (by positivity)]
      calc e < 2 ^ 32 := by simpa [bi_base] using he
        _ = 2 ^ (32 - bs) * 2 ^ bs := by rw [← pow_add]; congr 1; omega
    rw [hmod, hlo, or_eq_add_of_lt_pow _ _ _ hlolt]
    conv_rhs => rw [natVal_cons]
    -- arithmetic: (e / 2^bs + (es₀ % 2^bs) * 2^(32-bs)) + B * (v / 2^bs)
    --           = (e + B * v) / 2^bs   where v = natVal es, es₀ = v % 2^bs digit
    have hv0 : natVal es % 2 ^ bs = es.getD 0 0 % 2 ^ bs := by
      cases es with
      | nil => simp [natVal, List.getD]
      | cons a as =>
        simp only [natVal_cons, List.getD_cons_zero]
        have hB : bi_base * natVal as = 2 ^ bs * (2 ^ (32 - bs) * natVal as) := by
          rw [bi_base, hsplit]; ring
        rw [hB, Nat.add_mul_mod_self_left]
    rw [← hv0]
    have hdecomp := Nat.div_add_mod (natVal es) (2 ^ bs)
    have hediv := Nat.div_add_mod e (2 ^ bs)
    have hcalc : e + bi_base * natVal es =
        (e / 2 ^ bs + natVal es % 2 ^ bs * 2 ^ (32 - bs) +
          bi_base * (natVal es / 2 ^ bs)) * 2 ^ bs + e % 2 ^ bs := by
      conv_lhs => rw [← hediv, ← hdecomp]
      rw [bi_base, hsplit]
      ring
    have hkey : (e + bi_base * natVal es) / 2 ^ bs =
        e / 2 ^ bs + natVal es % 2 ^ bs * 2 ^ (32 - bs) +
          bi_base * (natVal es / 2 ^ bs) := by
      apply Nat.div_eq_of_lt_le
      · rw [hcalc]
        exact Nat.le_add_right _ _
      · rw [hcalc, Nat.succ_mul]
        have := Nat.mod_lt e (show 0 < 2 ^ bs by positivity)
        omega
    rw [hkey]

/-- Floor division of a negated natural by a positive natural. -/
theorem fdiv_neg_ofNat (a b : Nat) (hb : 0 < b) :
    Int.fdiv (-(a : Int)) b = -((a / b : Nat) : Int) -
      (if a % b = 0 then 0 else 1) := by
  rw [Int.fdiv_eq_ediv _ (by positivity)]
  have hbz : (0:Int) < (b:Int) := by exact_mod_cast hb
  have hcast : ((b:Int) * ((a / b : Nat) : Int) + ((a % b : Nat) : Int)) =
      (a:Int) := by exact_mod_cast Nat.div_add_mod a b
  by_cases h : a % b = 0
  · rw [if_pos h]
    have h0 : ((a % b : Nat) : Int) = 0 := by exact_mod_cast h
    have huniq := (Int.ediv_emod_unique hbz).mpr
      (show (0:Int) + (b:Int) * (-((a / b : Nat) : Int)) = -(a:Int) ∧
        (0:Int) ≤ 0 ∧ (0:Int) < (b:Int) from
        ⟨by rw [← hcast, h0]; ring, le_refl 0, hbz⟩)
    rw [huniq.1]
    omega
  · rw [if_neg h]
    have hmod : 0 < a % b := Nat.pos_of_ne_zero h
    have hmodlt : a % b < b := Nat.mod_lt _ hb
    have hmodc : (0:Int) < ((a % b : Nat) : Int) := by exact_mod_cast hmod
    have hmodltc : ((a % b : Nat) : Int) < (b:Int) := by exact_mod_cast hmodlt
    have huniq := (Int.ediv_emod_unique hbz).mpr
      (show ((b:Int) - ((a % b : Nat) : Int)) +
          (b:Int) * (-((a / b : Nat) : Int) - 1) = -(a:Int) ∧
        (0:Int) ≤ (b:Int) - ((a % b : Nat) : Int) ∧
          (b:Int) - ((a % b : Nat) : Int) < (b:Int) from
        ⟨by rw [← hcast]; ring, by omega, by omega⟩)
    rw [huniq.1]

theorem getD_drop (ls : List Nat) (k i : Nat) :
    (ls.drop k).getD i 0 = ls.getD (k + i) 0 := by
  rw [List.getD_eq_getElem?_getD, List.getD_eq_getElem?_getD,
    List.getElem?_drop]

theorem range_map_getD (ls : List Nat) :
    (List.range ls.length).map (fun i => ls.getD i 0) = ls := by
  induction ls with
  | nil => simp
  | cons d ds ih =>
    rw [List.length_cons, List.range_succ_eq_map, List.map_cons, List.map_map]
    have h2 : ((fun i => (d :: ds).getD i 0) ∘ Nat.succ) =
        fun i => ds.getD i 0 := by
      funext i
      simp [Function.comp, List.getD_cons_succ]
    rw [h2, ih]
    rfl

theorem range_map_getD_drop (ls : List Nat) (k : Nat) (_hk : k ≤ ls.length) :
    (List.range (ls.length - k)).map (fun i => ls.getD (i + k) 0) =
      ls.drop k := by
  have hlen : (ls.drop k).length = ls.length - k := List.length_drop ..
  conv_rhs => rw [← range_map_getD (ls.drop k), hlen]
  apply List.map_congr_left
  intro i _
  rw [getD_drop, Nat.add_comm]

/-- `(t + M·v) % (M·m) = t + M·(v % m)` for `t < M`. -/
theorem add_mul_mod_mul (t M v m : Nat) (ht : t < M) (hm : 0 < m) :
    (t + M * v) % (M * m) = t + M * (v % m) := by
  conv_lhs => rw [← Nat.div_add_mod v m]
  have h1 : t + M * (m * (v / m) + v % m) =
      t + M * (v % m) + (M * m) * (v / m) := by ring
  rw [h1, Nat.add_mul_mod_self_left, Nat.mod_eq_of_lt]
  have hvm : v % m < m := Nat.mod_lt _ hm
  calc t + M * (v % m) < M + M * (v % m) := by omega
    _ ≤ M * m := by
        have h2 : M * (v % m + 1) ≤ M * m := Nat.mul_le_mul_left M (by omega)
        rw [Nat.mul_add, Nat.mul_one] at h2
        omega

/-- C2: for every canonical `bi_t` value `x` and shift `s`,
`right_shift` (the kernel of `operator>>`) computes `⌊x / 2^s⌋`:
an arithmetic shift with sign extension (floor, not truncation). -/
theorem right_shift_val (x : bi_t) (hx : Canonical x) (s : Nat) :
    toInt (right_shift x s) = Int.fdiv (toInt x) ((2 : Int) ^ s) := by
  obtain ⟨hwx, hlx, hzx⟩ := hx
  have hb := bi_base_pos
  set ds := s / bi_dwidth with hds
  set bs := s % bi_dwidth with hbs
  have h32 : bi_dwidth = 32 := rfl
  have hsplit : s = 32 * ds + bs := by rw [hds, hbs, h32]; omega
  have hbs32 : bs < 32 := by rw [hbs, h32]; exact Nat.mod_lt _ (by omega)
  have hpow : (2 : Nat) ^ s = bi_base ^ ds * 2 ^ bs := by
    rw [hsplit, pow_add, pow_mul]
    norm_num [bi_base]
  have hcast2 : ((2 : Int) ^ s) = ((2 ^ s : Nat) : Int) := by push_cast; ring
  set nv := natVal x.limbs with hnv
  by_cases hsz : x.limbs.length ≤ ds
  · -- all limbs shifted out
    have hlt : nv < 2 ^ s := by
      calc nv < bi_base ^ x.limbs.length := natVal_lt _ hwx
        _ ≤ bi_base ^ ds := Nat.pow_le_pow_right (by omega) hsz
        _ ≤ bi_base ^ ds * 2 ^ bs := Nat.le_mul_of_pos_right _ (by positivity)
        _ = 2 ^ s := hpow.symm
    have hdiv0 : nv / 2 ^ s = 0 := Nat.div_eq_of_lt hlt
    by_cases hnx : x.negative
    · have hne : x.limbs ≠ [] := fun hc => by
        rw [hzx hc] at hnx; exact Bool.false_ne_true hnx
      have hpos : 0 < nv := natVal_pos_of_getLast _ hne hlx
      have hres : right_shift x s = ⟨true, [1]⟩ := by
        rw [right_shift]
        rw [if_pos hsz, if_pos hnx]
      rw [hres, toInt_of_neg _ rfl, toInt_of_neg x hnx, hcast2,
        fdiv_neg_ofNat nv (2 ^ s) (by positivity), hdiv0,
        if_neg (by rw [Nat.mod_eq_of_lt hlt]; omega)]
      simp [natVal]
    · have hres : right_shift x s = ⟨false, []⟩ := by
        rw [right_shift]
        rw [if_pos hsz, if_neg hnx]
      rw [hres, toInt_of_nonneg _ rfl, toInt_of_nonneg x (Bool.of_not_eq_true hnx),
        hcast2, ← Int.ofNat_fdiv, hdiv0]
      simp [natVal]
  · -- main path
    push_neg at hsz
    have h079 : ds < x.limbs.length := hsz
    -- value of the truncating shift
    have hdropwf : WfLimbs (x.limbs.drop ds) :=
      fun d hd => hwx d (List.mem_of_mem_drop hd)
    have hLval : ∀ L, (bs = 0 →
          L = (List.range (x.limbs.length - ds)).map
            (fun i => x.limbs.getD (i + ds) 0)) → (bs ≠ 0 →
          L = (List.range (x.limbs.length - ds)).map fun i =>
            let k := ds + 1 + i
            let lo := x.limbs.getD (k - 1) 0 >>> bs
            if k < x.limbs.length then
              lo ||| ((x.limbs.getD k 0 <<< (bi_dwidth - bs)) % bi_base)
            else lo) →
        natVal L = nv / 2 ^ s := by
      intro L h0 hpos
      by_cases hbz : bs = 0
      · rw [h0 hbz, range_map_getD_drop _ _ (by omega),
          natVal_drop _ _ hwx (by omega), hpow, hbz]
        simp
      · have hbspos : 0 < bs := Nat.pos_of_ne_zero hbz
        rw [hpos hbz]
        have hform : (List.range (x.limbs.length - ds)).map (fun i =>
            let k := ds + 1 + i
            let lo := x.limbs.getD (k - 1) 0 >>> bs
            if k < x.limbs.length then
              lo ||| ((x.limbs.getD k 0 <<< (bi_dwidth - bs)) % bi_base)
            else lo) =
            (List.range ((x.limbs.drop ds).length)).map (fun i =>
              ((x.limbs.drop ds).getD i 0 >>> bs) |||
                (((x.limbs.drop ds).getD (i + 1) 0 <<< (32 - bs)) % bi_base)) := by
          rw [List.length_drop]
          apply List.map_congr_left
          intro i hi
          rw [List.mem_range] at hi
          simp only [h32]
          have hk1 : ds + 1 + i - 1 = ds + i := by omega
          rw [hk1, getD_drop, getD_drop]
          by_cases hk : ds + 1 + i < x.limbs.length
          · rw [if_pos hk]
            have : ds + (i + 1) = ds + 1 + i := by omega
            rw [this]
          · rw [if_neg hk]
            have hgd : x.limbs.getD (ds + (i + 1)) 0 = 0 :=
              List.getD_eq_default _ _ (by omega)
            rw [hgd]
            have : ((0 : Nat) <<< (32 - bs)) % bi_base = 0 := by
              simp [Nat.shiftLeft_eq]
            rw [this, Nat.or_zero]
        rw [hform, natVal_bitShiftList _ bs hbspos hbs32 hdropwf,
          natVal_drop _ _ hwx (by omega), hpow, Nat.div_div_eq_div_mul]
    -- the discarded bits
    have hdisc : nv % 2 ^ s =
        natVal (x.limbs.take ds) + bi_base ^ ds * (x.limbs.getD ds 0 % 2 ^ bs) := by
      have htake : natVal (x.limbs.take ds) < bi_base ^ ds := by
        have hlen : (x.limbs.take ds).length = ds := List.length_take_of_le (by omega)
        have := natVal_lt (x.limbs.take ds)
          (fun d hd => hwx d (List.mem_of_mem_take hd))
        rwa [hlen] at this
      have hsplitv : nv = natVal (x.limbs.take ds) +
          bi_base ^ ds * natVal (x.limbs.drop ds) := by
        conv_lhs => rw [hnv, ← List.take_append_drop ds x.limbs]
        rw [natVal_append, List.length_take_of_le (by omega)]
      have hdropcons : x.limbs.drop ds = x.limbs.getD ds 0 :: x.limbs.drop (ds + 1) := by
        have h1 : x.limbs.getD ds 0 = x.limbs[ds] := by
          rw [List.getD_eq_getElem?_getD, List.getElem?_eq_getElem hsz,
            Option.getD_some]
        rw [h1]
        exact List.drop_eq_getElem_cons hsz
      have hmodv : natVal (x.limbs.drop ds) % 2 ^ bs =
          x.limbs.getD ds 0 % 2 ^ bs := by
        rw [hdropcons, natVal_cons]
        have h1 : bi_base * natVal (x.limbs.drop (ds + 1)) =
            2 ^ bs * (2 ^ (32 - bs) * natVal (x.limbs.drop (ds + 1))) := by
          rw [bi_base, show (2:Nat) ^ 32 = 2 ^ bs * 2 ^ (32 - bs) from by
            rw [← pow_add]; congr 1; omega]
          ring
        rw [h1, Nat.add_mul_mod_self_left]
      rw [hsplitv, hpow,
        add_mul_mod_mul _ _ _ _ htake (by positivity), hmodv]
    -- well-formedness of the shifted digit list
    have hwfL : ∀ L, (bs = 0 →
          L = (List.range (x.limbs.length - ds)).map
            (fun i => x.limbs.getD (i + ds) 0)) → (bs ≠ 0 →
          L = (List.range (x.limbs.length - ds)).map fun i =>
            let k := ds + 1 + i
            let lo := x.limbs.getD (k - 1) 0 >>> bs
            if k < x.limbs.length then
              lo ||| ((x.limbs.getD k 0 <<< (bi_dwidth - bs)) % bi_base)
            else lo) →
        WfLimbs L := by
      intro L h0 hpos d hd
      have hgetD : ∀ j, x.limbs.getD j 0 < bi_base := by
        intro j
        rcases Nat.lt_or_ge j x.limbs.length with hj | hj
        · rw [List.getD_eq_getElem?_getD, List.getElem?_eq_getElem hj,
            Option.getD_some]
          exact hwx _ (List.getElem_mem ..)
        · rw [List.getD_eq_default _ _ hj]; exact bi_base_pos
      by_cases hbz : bs = 0
      · rw [h0 hbz] at hd
        obtain ⟨i, _, rfl⟩ := List.mem_map.mp hd
        exact hgetD _
      · rw [hpos hbz] at hd
        obtain ⟨i, _, rfl⟩ := List.mem_map.mp hd
        simp only
        have hbspos : 0 < bs := Nat.pos_of_ne_zero hbz
        have hlobound : x.limbs.getD (ds + 1 + i - 1) 0 >>> bs < 2 ^ (32 - bs) := by
          rw [Nat.shiftRight_eq_div_pow, Nat.div_lt_iff_lt_mul (by positivity)]
          calc x.limbs.getD (ds + 1 + i - 1) 0 < bi_base := hgetD _
            _ = 2 ^ (32 - bs) * 2 ^ bs := by
                rw [bi_base, ← pow_add]; congr 1; omega
        by_cases hk : ds + 1 + i < x.limbs.length
        · rw [if_pos hk]
          have hm : (x.limbs.getD (ds + 1 + i) 0 <<< (bi_dwidth - bs)) % bi_base =
              (x.limbs.getD (ds + 1 + i) 0 % 2 ^ bs) * 2 ^ (32 - bs) := by
            rw [Nat.shiftLeft_eq, h32, bi_base,
              show (2:Nat) ^ 32 = 2 ^ bs * 2 ^ (32 - bs) from by
                rw [← pow_add]; congr 1; omega,
              Nat.mul_mod_mul_right]
          rw [hm, or_eq_add_of_lt_pow _ _ _ hlobound]
          have hmodlt : x.limbs.getD (ds + 1 + i) 0 % 2 ^ bs < 2 ^ bs :=
            Nat.mod_lt _ (by positivity)
          calc x.limbs.getD (ds + 1 + i - 1) 0 >>> bs +
                x.limbs.getD (ds + 1 + i) 0 % 2 ^ bs * 2 ^ (32 - bs)
              < 2 ^ (32 - bs) + (2 ^ bs - 1) * 2 ^ (32 - bs) := by
                have h1 : x.limbs.getD (ds + 1 + i) 0 % 2 ^ bs ≤ 2 ^ bs - 1 := by
                  omega
                have h2 := Nat.mul_le_mul_right (2 ^ (32 - bs)) h1
                omega
            _ = 2 ^ bs * 2 ^ (32 - bs) := by
                have hp : 0 < (2:Nat) ^ bs := by positivity
                have hq : (2:Nat) ^ (32 - bs) ≤ 2 ^ bs * 2 ^ (32 - bs) :=
                  Nat.le_mul_of_pos_left _ hp
                rw [Nat.sub_mul, one_mul]
                omega
            _ = bi_base := by rw [bi_base, ← pow_add]; congr 1; omega
        · rw [if_neg hk]
          calc x.limbs.getD (ds + 1 + i - 1) 0 >>> bs
              < 2 ^ (32 - bs) := hlobound
            _ ≤ bi_base := by
                rw [bi_base]
                exact Nat.pow_le_pow_right (by omega) (by omega)
    -- unfold the main branch of right_shift
    have hcond : ∀ (c : Prop) [Decidable c], ¬c →
        ∀ (a b : bi_t), (if c then a else b) = b := fun c _ hc a b => if_neg hc
    by_cases hnx : x.negative
    · -- negative: truncate then floor-adjust
      have hne : x.limbs ≠ [] := fun hc => by
        rw [hzx hc] at hnx; exact Bool.false_ne_true hnx
      have hnvpos : 0 < nv := natVal_pos_of_getLast _ hne hlx
      simp only [right_shift, ← hds, ← hbs]
      rw [if_neg (by omega : ¬ x.limbs.length ≤ ds), if_pos hnx]
      set Lexpr := (if bs = 0 then
          (List.range (x.limbs.length - ds)).map
            (fun i => x.limbs.getD (i + ds) 0)
        else
          (List.range (x.limbs.length - ds)).map fun i =>
            let k := ds + 1 + i
            let lo := x.limbs.getD (k - 1) 0 >>> bs
            if k < x.limbs.length then
              lo ||| ((x.limbs.getD k 0 <<< (bi_dwidth - bs)) % bi_base)
            else lo) with hLdef
      have hLv : natVal Lexpr = nv / 2 ^ s := by
        apply hLval Lexpr
        · intro hz; rw [hLdef, if_pos hz]
        · intro hz; rw [hLdef, if_neg hz]
      have hLwf : WfLimbs Lexpr := by
        apply hwfL Lexpr
        · intro hz; rw [hLdef, if_pos hz]
        · intro hz; rw [hLdef, if_neg hz]
      set r : bi_t := ⟨x.negative, trimLimbs Lexpr⟩ with hrdef
      have hrneg : r.negative = true := hnx
      have hrval : natVal r.limbs = nv / 2 ^ s := by
        rw [hrdef]
        show natVal (trimLimbs Lexpr) = _
        rw [natVal_trimLimbs, hLv]
      have hrwf : WfLimbs r.limbs := wf_trimLimbs _ hLwf
      have hrlast : r.limbs.getLast? ≠ some 0 := trimLimbs_getLast _
      have hmask : x.limbs.getD ds 0 &&& ((1 <<< bs) - 1) =
          x.limbs.getD ds 0 % 2 ^ bs := by
        rw [Nat.shiftLeft_eq, one_mul, Nat.and_pow_two_sub_one_eq_mod]
      have hany : ((List.range ds).any fun i =>
          decide (x.limbs.getD i 0 ≠ 0)) = true ↔
          natVal (x.limbs.take ds) ≠ 0 := by
        rw [List.any_eq_true]
        constructor
        · rintro ⟨i, hi, hpi⟩ h0
          rw [natVal_take_zero_iff] at h0
          exact (of_decide_eq_true hpi) (h0 i (List.mem_range.mp hi))
        · intro hv0
          by_contra hc
          push_neg at hc
          apply hv0
          rw [natVal_take_zero_iff]
          intro i hi
          by_contra hne0
          exact absurd (decide_eq_true hne0) (by
            intro hd
            exact absurd hd (by
              have := hc i (List.mem_range.mpr hi)
              simpa using this))
      set s1 : Bool := decide (0 < bs) &&
        decide (x.limbs.getD ds 0 &&& ((1 <<< bs) - 1) ≠ 0) with hs1
      set s2 : Bool := !s1 && decide (0 < ds) &&
        ((List.range ds).any fun i => decide (x.limbs.getD i 0 ≠ 0)) with hs2
      have hiff : (s1 || s2) = true ↔ nv % 2 ^ s ≠ 0 := by
        rw [hdisc]
        constructor
        · intro h
          rcases Bool.or_eq_true _ _ |>.mp h with h1 | h2
          · rw [hs1, Bool.and_eq_true, decide_eq_true_iff, decide_eq_true_iff,
              hmask] at h1
            have hpos2 : 0 < bi_base ^ ds * (x.limbs.getD ds 0 % 2 ^ bs) :=
              Nat.mul_pos (pow_pos bi_base_pos ds) (by omega)
            omega
          · rw [hs2, Bool.and_eq_true, Bool.and_eq_true] at h2
            have := hany.mp h2.2
            omega
        · intro h
          rcases Nat.eq_zero_or_pos (natVal (x.limbs.take ds)) with ht | ht
          · -- the bit part is nonzero
            have hm : x.limbs.getD ds 0 % 2 ^ bs ≠ 0 := by
              intro hc
              rw [ht, hc] at h
              simp at h
            have hbspos : 0 < bs := by
              by_contra hc
              push_neg at hc
              have hz : bs = 0 := by omega
              rw [hz] at hm
              simp only [pow_zero, Nat.mod_one] at hm
              exact hm rfl
            apply Bool.or_eq_true _ _ |>.mpr
            left
            rw [hs1, Bool.and_eq_true, decide_eq_true_iff, decide_eq_true_iff,
              hmask]
            exact ⟨hbspos, hm⟩
          · -- a dropped low limb is nonzero
            have hds0 : 0 < ds := by
              by_contra hc
              push_neg at hc
              have hz : ds = 0 := by omega
              rw [hz] at ht
              simp [natVal] at ht
            apply Bool.or_eq_true _ _ |>.mpr
            by_cases h1 : s1 = true
            · exact Or.inl h1
            · right
              rw [hs2, Bool.and_eq_true, Bool.and_eq_true]
              refine ⟨⟨?_, decide_eq_true hds0⟩, hany.mpr (by omega)⟩
              have h1' : s1 = false := by
                cases hcs : s1
                · rfl
                · exact absurd hcs h1
              rw [h1']
              rfl
      by_cases hsub : (s1 || s2) = true
      · rw [if_pos hsub]
        have hmod : nv % 2 ^ s ≠ 0 := hiff.mp hsub
        rw [toInt_preDec r hrwf hrlast, toInt_of_neg r hrneg, hrval,
          toInt_of_neg x hnx, hcast2,
          fdiv_neg_ofNat nv (2 ^ s) (by positivity), if_neg hmod]
      · rw [if_neg hsub]
        have hmod : nv % 2 ^ s = 0 := by
          by_contra hc
          exact hsub (hiff.mpr hc)
        rw [toInt_of_neg r hrneg, hrval, toInt_of_neg x hnx, hcast2,
          fdiv_neg_ofNat nv (2 ^ s) (by positivity), if_pos hmod]
        ring
    · -- nonnegative: plain truncation
      have hnx' : x.negative = false := Bool.of_not_eq_true hnx
      simp only [right_shift, ← hds, ← hbs]
      rw [if_neg (by omega : ¬ x.limbs.length ≤ ds), if_neg hnx]
      set Lexpr := (if bs = 0 then
          (List.range (x.limbs.length - ds)).map
            (fun i => x.limbs.getD (i + ds) 0)
        else
          (List.range (x.limbs.length - ds)).map fun i =>
            let k := ds + 1 + i
            let lo := x.limbs.getD (k - 1) 0 >>> bs
            if k < x.limbs.length then
              lo ||| ((x.limbs.getD k 0 <<< (bi_dwidth - bs)) % bi_base)
            else lo) with hLdef
      have hLv : natVal Lexpr = nv / 2 ^ s := by
        apply hLval Lexpr
        · intro hz; rw [hLdef, if_pos hz]
        · intro hz; rw [hLdef, if_neg hz]
      rw [show toInt ⟨x.negative, trimLimbs Lexpr⟩ =
          (natVal (trimLimbs Lexpr) : Int) from toInt_of_nonneg _ hnx',
        natVal_trimLimbs, hLv, toInt_of_nonneg x hnx', hcast2, ← Int.ofNat_fdiv]

/-- Witness for C2 at `x = -10`, `s = 3`: the result is `-2` (floor), not
`-1` (truncation). -/
theorem right_shift_val_witness :
    Canonical ⟨true, [10]⟩ ∧
    toInt (right_shift ⟨true, [10]⟩ 3) =
      Int.fdiv (toInt ⟨true, [10]⟩) ((2 : Int) ^ 3) ∧
    toInt (right_shift ⟨true, [10]⟩ 3) = -2 :=
  ⟨by decide, right_shift_val ⟨true, [10]⟩ (by decide) 3, by decide⟩

/-! ## Division (`bi.cpp`, lines 1307-1321 and 1437-1581) -/

/-- MSB-first digit loop of `bi_t::div_algo_single` (single-limb divisor):
`temp = (rem << 32) | u[j]`, quotient digit `temp / v0`, running remainder
`temp % v0`. Processes the digits most significant first and returns the
quotient digits (most significant first) together with the final remainder. -/
def divSingleGo (v0 : Nat) : List Nat → Nat → List Nat × Nat
  | [], rem => ([], rem)
  | d :: ds, rem =>
    let temp := (rem <<< bi_dwidth) ||| d
    let (qs, r) := divSingleGo v0 ds (temp % v0)
    (temp / v0 :: qs, r)

/-- `bi_t::div_algo_single`: quotient digits from the MSB-down loop, the
remainder written to `r[0]`; both trimmed. Signs are set by `divide`. -/
def div_algo_single (u v : bi_t) : bi_t × bi_t :=
  let v0 := v.limbs.getD 0 0
  let (qs, rem) := divSingleGo v0 u.limbs.reverse 0
  (⟨false, trimLimbs qs.reverse⟩, ⟨false, trimLimbs [rem]⟩)

/-- The normalization shift search of `div_algo_knuth`:
`while ((v_msd << e) < b_half) ++e`. The C loop terminates within 32
iterations for any nonzero digit; the fuel argument realizes that bound
(`findShift32 vmsd 32 0` is the loop's result). Digit arithmetic is mod
`2^32`. -/
def findShift32 (vmsd : Nat) : Nat → Nat → Nat
  | 0, e => e
  | fuel + 1, e =>
    if (vmsd <<< e) % bi_base < bi_base / 2 then findShift32 vmsd fuel (e + 1)
    else e

/-- The `q_hat` correction loop of step (3) of `div_algo_knuth`:
`while (q_hat == bi_base || q_hat * vpp > bi_base * r_hat + u2)` decrement
`q_hat`, add `vp` to `r_hat`, breaking once `r_hat >= bi_base`. Each
iteration decrements `q_hat`, so fuel `q_hat + 1` is enough. -/
def qhatLoop (vp vpp u2 : Nat) : Nat → Nat → Nat → Nat × Nat
  | 0, qhat, rhat => (qhat, rhat)
  | fuel + 1, qhat, rhat =>
    if qhat = bi_base ∨ qhat * vpp > bi_base * rhat + u2 then
      let qhat' := qhat - 1
      let rhat' := rhat + vp
      if bi_base ≤ rhat' then (qhat', rhat') else
        qhatLoop vp vpp u2 fuel qhat' rhat'
    else (qhat, rhat)

/-- Step (4) of `div_algo_knuth`: multiply-and-subtract over digits
`i = 0 .. n-1` with a signed (`sddigit`) running borrow `b`. `stmp` is the
64-bit signed window; the digit written is `stmp` mod `2^32` and the next
borrow is `(product >> 32) - (stmp >> 32)` with an arithmetic (floor)
shift. The counter argument is the number of remaining iterations. -/
def mulsubLoop (vnorm : List Nat) (qhat j : Nat) :
    Nat → Nat → List Nat → Int → List Nat × Int
  | _, 0, u, b => (u, b)
  | i, k + 1, u, b =>
    let product := qhat * vnorm.getD i 0
    let stmp : Int := (u.getD (j + i) 0 : Int) - ((product % bi_base : Nat) : Int) - b
    let u' := u.set (j + i) (stmp % (bi_base : Int)).toNat
    mulsubLoop vnorm qhat j (i + 1) k u'
      (((product >>> bi_dwidth : Nat) : Int) - Int.fdiv stmp (bi_base : Nat))

/-- Step (6) of `div_algo_knuth` (add back): add the divisor back into
`u[j .. j+n-1]` with a digit carry. -/
def addbackLoop (vnorm : List Nat) (j : Nat) :
    Nat → Nat → List Nat → Nat → List Nat × Nat
  | _, 0, u, c => (u, c)
  | i, k + 1, u, c =>
    let tmp := u.getD (j + i) 0 + vnorm.getD i 0 + c
    addbackLoop vnorm j (i + 1) k (u.set (j + i) (tmp % bi_base)) (tmp / bi_base)

/-- One iteration of the main loop of `div_algo_knuth` at position `j`:
estimate `q_hat` (step 3), multiply-subtract (step 4), set `q[j]` (step 5)
and add back on a negative window (step 6). Returns the quotient digit and
the updated dividend buffer. -/
def knuthStep (vnorm : List Nat) (n : Nat) (u : List Nat) (j : Nat) :
    Nat × List Nat :=
  let vp := vnorm.getD (n - 1) 0
  let vpp := vnorm.getD (n - 2) 0
  let tmp := u.getD (j + n) 0 * bi_base + u.getD (j + n - 1) 0
  let (qhat, _rhat) :=
    qhatLoop vp vpp (u.getD (j + n - 2) 0) (tmp / vp + 1) (tmp / vp) (tmp % vp)
  let (u', b) := mulsubLoop vnorm qhat j 0 n u 0
  let neg : Bool := decide ((u'.getD (j + n) 0 : Int) < b)
  let u'' := u'.set (j + n) (((u'.getD (j + n) 0 : Int) - b) % (bi_base : Nat)).toNat
  let qj := qhat % bi_base
  if neg then
    let (u3, c) := addbackLoop vnorm j 0 n u'' 0
    let u4 := u3.set (j + n) ((u3.getD (j + n) 0 + c) % bi_base)
    ((qj + bi_base - 1) % bi_base, u4)
  else (qj, u'')

/-- Steps (2)-(7) of `div_algo_knuth`: loop `j` from `m - n` down to `0`,
storing quotient digits in `q`. -/
def knuthLoop (vnorm : List Nat) (n : Nat) : List Nat → List Nat → Nat →
    List Nat × List Nat
  | u, q, 0 =>
    let (qj, u') := knuthStep vnorm n u 0
    (q.set 0 qj, u')
  | u, q, j + 1 =>
    let (qj, u') := knuthStep vnorm n u (j + 1)
    knuthLoop vnorm n u' (q.set (j + 1) qj) j

/-- Step (1) of `div_algo_knuth`: the digit vector of `x * 2^e`, without the
extra top digit (`v_norm`, and the low `m` digits of `u_norm`). Digit
arithmetic is mod `2^32`; `(ddigit)x >> (32 - e)` is the 64-bit shift of
the cast. -/
def normListV (xs : List Nat) (e : Nat) : List Nat :=
  (List.range xs.length).map fun i =>
    if i = 0 then (xs.getD 0 0 <<< e) % bi_base
    else ((xs.getD i 0 <<< e) % bi_base) ||| (xs.getD (i - 1) 0 >>> (32 - e))

/-- Step (8) of `div_algo_knuth` (unnormalize): the low `n` digits of the
final dividend buffer shifted right by `e` bits
(`r[i] = ((ddigit)u_norm[i+1] << compl_e) | (u_norm[i] >> e)`, truncated to
a digit). -/
def unnormList (u : List Nat) (n e : Nat) : List Nat :=
  (List.range n).map fun i =>
    if i = n - 1 then u.getD i 0 >>> e
    else ((u.getD (i + 1) 0 <<< (32 - e)) ||| (u.getD i 0 >>> e)) % bi_base

/-- `bi_t::div_algo_knuth` (Knuth Algorithm D with Exercise 37's
corrections). Requires `v.size() >= 2` with nonzero top digit and
`u.size() >= v.size()`. Signs are set by `divide`. -/
def div_algo_knuth (u v : bi_t) : bi_t × bi_t :=
  let m := u.limbs.length
  let n := v.limbs.length
  let e := findShift32 (v.limbs.getD (n - 1) 0) 32 0
  let u_norm := normListV u.limbs e ++ [u.limbs.getD (m - 1) 0 >>> (32 - e)]
  let v_norm := normListV v.limbs e
  let (q, ufin) :=
    knuthLoop v_norm n u_norm (List.replicate (m - n + 1) 0) (m - n)
  let r := unnormList ufin n e
  (⟨false, trimLimbs q⟩, ⟨false, trimLimbs r⟩)

/-- `bi_t::divide` (`bi.cpp`, lines 1548-1581): check for a zero divisor,
the `|N| < |D|` early return (`Q = 0`, `R = N`), the `resize_` capacity
checks (which throw `overflow_error` past `max_size()`, including the
`m + 1`-digit normalized dividend buffer of the Knuth path), dispatch to
the single-digit or Knuth algorithm, and the final sign assignment
`Q.negative_ = D.negative() ^ N.negative()`,
`R.negative_ = R.size() > 0 && N.negative()`. -/
def divide (N D : bi_t) : Except Err (bi_t × bi_t) :=
  if D.limbs.length = 0 then .error .DivisionByZero
  else
    let size_N := N.limbs.length
    let size_D := D.limbs.length
    if (size_N = size_D ∧
        N.limbs.getD (size_N - 1) 0 < D.limbs.getD (size_D - 1) 0) ∨
        size_N < size_D then
      .ok (⟨false, []⟩, N)
    else if size_N - size_D + 1 > bi_max_digits ∨ size_D > bi_max_digits then
      .error .Overflow
    else if size_D = 1 then
      let (q, r) := div_algo_single N D
      .ok ({ q with negative := D.negative != N.negative },
        { r with negative := decide (r.limbs.length > 0) && N.negative })
    else if size_N + 1 > bi_max_digits then .error .Overflow
    else
      let (q, r) := div_algo_knuth N D
      .ok ({ q with negative := D.negative != N.negative },
        { r with negative := decide (r.limbs.length > 0) && N.negative })

instance {α β : Type} [DecidableEq α] [DecidableEq β] :
    DecidableEq (Except α β) := fun a b =>
  match a, b with
  | .error e, .error f => decidable_of_iff (e = f) (by simp)
  | .ok x, .ok y => decidable_of_iff (x = y) (by simp)
  | .error _, .ok _ => isFalse (by simp)
  | .ok _, .error _ => isFalse (by simp)

/-- `bi_t::operator/`: quotient of `divide`. -/
def quotOp (x y : bi_t) : Except Err bi_t :=
  match divide x y with
  | .error e => .error e
  | .ok (q, _r) => .ok q

/-- `bi_t::operator%`: remainder of `divide`. -/
def remOp (x y : bi_t) : Except Err bi_t :=
  match divide x y with
  | .error e => .error e
  | .ok (_q, r) => .ok r

/-- `bi_t::div`: quotient-remainder pair. -/
def divOp (x y : bi_t) : Except Err (bi_t × bi_t) := divide x y

/-- `bi_t::operator/=`: `divide` computes into the local temporaries
`quot`/`rem` (reading `*this` through a const reference), then
`swap(quot)`. When `divide` throws, the exception propagates before the
swap, so the second component — the state of `*this` when control leaves
the operator — is the original value. -/
def idivAssign (self other : bi_t) : Option Err × bi_t :=
  match divide self other with
  | .error e => (some e, self)
  | .ok (q, _r) => (none, q)

/-- `bi_t::operator%=`: as `operator/=` but swapping in the remainder. -/
def imodAssign (self other : bi_t) : Option Err × bi_t :=
  match divide self other with
  | .error e => (some e, self)
  | .ok (_q, r) => (none, r)

theorem toInt_eq_zero_iff (d : bi_t) (hd : Canonical d) :
    toInt d = 0 ↔ d.limbs = [] := by
  obtain ⟨hw, hl, hz⟩ := hd
  constructor
  · intro h
    by_contra hne
    have hpos := natVal_pos_of_getLast _ hne hl
    rcases hneg : d.negative with hv | hv
    · rw [toInt_of_nonneg d hneg] at h
      omega
    · rw [toInt_of_neg d hneg] at h
      omega
  · intro h
    rcases hneg : d.negative with hv | hv
    · rw [toInt_of_nonneg d hneg, h]
      simp [natVal]
    · rw [toInt_of_neg d hneg, h]
      simp [natVal]

/-! ## Claim C3 -/

/-- C3: a zero divisor — and only a zero divisor — makes `divide` (and hence
`operator/`, `operator%`, `div`, and the compound forms, which all route
through it) fail with `DivisionByZero`; the error is reported to the caller
(an `Except` value here, an exception in the C++ source) without attempting
the division. -/
theorem division_by_zero_iff (n d : bi_t) (hd : Canonical d) :
    (divide n d = .error .DivisionByZero ↔ toInt d = 0) ∧
    (quotOp n d = .error .DivisionByZero ↔ toInt d = 0) ∧
    (remOp n d = .error .DivisionByZero ↔ toInt d = 0) ∧
    (divOp n d = .error .DivisionByZero ↔ toInt d = 0) ∧
    ((idivAssign n d).1 = some .DivisionByZero ↔ toInt d = 0) ∧
    ((imodAssign n d).1 = some .DivisionByZero ↔ toInt d = 0) := by
  rw [toInt_eq_zero_iff d hd]
  have hmain : divide n d = .error .DivisionByZero ↔ d.limbs = [] := by
    constructor
    · intro h
      by_contra hne
      have hlen : d.limbs.length ≠ 0 := fun hc =>
        hne (List.eq_nil_of_length_eq_zero hc)
      rw [divide, if_neg hlen] at h
      by_cases h1 : (n.limbs.length = d.limbs.length ∧
          n.limbs.getD (n.limbs.length - 1) 0 <
            d.limbs.getD (d.limbs.length - 1) 0) ∨
          n.limbs.length < d.limbs.length
      · rw [if_pos h1] at h; cases h
      · rw [if_neg h1] at h
        by_cases h2 : n.limbs.length - d.limbs.length + 1 > bi_max_digits ∨
            d.limbs.length > bi_max_digits
        · rw [if_pos h2] at h; cases h
        · rw [if_neg h2] at h
          by_cases h3 : d.limbs.length = 1
          · rw [if_pos h3] at h; cases h
          · rw [if_neg h3] at h
            by_cases h4 : n.limbs.length + 1 > bi_max_digits
            · rw [if_pos h4] at h; cases h
            · rw [if_neg h4] at h; cases h
    · intro h
      rw [divide, if_pos (by simp [h])]
  refine ⟨hmain, ?_, ?_, ?_, ?_, ?_⟩
  · rw [quotOp, ← hmain]
    cases hdiv : divide n d with
    | error e =>
      show (Except.error e : Except Err bi_t) = Except.error Err.DivisionByZero ↔
        (Except.error e : Except Err (bi_t × bi_t)) =
          Except.error Err.DivisionByZero
      cases e <;> simp
    | ok p =>
      show (Except.ok p.1 : Except Err bi_t) = Except.error Err.DivisionByZero ↔ _
      simp
  · rw [remOp, ← hmain]
    cases hdiv : divide n d with
    | error e =>
      show (Except.error e : Except Err bi_t) = Except.error Err.DivisionByZero ↔
        (Except.error e : Except Err (bi_t × bi_t)) =
          Except.error Err.DivisionByZero
      cases e <;> simp
    | ok p =>
      show (Except.ok p.2 : Except Err bi_t) = Except.error Err.DivisionByZero ↔ _
      simp
  · rw [divOp, ← hmain]
  · rw [idivAssign, ← hmain]
    cases hdiv : divide n d with
    | error e =>
      show some e = some Err.DivisionByZero ↔ _
      simp
    | ok p =>
      show (none : Option Err) = some Err.DivisionByZero ↔ _
      simp
  · rw [imodAssign, ← hmain]
    cases hdiv : divide n d with
    | error e =>
      show some e = some Err.DivisionByZero ↔ _
      simp
    | ok p =>
      show (none : Option Err) = some Err.DivisionByZero ↔ _
      simp

/-- Witness for C3 at `n = 7`, `d = 0` and `d = 3`. -/
theorem division_by_zero_iff_witness :
    (divide ⟨false, [7]⟩ ⟨false, []⟩ = .error .DivisionByZero ↔
      toInt ⟨false, []⟩ = 0) ∧
    (divide ⟨false, [7]⟩ ⟨false, [3]⟩ = .error .DivisionByZero ↔
      toInt ⟨false, [3]⟩ = 0) :=
  ⟨(division_by_zero_iff ⟨false, [7]⟩ ⟨false, []⟩ (by decide)).1,
    (division_by_zero_iff ⟨false, [7]⟩ ⟨false, [3]⟩ (by decide)).1⟩

/-! ## Claim C4 -/

/-- C4 (code bug): `divide` assigns `Q.negative_ = D.negative() ^
N.negative()` after the algorithm trimmed `Q`, so a zero quotient from the
Knuth path escapes as a negative zero: `(-(2^32)) / (2^32 + 5)` returns a
`bi_t` with `size() == 0` and `negative_ == true`, violating the canonical
form (value zero must have sign `+`). This non-canonical value compares
unequal to zero via `cmp` even though `sign()` returns `0`. -/
theorem divide_negative_zero_quotient :
    divide ⟨true, [0, 1]⟩ ⟨false, [5, 1]⟩ =
      .ok (⟨true, []⟩, ⟨true, [0, 1]⟩) ∧
    Canonical ⟨true, [0, 1]⟩ ∧ Canonical ⟨false, [5, 1]⟩ ∧
    ¬ Canonical ⟨true, ([] : List Nat)⟩ ∧
    toInt ⟨true, ([] : List Nat)⟩ = 0 := by
  refine ⟨by decide, by decide, by decide, by decide, by decide⟩

/-! ## Claim C1 (counterexample part) -/

/-! ## String parsing (`bi_t::init_string`, bi.cpp lines 1841-1905) -/

/-- `std::isspace` in the default C locale: space (32), tab (9), newline
(10), vertical tab (11), form feed (12), carriage return (13). -/
def isSpaceChar (c : Char) : Bool :=
  c.toNat = 32 || c.toNat = 9 || c.toNat = 10 || c.toNat = 11 ||
    c.toNat = 12 || c.toNat = 13

/-- `std::isdigit`: the decimal digits, character codes 48 (`0`) through
57 (`9`). -/
def isDigitChar (c : Char) : Bool :=
  48 ≤ c.toNat && c.toNat ≤ 57

/-- `bi_t::imul1add1` (bi.cpp lines 1122-1132): multiply the digit vector
in place by `v`, adding `k` into the least-significant position; the final
carry is appended when nonzero. -/
def imul1add1 (v : Nat) : List Nat → Nat → List Nat
  | [], k => if k = 0 then [] else [k]
  | d :: ds, k => (d * v + k) % bi_base :: imul1add1 v ds ((d * v + k) / bi_base)

/-- The inner batch accumulation of `init_string`:
`batch = (*dec_it - '0') + batch * 10`. -/
def batchVal (cs : List Char) : Nat :=
  cs.foldl (fun b c => (c.toNat - 48) + b * 10) 0

/-- The batching loop of `init_string`: consume up to `max_batch_size = 9`
decimal characters per iteration and fold them into the digit vector with
`imul1add1(powers_of_ten[digits_in_batch], batch)`. The C++ loop runs until
the digit run is exhausted; `fuel` (at least the run length at every call
site) makes the recursion structural. -/
def initLoop : Nat → List Char → List Nat → List Nat
  | _, [], vec => vec
  | 0, _ :: _, vec => vec
  | fuel + 1, c :: cs, vec =>
    let dib := min (c :: cs).length 9
    initLoop fuel ((c :: cs).drop dib)
      (imul1add1 (10 ^ dib) vec (batchVal ((c :: cs).take dib)))

/-- `bi_t::init_string` (bi.cpp lines 1841-1905): skip leading whitespace,
consume at most one `+`/`-` sign, then convert the longest run of decimal
digits that follows. `std::invalid_argument` — the spec's `ParseError` —
is thrown only when that run is empty; characters after the run are never
examined. `has_double_exact` rejects a run of `2^53` or more digits with
`overflow_error`; after that check the `reserve_` of
`ceil(n_base10 * 0.104) < 2^53 < bi_max_digits` digits cannot throw. The
final `trim_trailing_zeros` resets the sign when the value is zero. -/
def init_string (s : List Char) : Except Err bi_t :=
  let rest := s.dropWhile isSpaceChar
  let sgn : Bool × List Char :=
    match rest with
    | [] => (false, [])
    | c :: cs =>
      if c = '-' then (true, cs)
      else if c = '+' then (false, cs)
      else (false, c :: cs)
  let ds := sgn.2.takeWhile isDigitChar
  if ds = [] then .error .ParseError
  else if 2 ^ 53 - 1 < ds.length then .error .Overflow
  else .ok (trim ⟨sgn.1, initLoop ds.length ds []⟩)

theorem isDigitChar_facts (c : Char) (h : isDigitChar c = true) :
    isSpaceChar c = false ∧ c ≠ '-' ∧ c ≠ '+' := by
  simp only [isDigitChar, Bool.and_eq_true, decide_eq_true_eq] at h
  refine ⟨?_, ?_, ?_⟩
  · simp only [isSpaceChar, Bool.or_eq_false_iff, decide_eq_false_iff_not]
    omega
  · rintro rfl
    exact absurd h (by decide)
  · rintro rfl
    exact absurd h (by decide)

theorem dropWhile_append_sat {α : Type} (p : α → Bool) (w t : List α)
    (hw : ∀ ch ∈ w, p ch = true) :
    (w ++ t).dropWhile p = t.dropWhile p := by
  induction w with
  | nil => rfl
  | cons a w ih =>
    rw [List.cons_append, List.dropWhile_cons, hw a (List.mem_cons_self a w)]
    simp only [if_true]
    exact ih (fun ch hc => hw ch (List.mem_cons_of_mem a hc))

/-- Counterexample to C1 as stated: for `n = 1`, `d = -2` the quotient is
`0`, whose sign is `0`, while `sign(n) XOR sign(d)` would demand a negative
sign: `sign(q) = sign(n) XOR sign(d)` fails whenever the quotient is zero
and the operand signs differ. -/
theorem divide_sign_counterexample :
    divide ⟨false, [1]⟩ ⟨true, [2]⟩ = .ok (⟨false, []⟩, ⟨false, [1]⟩) ∧
    Int.sign (toInt ⟨false, ([] : List Nat)⟩) ≠
      Int.sign (toInt ⟨false, [1]⟩) * Int.sign (toInt ⟨true, [2]⟩) := by
  refine ⟨by decide, by decide⟩

/-! ## Claim C5 -/

theorem length_takeWhile_le_self {α : Type} (p : α → Bool) (l : List α) :
    (l.takeWhile p).length ≤ l.length := by
  induction l with
  | nil => simp
  | cons a l ih =>
    rw [List.takeWhile_cons]
    cases p a
    · simp
    · simpa using Nat.succ_le_succ ih

/-- C5 (counterexample): the claim requires a trailing non-digit after the
digit run to fail with `ParseError`, all-or-nothing; `init_string` never
examines characters past the digit run and parses `"12a"` as `12`. -/
theorem init_string_trailing_garbage :
    init_string ['1', '2', 'a'] = .ok ⟨false, [12]⟩ := by decide

/-- C5 (amended): `init_string` accepts exactly the strings consisting of
optional leading whitespace, then at most one `+`/`-` sign, then at least
one decimal digit — with any remaining characters after the digit run
silently ignored rather than rejected. On strings of fewer than `2^53`
characters (longer digit runs hit the `has_double_exact` guard with
`Overflow` instead) every other input — empty, sign with no digits, or a
non-digit where the first digit is expected — fails with `ParseError`. -/
theorem init_string_accepts_iff (s : List Char) (hlen : s.length < 2 ^ 53) :
    (∃ v, init_string s = .ok v) ↔
      ∃ (w sg : List Char) (c : Char) (r : List Char),
        s = w ++ sg ++ c :: r ∧ (∀ ch ∈ w, isSpaceChar ch = true) ∧
        (sg = [] ∨ sg = ['+'] ∨ sg = ['-']) ∧ isDigitChar c = true := by
  constructor
  · rintro ⟨v, hv⟩
    cases hrest : s.dropWhile isSpaceChar with
    | nil => simp [init_string, hrest] at hv
    | cons c cs =>
      have hsplit : s = s.takeWhile isSpaceChar ++ c :: cs := by
        conv_lhs => rw [← List.takeWhile_append_dropWhile (p := isSpaceChar) (l := s)]
        rw [hrest]
      have hwtake : ∀ ch ∈ s.takeWhile isSpaceChar, isSpaceChar ch = true :=
        fun ch hc => List.mem_takeWhile_imp hc
      by_cases hcm : c = '-'
      · subst hcm
        cases cs with
        | nil => simp [init_string, hrest] at hv
        | cons d t =>
          cases hd : isDigitChar d with
          | false => simp [init_string, hrest, hd] at hv
          | true =>
            refine ⟨s.takeWhile isSpaceChar, ['-'], d, t, ?_, hwtake,
              Or.inr (Or.inr rfl), hd⟩
            simp only [List.append_assoc, List.cons_append, List.nil_append]
            exact hsplit
      · by_cases hcp : c = '+'
        · subst hcp
          cases cs with
          | nil => simp [init_string, hrest] at hv
          | cons d t =>
            cases hd : isDigitChar d with
            | false => simp [init_string, hrest, hd] at hv
            | true =>
              refine ⟨s.takeWhile isSpaceChar, ['+'], d, t, ?_, hwtake,
                Or.inr (Or.inl rfl), hd⟩
              simp only [List.append_assoc, List.cons_append, List.nil_append]
              exact hsplit
        · cases hd : isDigitChar c with
          | false => simp [init_string, hrest, hcm, hcp, hd] at hv
          | true =>
            refine ⟨s.takeWhile isSpaceChar, [], c, cs, ?_, hwtake,
              Or.inl rfl, hd⟩
            simp only [List.append_assoc, List.cons_append, List.nil_append]
            exact hsplit
  · rintro ⟨w, sg, c, r, rfl, hw, hsg, hc⟩
    obtain ⟨hns, hnm, hnp⟩ := isDigitChar_facts c hc
    have hlen' : (c :: r.takeWhile isDigitChar).length ≤ 2 ^ 53 - 1 := by
      have h1 := length_takeWhile_le_self isDigitChar r
      have h2 := hlen
      simp only [List.length_append, List.length_cons] at h2 ⊢
      omega
    rcases hsg with rfl | rfl | rfl
    · have hdw : ((w ++ [] ++ c :: r).dropWhile isSpaceChar) = c :: r := by
        rw [List.append_nil, dropWhile_append_sat _ w _ hw,
          List.dropWhile_cons, hns]
        simp
      refine ⟨trim ⟨false, initLoop (c :: r.takeWhile isDigitChar).length
        (c :: r.takeWhile isDigitChar) []⟩, ?_⟩
      simp only [init_string, hdw, hnm, if_false, hnp, List.takeWhile_cons, hc,
        if_true]
      rw [if_neg (by simp), if_neg (by omega)]
    · have hdw : ((w ++ ['+'] ++ c :: r).dropWhile isSpaceChar) = '+' :: c :: r := by
        rw [List.append_assoc, dropWhile_append_sat _ w _ hw]
        have h1 : isSpaceChar '+' = false := by decide
        rw [List.cons_append, List.nil_append, List.dropWhile_cons, h1]
        simp
      refine ⟨trim ⟨false, initLoop (c :: r.takeWhile isDigitChar).length
        (c :: r.takeWhile isDigitChar) []⟩, ?_⟩
      have hpm : ('+' : Char) ≠ '-' := by decide
      simp only [init_string, hdw, hpm, if_false, if_pos rfl,
        List.takeWhile_cons, hc, if_true]
      rw [if_neg (by simp), if_neg (by omega)]
    · have hdw : ((w ++ ['-'] ++ c :: r).dropWhile isSpaceChar) = '-' :: c :: r := by
        rw [List.append_assoc, dropWhile_append_sat _ w _ hw]
        have h1 : isSpaceChar '-' = false := by decide
        rw [List.cons_append, List.nil_append, List.dropWhile_cons, h1]
        simp
      refine ⟨trim ⟨true, initLoop (c :: r.takeWhile isDigitChar).length
        (c :: r.takeWhile isDigitChar) []⟩, ?_⟩
      simp only [init_string, hdw, if_pos rfl, List.takeWhile_cons, hc, if_true]
      rw [if_neg (by simp), if_neg (by omega)]

/-- Witness for C5 (amended): `" -42x"` is accepted. -/
theorem init_string_accepts_iff_witness :
    ∃ v, init_string [' ', '-', '4', '2', 'x'] = .ok v :=
  (init_string_accepts_iff [' ', '-', '4', '2', 'x'] (by decide)).mpr
    ⟨[' '], ['-'], '4', ['2', 'x'], by decide⟩

/-! ## Claim C6

The repository's `src/` tree has only the base-10 `bi_t::to_string`
(bi.cpp 763-785) and base-10 `init_string`; the base-parameterized
`to_string(x, base)` and `(string, base)` constructor that the claim's
round trip exercises appear in `test/test.cpp` as callers only. The pair
is therefore modelled from the spec. -/

/-- Modelled from the spec: the digit alphabet for bases up to 36 —
`0-9`, then `a-z` for `10-35` (formatting emits lowercase; parsing is
case-insensitive). -/
def b36_chars : List Char := "0123456789abcdefghijklmnopqrstuvwxyz".toList

/-- Modelled from the spec: the digit-to-character map used when
formatting. -/
def digitCharB (d : Nat) : Char := b36_chars.getD d '0'

/-- Modelled from the spec: the case-insensitive character-to-digit map of
the parser (`0-9`, then `a-z`/`A-Z` mapped to `10-35`); `255` marks an
invalid character, mirroring the `0xFF` entries of
`create_char_to_b36_map` (bi.cpp 1771-1816). -/
def char_to_b36 (c : Char) : Nat :=
  if 48 ≤ c.toNat ∧ c.toNat ≤ 57 then c.toNat - 48
  else if 97 ≤ c.toNat ∧ c.toNat ≤ 122 then c.toNat - 87
  else if 65 ≤ c.toNat ∧ c.toNat ≤ 90 then c.toNat - 55
  else 255

/-- Modelled from the spec: the base-`b` digits of `n`, least significant
first, by repeated division; `fuel ≥ n` at every call site makes the
recursion structural. -/
def toDigitsB (b : Nat) : Nat → Nat → List Nat
  | 0, _ => []
  | _ + 1, 0 => []
  | n + 1, fuel + 1 => (n + 1) % b :: toDigitsB b ((n + 1) / b) fuel

/-- Modelled from the spec: `to_string(x, base)` — `"0"` for zero,
otherwise the base-`b` digits of `|x|` most significant first, prefixed
with `-` when `x` is negative. -/
def to_string_b (x : Int) (b : Nat) : List Char :=
  if x = 0 then ['0']
  else (if x < 0 then ['-'] else []) ++
    ((toDigitsB b x.natAbs x.natAbs).reverse.map digitCharB)

/-- Modelled from the spec: `to_int(s, base)` — reject a base outside
`[2, 36]` with `InvalidArgument`; skip leading whitespace, accept at most
one `+`/`-` sign, then require one or more base-`b` digits running to
end-of-input; any other character fails with `ParseError`. -/
def to_int_b (s : List Char) (b : Nat) : Except Err Int :=
  if b < 2 ∨ 36 < b then .error .InvalidArgument
  else
    let rest := s.dropWhile isSpaceChar
    let sgn : Bool × List Char :=
      match rest with
      | [] => (false, [])
      | c :: cs =>
        if c = '-' then (true, cs)
        else if c = '+' then (false, cs)
        else (false, c :: cs)
    if sgn.2 = [] ∨ ¬ (∀ c ∈ sgn.2, char_to_b36 c < b) then .error .ParseError
    else
      let m : Nat := sgn.2.foldl (fun acc c => acc * b + char_to_b36 c) 0
      .ok (if sgn.1 then -(m : Int) else (m : Int))

/-- Value of a least-significant-first base-`b` digit list. -/
def valB (b : Nat) : List Nat → Nat
  | [] => 0
  | d :: ds => d + b * valB b ds

theorem toDigitsB_lt (b : Nat) (hb : 2 ≤ b) :
    ∀ (fuel n : Nat), ∀ d ∈ toDigitsB b n fuel, d < b := by
  intro fuel
  induction fuel with
  | zero =>
    intro n d hd
    cases n <;> simp [toDigitsB] at hd
  | succ fuel ih =>
    intro n d hd
    cases n with
    | zero => simp [toDigitsB] at hd
    | succ m =>
      simp only [toDigitsB, List.mem_cons] at hd
      rcases hd with rfl | hd
      · exact Nat.mod_lt _ (by omega)
      · exact ih _ _ hd

theorem valB_toDigitsB (b : Nat) (hb : 2 ≤ b) :
    ∀ (fuel n : Nat), n ≤ fuel → valB b (toDigitsB b n fuel) = n := by
  intro fuel
  induction fuel with
  | zero =>
    intro n hn
    have hz : n = 0 := by omega
    subst hz
    simp [toDigitsB, valB]
  | succ fuel ih =>
    intro n hn
    cases n with
    | zero => simp [toDigitsB, valB]
    | succ m =>
      have hdiv : (m + 1) / b ≤ fuel := by
        have h1 : (m + 1) / b < m + 1 := Nat.div_lt_self (by omega) (by omega)
        omega
      rw [toDigitsB, valB, ih _ hdiv]
      exact Nat.mod_add_div (m + 1) b

theorem toDigitsB_ne_nil (b m fuel : Nat) :
    toDigitsB b (m + 1) (fuel + 1) ≠ [] := by
  rw [toDigitsB]
  exact List.cons_ne_nil _ _

theorem foldl_reverse_valB (b : Nat) :
    ∀ (L : List Nat) (a : Nat),
      L.reverse.foldl (fun acc d => acc * b + d) a = a * b ^ L.length + valB b L := by
  intro L
  induction L with
  | nil => intro a; simp [valB]
  | cons d ds ih =>
    intro a
    rw [List.reverse_cons, List.foldl_append, ih]
    simp only [List.foldl_cons, List.foldl_nil, valB, List.length_cons, pow_succ]
    ring

theorem char_to_b36_digitCharB (d : Nat) (hd : d < 36) :
    char_to_b36 (digitCharB d) = d := by
  interval_cases d <;> decide

theorem digitCharB_facts (d : Nat) (hd : d < 36) :
    isSpaceChar (digitCharB d) = false ∧ digitCharB d ≠ '-' ∧ digitCharB d ≠ '+' := by
  interval_cases d <;> exact ⟨by decide, by decide, by decide⟩

theorem foldl_char_digit_eq (b : Nat) :
    ∀ (l : List Nat) (a : Nat), (∀ d ∈ l, d < 36) →
      l.foldl (fun acc d => acc * b + char_to_b36 (digitCharB d)) a =
        l.foldl (fun acc d => acc * b + d) a := by
  intro l
  induction l with
  | nil => intro a _; rfl
  | cons d ds ih =>
    intro a h
    rw [List.foldl_cons, List.foldl_cons,
      char_to_b36_digitCharB d (h d (List.mem_cons_self d ds)),
      ih _ (fun x hx => h x (List.mem_cons_of_mem d hx))]

theorem to_int_b_digits_pos (b : Nat) (hb1 : 2 ≤ b) (hb2 : b ≤ 36)
    (c0 : Char) (cs : List Char)
    (hval : ∀ c ∈ c0 :: cs, char_to_b36 c < b)
    (h0 : isSpaceChar c0 = false ∧ c0 ≠ '-' ∧ c0 ≠ '+') :
    to_int_b (c0 :: cs) b =
      .ok (((c0 :: cs).foldl (fun acc c => acc * b + char_to_b36 c) 0 : Nat) : Int) := by
  obtain ⟨hspace, hm, hp⟩ := h0
  have hbc : ¬(b < 2 ∨ 36 < b) := by omega
  have hcond : ¬(c0 :: cs = [] ∨ ¬∀ c ∈ c0 :: cs, char_to_b36 c < b) := by
    rintro (h | h)
    · exact List.cons_ne_nil _ _ h
    · exact h hval
  have htail : ∀ x ∈ cs, char_to_b36 x < b :=
    fun x hx => hval x (List.mem_cons_of_mem c0 hx)
  simp [to_int_b, List.dropWhile_cons, hspace, hm, hp, hbc, hval, htail, hcond]
  exact htail

theorem to_int_b_digits_neg (b : Nat) (hb1 : 2 ≤ b) (hb2 : b ≤ 36)
    (c0 : Char) (cs : List Char)
    (hval : ∀ c ∈ c0 :: cs, char_to_b36 c < b) :
    to_int_b ('-' :: c0 :: cs) b =
      .ok (-(((c0 :: cs).foldl (fun acc c => acc * b + char_to_b36 c) 0 : Nat) : Int)) := by
  have hspace : isSpaceChar '-' = false := by decide
  have hbc : ¬(b < 2 ∨ 36 < b) := by omega
  have hcond : ¬(c0 :: cs = [] ∨ ¬∀ c ∈ c0 :: cs, char_to_b36 c < b) := by
    rintro (h | h)
    · exact List.cons_ne_nil _ _ h
    · exact h hval
  have htail : ∀ x ∈ cs, char_to_b36 x < b :=
    fun x hx => hval x (List.mem_cons_of_mem c0 hx)
  simp [to_int_b, List.dropWhile_cons, hspace, hbc, hval, htail, hcond]
  exact htail

/-- C6: formatting then parsing in any base `b ∈ [2, 36]` returns the
original value: `to_int(to_string(x, b), b) = x`. The pair is modelled
from the spec because `src/` does not contain the base-parameterized
conversions (see the section comment). -/
theorem to_string_to_int_round_trip (b : Nat) (hb1 : 2 ≤ b) (hb2 : b ≤ 36) (x : Int) :
    to_int_b (to_string_b x b) b = .ok x := by
  by_cases hx : x = 0
  · subst hx
    rw [to_string_b, if_pos rfl]
    have h9 : char_to_b36 '0' = 0 := by decide
    have hv0 : ∀ c ∈ ['0'], char_to_b36 c < b := by
      intro c hc
      simp only [List.mem_singleton] at hc
      subst hc
      omega
    rw [to_int_b_digits_pos b hb1 hb2 '0' [] hv0 ⟨by decide, by decide, by decide⟩]
    simp [h9]
  · rw [to_string_b, if_neg hx]
    set L := toDigitsB b x.natAbs x.natAbs with hL
    have hna : x.natAbs ≠ 0 := by omega
    have hLne : L ≠ [] := by
      rw [hL]
      obtain ⟨m, hm⟩ : ∃ m, x.natAbs = m + 1 := ⟨x.natAbs - 1, by omega⟩
      rw [hm]
      exact toDigitsB_ne_nil b m m
    have hLlt : ∀ d ∈ L, d < b := fun d hd => toDigitsB_lt b hb1 _ _ d hd
    have hLval : valB b L = x.natAbs := valB_toDigitsB b hb1 _ _ (Nat.le_refl _)
    have hfold : ∀ (c0 : Char) (cs : List Char),
        L.reverse.map digitCharB = c0 :: cs →
        (c0 :: cs).foldl (fun acc c => acc * b + char_to_b36 c) 0 = x.natAbs := by
      intro c0 cs hcs
      rw [← hcs, List.foldl_map, foldl_char_digit_eq b _ _
        (fun d hd => lt_of_lt_of_le (hLlt d (List.mem_reverse.mp hd)) hb2),
        foldl_reverse_valB, hLval]
      simp
    have hvalid : ∀ c ∈ L.reverse.map digitCharB, char_to_b36 c < b := by
      intro c hc
      rw [List.mem_map] at hc
      obtain ⟨d, hd, rfl⟩ := hc
      have hdb : d < b := hLlt d (List.mem_reverse.mp hd)
      rw [char_to_b36_digitCharB d (by omega)]
      exact hdb
    cases hcs : L.reverse.map digitCharB with
    | nil =>
      exact absurd (by simpa using hcs) hLne
    | cons c0 cs =>
      have hc0 : ∃ d, d < b ∧ digitCharB d = c0 := by
        have : c0 ∈ L.reverse.map digitCharB := by rw [hcs]; exact List.mem_cons_self _ _
        rw [List.mem_map] at this
        obtain ⟨d, hd, hdc⟩ := this
        exact ⟨d, hLlt d (List.mem_reverse.mp hd), hdc⟩
      obtain ⟨d0, hd0b, hd0c⟩ := hc0
      have hfacts := digitCharB_facts d0 (by omega)
      rw [hd0c] at hfacts
      by_cases hneg : x < 0
      · rw [if_pos hneg, List.cons_append, List.nil_append,
          to_int_b_digits_neg b hb1 hb2 c0 cs (hcs ▸ hvalid),
          hfold c0 cs hcs]
        congr 1
        omega
      · rw [if_neg hneg, List.nil_append,
          to_int_b_digits_pos b hb1 hb2 c0 cs (hcs ▸ hvalid) hfacts,
          hfold c0 cs hcs]
        congr 1
        omega

/-- Witness for C6: the round trip at `b = 16`, `x = -255`. -/
theorem to_string_to_int_round_trip_witness :
    to_int_b (to_string_b (-255) 16) 16 = .ok (-255) :=
  to_string_to_int_round_trip 16 (by decide) (by decide) (-255)

/-! ## Claim C7 -/

/-- Inner loop of `bi_t::mul` (Knuth Algorithm M, bi.cpp 1090-1099) for a
fixed multiplier digit `bj`, over `as` and the window of the result vector
starting at position `j`: write `t mod B`, carry `t / B`; at `i = m` the
carry overwrites `w[j+m]`. -/
def mulInner (bj : Nat) : List Nat → List Nat → Nat → List Nat
  | [], ws, k => k :: ws.tail
  | _ :: _, [], k => [k]
  | a :: as, w0 :: ws, k =>
    (a * bj + w0 + k) % bi_base :: mulInner bj as ws ((a * bj + w0 + k) / bi_base)

/-- Outer loop of `bi_t::mul` over the digits of `b`; step `j` rewrites
the result window starting at position `j`. -/
def mulOuter (as : List Nat) : List Nat → List Nat → List Nat
  | [], w => w
  | bj :: bs, w =>
    match mulInner bj as w 0 with
    | [] => []
    | w0 :: rest => w0 :: mulOuter as bs rest

/-- `bi_t::mul` (bi.cpp 1065-1107): zero operands short-circuit;
`uints::uadd_overflow(m, n)` rejects a `size_t`-overflowing result size
and `resize_(m + n)` throws past `max_size()` — both before any write to
the target (a temporary whenever `result` aliases an operand, as in
`operator*=`); then Algorithm M over a zero-filled target,
`trim_trailing_zeros`, and the sign `a.negative() != b.negative()`. -/
def mul (a b : bi_t) : Except Err bi_t :=
  if a.limbs.length = 0 ∨ b.limbs.length = 0 then .ok ⟨false, []⟩
  else
    let m := a.limbs.length
    let n := b.limbs.length
    if 2 ^ 64 ≤ m + n then .error .Overflow
    else if bi_max_digits < m + n then .error .Overflow
    else
      .ok ⟨a.negative != b.negative,
        trimLimbs (mulOuter a.limbs b.limbs (List.replicate (m + n) 0))⟩

/-- Carry loop of `bi_t::left_shift` (bi.cpp 1182-1191): each digit is
shifted left within the limb and ORed with the carry out of the previous
digit; with a nonzero intra-limb shift the final carry is appended. -/
def lshiftGo (bs : Nat) : List Nat → Nat → List Nat
  | [], carry => if bs ≠ 0 then [carry] else []
  | d :: ds, carry =>
    ((d <<< bs) % bi_base ||| carry) ::
      lshiftGo bs ds (if bs ≠ 0 then d >>> (bi_dwidth - bs) else 0)

/-- `bi_t::left_shift` (bi.cpp 1147-1199): zero value and zero shift
short-circuit; `size_result` is computed in `size_t` arithmetic (wrapping
modulo `2^64`, caught by the `size_result < size_x` check) and `resize`
throws past `max_size()` — both before any write to the target (a
temporary when `result` aliases `x`, as in `operator<<=`); then
`digit_shift` zero limbs, the carry loop, `trim_trailing_zeros`, and
`negative_ = x.negative()`. -/
def left_shift (x : bi_t) (n_bits : Nat) : Except Err bi_t :=
  if x.limbs.length = 0 then .ok ⟨false, []⟩
  else if n_bits = 0 then .ok x
  else
    let size_x := x.limbs.length
    let digit_shift := n_bits / bi_dwidth
    let bit_shift := n_bits % bi_dwidth
    let size_result :=
      (size_x + digit_shift + (if bit_shift ≠ 0 then 1 else 0)) % 2 ^ 64
    if size_result < size_x then .error .Overflow
    else if bi_max_digits < size_result then .error .Overflow
    else
      .ok ⟨x.negative,
        trimLimbs (List.replicate digit_shift 0 ++ lshiftGo bit_shift x.limbs 0)⟩

inductive BitwiseOp where
  | AND
  | OR
  | XOR

/-- `to_twos_complement` (bi.hpp): `~digit + carry` limb by limb in
wrap-around `digit` arithmetic (`~d = bi_dmax - d` for `d < B`). -/
def twosGo : List Nat → Nat → List Nat
  | [], _ => []
  | d :: ds, carry =>
    ((bi_dmax - d) + carry) % bi_base ::
      twosGo ds (((bi_dmax - d) + carry) / bi_base)

/-- `bi_t::bitwise_operation_impl` (bi.hpp 679-723): negative operands
are viewed in two's complement (`bi_dmax` sign extension past their
limbs), the digitwise operation runs over `max_size` limbs (`max_size +
1` for XOR), the result sign is the AND/OR/XOR of the operand signs, a
negative result is converted back from two's complement, and trailing
zeros are trimmed. The only throw, `resize_(max_size)` past `max_size()`,
happens before any write. -/
def bitwise_operation (op : BitwiseOp) (x y : bi_t) : Except Err bi_t :=
  let max_size := max x.limbs.length y.limbs.length +
    (match op with | .XOR => 1 | _ => 0)
  if bi_max_digits < max_size then .error .Overflow
  else
    let lhs := if x.negative then twosGo x.limbs 1 else x.limbs
    let rhs := if y.negative then twosGo y.limbs 1 else y.limbs
    let result_negative :=
      match op with
      | .AND => x.negative && y.negative
      | .OR => x.negative || y.negative
      | .XOR => x.negative != y.negative
    let f : Nat → Nat → Nat :=
      match op with
      | .AND => fun a c => a &&& c
      | .OR => fun a c => a ||| c
      | .XOR => fun a c => a ^^^ c
    let res := (List.range max_size).map (fun i =>
      f (lhs.getD i (if x.negative then bi_dmax else 0))
        (rhs.getD i (if y.negative then bi_dmax else 0)))
    .ok (trim ⟨result_negative,
      if result_negative then twosGo res 1 else res⟩)

/-- `bi_t::operator+=`: `add(*this, *this, other)` with the result
aliasing `*this`; the only throw (`reserve_` in `add_abs`/`sub_abs_gt`)
happens before the first digit write, so on failure `*this` keeps its
original digits and sign. -/
def iaddAssign (self other : bi_t) : Option Err × bi_t :=
  match add self other with
  | .error e => (some e, self)
  | .ok v => (none, v)

/-- `bi_t::operator-=`: as `operator+=` through `bi_t::sub`. -/
def isubAssign (self other : bi_t) : Option Err × bi_t :=
  match sub self other with
  | .error e => (some e, self)
  | .ok v => (none, v)

/-- `bi_t::operator*=`: `mul` detects the aliasing, computes into a
temporary, and swaps at the end; both throws precede any write. -/
def imulAssign (self other : bi_t) : Option Err × bi_t :=
  match mul self other with
  | .error e => (some e, self)
  | .ok v => (none, v)

/-- `bi_t::operator<<=`: `left_shift` with a temporary vector on
aliasing; both throws precede any write. -/
def ilshiftAssign (self : bi_t) (s : Nat) : Option Err × bi_t :=
  match left_shift self s with
  | .error e => (some e, self)
  | .ok v => (none, v)

/-- `bi_t::operator>>=`: `right_shift` has no failure path at all. -/
def irshiftAssign (self : bi_t) (s : Nat) : Option Err × bi_t :=
  (none, right_shift self s)

/-- `bi_t::operator&=` (`ibitwise_operation<AND>`). -/
def iandAssign (self other : bi_t) : Option Err × bi_t :=
  match bitwise_operation .AND self other with
  | .error e => (some e, self)
  | .ok v => (none, v)

/-- `bi_t::operator|=` (`ibitwise_operation<OR>`). -/
def iorAssign (self other : bi_t) : Option Err × bi_t :=
  match bitwise_operation .OR self other with
  | .error e => (some e, self)
  | .ok v => (none, v)

/-- `bi_t::operator^=` (`ibitwise_operation<XOR>`). -/
def ixorAssign (self other : bi_t) : Option Err × bi_t :=
  match bitwise_operation .XOR self other with
  | .error e => (some e, self)
  | .ok v => (none, v)

/-- C7: each of the ten in-place operators `+=`, `-=`, `*=`, `/=`, `%=`,
`<<=`, `>>=`, `&=`, `|=`, `^=` preserves the prior value of `self`
whenever the operation fails (`>>=` cannot fail at all). In the source
every throw — `DivisionByZero` at the top of `divide`, `overflow_error`
from the `uadd_overflow`/`size_result` checks and from
`reserve_`/`resize_` past `max_size()` — is raised before the first write
to `*this` (the division, multiplication, and left-shift even compute
into temporaries and swap on success); allocation failure
(`std::bad_alloc`) is likewise thrown by `reserve_` before any digit
moves, outside this embedding. -/
theorem inplace_ops_preserve_self_on_error (self other : bi_t) (s : Nat) :
    ((iaddAssign self other).1.isSome = true → (iaddAssign self other).2 = self) ∧
    ((isubAssign self other).1.isSome = true → (isubAssign self other).2 = self) ∧
    ((imulAssign self other).1.isSome = true → (imulAssign self other).2 = self) ∧
    ((idivAssign self other).1.isSome = true → (idivAssign self other).2 = self) ∧
    ((imodAssign self other).1.isSome = true → (imodAssign self other).2 = self) ∧
    ((ilshiftAssign self s).1.isSome = true → (ilshiftAssign self s).2 = self) ∧
    (irshiftAssign self s).1 = none ∧
    ((iandAssign self other).1.isSome = true → (iandAssign self other).2 = self) ∧
    ((iorAssign self other).1.isSome = true → (iorAssign self other).2 = self) ∧
    ((ixorAssign self other).1.isSome = true → (ixorAssign self other).2 = self) := by
  refine ⟨?_, ?_, ?_, ?_, ?_, ?_, ?_, ?_, ?_, ?_⟩
  · unfold iaddAssign
    cases add self other <;> simp
  · unfold isubAssign
    cases sub self other <;> simp
  · unfold imulAssign
    cases mul self other <;> simp
  · unfold idivAssign
    rcases divide self other with e | ⟨q, r⟩ <;> simp
  · unfold imodAssign
    rcases divide self other with e | ⟨q, r⟩ <;> simp
  · unfold ilshiftAssign
    cases left_shift self s <;> simp
  · unfold irshiftAssign
    rfl
  · unfold iandAssign
    cases bitwise_operation .AND self other <;> simp
  · unfold iorAssign
    cases bitwise_operation .OR self other <;> simp
  · unfold ixorAssign
    cases bitwise_operation .XOR self other <;> simp

/-- Witness for C7: `x /= 0` fails and leaves `x = 7` unchanged. -/
theorem inplace_ops_preserve_self_on_error_witness :
    (idivAssign ⟨false, [7]⟩ ⟨false, []⟩).2 = ⟨false, [7]⟩ :=
  ((inplace_ops_preserve_self_on_error ⟨false, [7]⟩ ⟨false, []⟩ 0).2.2.2.1)
    (by decide)

/-! ## Claim C8

`bi_t::pow` is exercised by `test/test.cpp` (lines 2089-2172) but its
implementation is not under `src/`; it is modelled from spec § 4.9. -/

/-- Modelled from the spec: the bit length of a natural number (`0` for
zero, `⌊log2 n⌋ + 1` otherwise). -/
def natBitLen (n : Nat) : Nat := if n = 0 then 0 else Nat.log2 n + 1

/-- Modelled from the spec: left-to-right (most significant bit first)
binary exponentiation — square at every bit, multiply by the base at the
set bits. -/
def binPow (b : Int) (e : Nat) : Int :=
  (List.range (natBitLen e)).reverse.foldl
    (fun acc i => if e.testBit i then acc * acc * b else acc * acc) 1

/-- Modelled from the spec (§ 4.9): `pow(base, exp)` for `exp ≥ 0` —
`exp = 0` returns `1` even for `base = 0`; `base ∈ {-1, 0, 1}` always
succeeds (the result is decided by parity without computation); any other
base fails with `Overflow` when the exact result bit length exceeds
`MaxBits = MaxLimbs · W`, and otherwise is computed by left-to-right
binary exponentiation. -/
def powB (b : Int) (e : Nat) : Except Err Int :=
  if e = 0 then .ok 1
  else if b = 0 then .ok 0
  else if b = 1 then .ok 1
  else if b = -1 then .ok (if e % 2 = 0 then 1 else -1)
  else if max_bits < natBitLen (b.natAbs ^ e) then .error .Overflow
  else .ok (binPow b e)

theorem lt_two_pow_natBitLen (e : Nat) : e < 2 ^ natBitLen e := by
  rw [natBitLen]
  by_cases he : e = 0
  · simp [he]
  · rw [if_neg he]
    exact (Nat.log2_lt he).mp (Nat.lt_succ_self _)

theorem binPow_foldl (b : Int) (e : Nat) :
    ∀ k : Nat,
      (List.range k).reverse.foldl
        (fun acc i => if e.testBit i then acc * acc * b else acc * acc)
        (b ^ (e / 2 ^ k)) = b ^ e := by
  intro k
  induction k with
  | zero => simp
  | succ k ih =>
    rw [List.range_succ, List.reverse_append, List.reverse_singleton,
      List.singleton_append, List.foldl_cons]
    have hdiv : e / 2 ^ k = 2 * (e / 2 ^ (k + 1)) + (e / 2 ^ k) % 2 := by
      rw [pow_succ, ← Nat.div_div_eq_div_mul]
      omega
    have hstep : (if e.testBit k then b ^ (e / 2 ^ (k + 1)) * b ^ (e / 2 ^ (k + 1)) * b
        else b ^ (e / 2 ^ (k + 1)) * b ^ (e / 2 ^ (k + 1))) = b ^ (e / 2 ^ k) := by
      rw [Nat.testBit_to_div_mod]
      rcases Nat.mod_two_eq_zero_or_one (e / 2 ^ k) with hm | hm
      · rw [if_neg (by simp [hm]), ← pow_add, hdiv, hm]
        ring_nf
      · rw [if_pos (by simp [hm]), ← pow_add, ← pow_succ, hdiv, hm]
        ring_nf
    calc (List.range k).reverse.foldl
          (fun acc i => if e.testBit i then acc * acc * b else acc * acc)
          (if e.testBit k then b ^ (e / 2 ^ (k + 1)) * b ^ (e / 2 ^ (k + 1)) * b
            else b ^ (e / 2 ^ (k + 1)) * b ^ (e / 2 ^ (k + 1)))
        = (List.range k).reverse.foldl
          (fun acc i => if e.testBit i then acc * acc * b else acc * acc)
          (b ^ (e / 2 ^ k)) := by rw [hstep]
      _ = b ^ e := ih

theorem binPow_eq_pow (b : Int) (e : Nat) : binPow b e = b ^ e := by
  have h0 : e / 2 ^ natBitLen e = 0 :=
    Nat.div_eq_of_lt (lt_two_pow_natBitLen e)
  have := binPow_foldl b e (natBitLen e)
  rw [h0, pow_zero] at this
  rw [binPow]
  exact this

/-- C8: `pow` (modelled from the spec, see the section comment) returns
`1` for `exp = 0` even at `base = 0`; always succeeds for
`base ∈ {-1, 0, 1}` with the parity-determined value — in particular
`pow(-1, n)` is `1` for even `n` and `-1` for odd `n`, for every `n`
including `MaxBits + 1`; and for any other base returns `base ^ exp`
exactly when the result bit length stays within `MaxBits`, failing with
`Overflow` otherwise. -/
theorem pow_spec_props (b : Int) (e : Nat) :
    powB b 0 = .ok 1 ∧
    powB (-1) e = .ok (if e % 2 = 0 then 1 else -1) ∧
    powB 0 e = .ok (if e = 0 then 1 else 0) ∧
    powB 1 e = .ok 1 ∧
    (2 ≤ b.natAbs →
      powB b e = if max_bits < natBitLen (b.natAbs ^ e) then .error .Overflow
        else .ok (b ^ e)) := by
  refine ⟨rfl, ?_, ?_, ?_, ?_⟩
  · by_cases he : e = 0
    · subst he; rfl
    · rw [powB, if_neg he, if_neg (by decide), if_neg (by decide), if_pos rfl]
  · by_cases he : e = 0
    · subst he; rfl
    · rw [powB, if_neg he, if_pos rfl, if_neg he]
  · by_cases he : e = 0
    · subst he; rfl
    · rw [powB, if_neg he, if_neg (by decide), if_pos rfl]
  · intro hb
    have h0 : b ≠ 0 := by omega
    have h1 : b ≠ 1 := by omega
    have hm1 : b ≠ -1 := by omega
    by_cases he : e = 0
    · subst he
      have : natBitLen (b.natAbs ^ 0) = 1 := by
        rw [pow_zero, natBitLen, if_neg (by omega)]
        simp [Nat.log2]
      rw [this, if_neg (by rw [max_bits, bi_max_digits, bi_dwidth]; omega)]
      rfl
    · rw [powB, if_neg he, if_neg h0, if_neg h1, if_neg hm1]
      by_cases hov : max_bits < natBitLen (b.natAbs ^ e)
      · rw [if_pos hov, if_pos hov]
      · rw [if_neg hov, if_neg hov, binPow_eq_pow]

/-- Witness for C8: `pow(-1, MaxBits + 1) = -1` (`MaxBits` is even, so
`MaxBits + 1` is odd). -/
theorem pow_spec_props_witness :
    powB (-1) (max_bits + 1) = .ok (-1) := by
  rw [(pow_spec_props (-1) (max_bits + 1)).2.1]
  decide

/-! ## Claim C1: correctness of `divide`

List and arithmetic helpers for the division proofs. -/

theorem getD_append_lt (l1 l2 : List Nat) (i : Nat) (h : i < l1.length) :
    (l1 ++ l2).getD i 0 = l1.getD i 0 := by
  induction l1 generalizing i with
  | nil => simp at h
  | cons d ds ih =>
    cases i with
    | zero => rfl
    | succ i =>
      simp only [List.cons_append, List.getD_cons_succ]
      exact ih i (by simpa using h)

theorem getD_append_add (l1 l2 : List Nat) (i : Nat) :
    (l1 ++ l2).getD (l1.length + i) 0 = l2.getD i 0 := by
  induction l1 with
  | nil => simp
  | cons d ds ih =>
    have harith : (d :: ds).length + i = (ds.length + i) + 1 := by
      simp only [List.length_cons]
      omega
    rw [harith, List.cons_append, List.getD_cons_succ, ih]

theorem set_append_len (pre : List Nat) (w x : Nat) (rest : List Nat) :
    (pre ++ w :: rest).set pre.length x = pre ++ x :: rest := by
  induction pre with
  | nil => rfl
  | cons d ds ih =>
    simp only [List.cons_append, List.length_cons, List.set_cons_succ, ih]

theorem natVal_drop_one (ls : List Nat) (k : Nat) (h : ls.length = k + 1) :
    natVal (ls.drop k) = ls.getD k 0 := by
  have hlen : (ls.drop k).length = 1 := by
    rw [List.length_drop, h]
    omega
  cases hd : ls.drop k with
  | nil => rw [hd] at hlen; simp at hlen
  | cons x xs =>
    rw [hd] at hlen
    simp only [List.length_cons, Nat.add_left_eq_self] at hlen
    have hxs : xs = [] := List.eq_nil_of_length_eq_zero hlen
    subst hxs
    have hx : ls.getD k 0 = x := by
      have := getD_drop ls k 0
      rw [hd] at this
      simpa using this.symm
    rw [hx]
    simp [natVal]

theorem natVal_top_decomp (ls : List Nat) (k : Nat) (h : ls.length = k + 1) :
    natVal ls = natVal (ls.take k) + ls.getD k 0 * bi_base ^ k := by
  conv_lhs => rw [← List.take_append_drop k ls]
  rw [natVal_append, List.length_take_of_le (by omega), natVal_drop_one ls k h]
  ring

theorem natVal_take_drop (ls : List Nat) (k : Nat) (hk : k ≤ ls.length) :
    natVal ls = natVal (ls.take k) + bi_base ^ k * natVal (ls.drop k) := by
  conv_lhs => rw [← List.take_append_drop k ls]
  rw [natVal_append, List.length_take_of_le hk]

theorem natVal_set_pos (q : List Nat) (p x : Nat) (hp : p < q.length)
    (h0 : q.getD p 0 = 0) :
    natVal (q.set p x) = natVal q + x * bi_base ^ p := by
  induction q generalizing p with
  | nil => simp at hp
  | cons d ds ih =>
    cases p with
    | zero =>
      simp only [List.getD_cons_zero] at h0
      subst h0
      simp only [List.set_cons_zero, natVal_cons, pow_zero]
      ring
    | succ p =>
      simp only [List.getD_cons_succ] at h0
      simp only [List.set_cons_succ, natVal_cons,
        ih p (by simpa using hp) h0, pow_succ]
      ring

theorem take_set_ge (q : List Nat) (p x k : Nat) (h : k ≤ p) :
    (q.set p x).take k = q.take k := by
  induction q generalizing p k with
  | nil => simp
  | cons d ds ih =>
    cases k with
    | zero => simp
    | succ k =>
      cases p with
      | zero => omega
      | succ p =>
        simp only [List.set_cons_succ, List.take_succ_cons]
        rw [ih p k (by omega)]

theorem natVal_replicate_zero (k : Nat) : natVal (List.replicate k 0) = 0 := by
  rw [natVal_zero_iff_all]
  intro d hd
  exact List.eq_of_mem_replicate hd

theorem wf_replicate_zero (k : Nat) : WfLimbs (List.replicate k 0) := by
  intro d hd
  rw [List.eq_of_mem_replicate hd]
  exact bi_base_pos

/-- `(A·c + r) / (D·c) = A / D` when `r < c`: scaling numerator and
denominator, a sub-`c` additive term cannot change the quotient. -/
theorem div_scale_bound (A D c r : Nat) (hc : 0 < c) (hr : r < c) :
    (A * c + r) / (D * c) = A / D := by
  rw [Nat.mul_comm D c, ← Nat.div_div_eq_div_mul, Nat.mul_comm A c,
    Nat.mul_add_div hc, Nat.div_eq_of_lt hr, Nat.add_zero]

/-! ### Normalization (step 1 of Algorithm D) -/

/-- Recursive form of the normalized-shift digit computation: `p` is the
previous (less significant) source digit; the second component is the
carry out of the top. -/
def shiftPair (e : Nat) : List Nat → Nat → List Nat × Nat
  | [], p => ([], p >>> (32 - e))
  | x :: rest, p =>
    let res := shiftPair e rest x
    ((((x <<< e) % bi_base) ||| (p >>> (32 - e))) :: res.1, res.2)

theorem norm_digit_eq (x p e : Nat) (he : e ≤ 32) (hp : p < bi_base) :
    (((x <<< e) % bi_base) ||| (p >>> (32 - e)) =
      (x % 2 ^ (32 - e)) * 2 ^ e + p / 2 ^ (32 - e)) ∧
      (x % 2 ^ (32 - e)) * 2 ^ e + p / 2 ^ (32 - e) < bi_base := by
  have hB : bi_base = 2 ^ (32 - e) * 2 ^ e := by
    rw [bi_base, ← pow_add]
    congr 1
    omega
  have h1 : (x <<< e) % bi_base = (x % 2 ^ (32 - e)) * 2 ^ e := by
    rw [Nat.shiftLeft_eq, hB, Nat.mul_mod_mul_right]
  have h2 : p >>> (32 - e) = p / 2 ^ (32 - e) :=
    Nat.shiftRight_eq_div_pow p (32 - e)
  have h3 : p / 2 ^ (32 - e) < 2 ^ e := by
    rw [Nat.div_lt_iff_lt_mul (by positivity)]
    calc p < bi_base := hp
      _ = 2 ^ e * 2 ^ (32 - e) := by rw [hB]; ring
  have h4 : (x % 2 ^ (32 - e)) * 2 ^ e + p / 2 ^ (32 - e) < bi_base := by
    have hm : x % 2 ^ (32 - e) < 2 ^ (32 - e) := Nat.mod_lt _ (by positivity)
    have h5 : (x % 2 ^ (32 - e) + 1) * 2 ^ e ≤ 2 ^ (32 - e) * 2 ^ e :=
      Nat.mul_le_mul_right _ (by omega)
    rw [Nat.add_mul, Nat.one_mul] at h5
    rw [hB]
    omega
  refine ⟨?_, h4⟩
  rw [h1, h2, Nat.lor_comm, or_eq_add_of_lt_pow _ _ _ h3, Nat.add_comm]

theorem shiftPair_length (e : Nat) (xs : List Nat) (p : Nat) :
    (shiftPair e xs p).1.length = xs.length := by
  induction xs generalizing p with
  | nil => rfl
  | cons x rest ih => simp [shiftPair, ih]

theorem shiftPair_wf (e : Nat) (he : e ≤ 32) :
    ∀ (xs : List Nat) (p : Nat), WfLimbs xs → p < bi_base →
      WfLimbs (shiftPair e xs p).1 := by
  intro xs
  induction xs with
  | nil => intro p _ _ d hd; simp [shiftPair] at hd
  | cons x rest ih =>
    intro p hw hp d hd
    have hx : x < bi_base := hw x (List.mem_cons_self ..)
    simp only [shiftPair, List.mem_cons] at hd
    rcases hd with rfl | hd
    · rw [(norm_digit_eq x p e he hp).1]
      exact (norm_digit_eq x p e he hp).2
    · exact ih x (fun a ha => hw a (List.mem_cons_of_mem _ ha)) hx d hd

theorem shiftPair_val (e : Nat) (he : e ≤ 32) :
    ∀ (xs : List Nat) (p : Nat), WfLimbs xs → p < bi_base →
      natVal (shiftPair e xs p).1 +
        (shiftPair e xs p).2 * bi_base ^ xs.length =
        natVal xs * 2 ^ e + p / 2 ^ (32 - e) := by
  intro xs
  induction xs with
  | nil =>
    intro p _ _
    simp [shiftPair, natVal, Nat.shiftRight_eq_div_pow]
  | cons x rest ih =>
    intro p hw hp
    have hx : x < bi_base := hw x (List.mem_cons_self ..)
    have hrest : WfLimbs rest := fun a ha => hw a (List.mem_cons_of_mem _ ha)
    have hih := ih x hrest hx
    simp only [shiftPair, natVal_cons, List.length_cons]
    rw [(norm_digit_eq x p e he hp).1]
    have hB : bi_base = 2 ^ (32 - e) * 2 ^ e := by
      rw [bi_base, ← pow_add]
      congr 1
      omega
    have hxd := Nat.div_add_mod x (2 ^ (32 - e))
    -- multiply the IH by bi_base and reassemble
    have hkey : bi_base * (natVal (shiftPair e rest x).1 +
        (shiftPair e rest x).2 * bi_base ^ rest.length) =
        bi_base * (natVal rest * 2 ^ e + x / 2 ^ (32 - e)) := by
      rw [hih]
    rw [Nat.mul_add] at hkey
    have hgoal : (x % 2 ^ (32 - e)) * 2 ^ e + p / 2 ^ (32 - e) +
        bi_base * natVal (shiftPair e rest x).1 +
        (shiftPair e rest x).2 * (bi_base * bi_base ^ rest.length) =
        (x + bi_base * natVal rest) * 2 ^ e + p / 2 ^ (32 - e) := by
      have h2 : (shiftPair e rest x).2 * (bi_base * bi_base ^ rest.length) =
          bi_base * ((shiftPair e rest x).2 * bi_base ^ rest.length) := by ring
      rw [h2]
      have h3 : bi_base * ((shiftPair e rest x).2 * bi_base ^ rest.length) =
          bi_base * (natVal rest * 2 ^ e + x / 2 ^ (32 - e)) -
            bi_base * natVal (shiftPair e rest x).1 := by omega
      rw [h3]
      have h4 : bi_base * natVal (shiftPair e rest x).1 ≤
          bi_base * (natVal rest * 2 ^ e + x / 2 ^ (32 - e)) := by omega
      have h5 : (x + bi_base * natVal rest) * 2 ^ e =
          (x % 2 ^ (32 - e)) * 2 ^ e + bi_base * (x / 2 ^ (32 - e)) +
            bi_base * (natVal rest * 2 ^ e) := by
        conv_lhs => rw [← hxd]
        rw [hB]
        ring
      have h6 : bi_base * (natVal rest * 2 ^ e + x / 2 ^ (32 - e)) =
          bi_base * (natVal rest * 2 ^ e) + bi_base * (x / 2 ^ (32 - e)) := by
        ring
      omega
    have hpow : bi_base ^ (rest.length + 1) = bi_base * bi_base ^ rest.length := by
      rw [pow_succ]
      ring
    rw [hpow]
    exact hgoal

theorem shiftPair_fst (e : Nat) :
    ∀ (xs : List Nat) (p : Nat),
      (shiftPair e xs p).1 = (List.range xs.length).map fun i =>
        ((xs.getD i 0 <<< e) % bi_base) |||
          ((if i = 0 then p else xs.getD (i - 1) 0) >>> (32 - e)) := by
  intro xs
  induction xs with
  | nil => intro p; rfl
  | cons x rest ih =>
    intro p
    simp only [shiftPair, List.length_cons, List.range_succ_eq_map,
      List.map_cons, List.map_map]
    congr 1
    rw [ih x]
    apply List.map_congr_left
    intro i _
    simp only [Function.comp_apply, Nat.succ_eq_add_one,
      List.getD_cons_succ, Nat.add_sub_cancel]
    congr 2
    cases i with
    | zero => simp
    | succ i => simp

theorem normListV_eq_shiftPair (xs : List Nat) (e : Nat) :
    normListV xs e = (shiftPair e xs 0).1 := by
  rw [shiftPair_fst, normListV]
  apply List.map_congr_left
  intro i _
  cases i with
  | zero => simp
  | succ i => simp

theorem shiftPair_snd (e : Nat) :
    ∀ (xs : List Nat) (p : Nat), xs ≠ [] →
      (shiftPair e xs p).2 = xs.getD (xs.length - 1) 0 >>> (32 - e) := by
  intro xs
  induction xs with
  | nil => intro p h; exact absurd rfl h
  | cons x rest ih =>
    intro p _
    cases hrest : rest with
    | nil => subst hrest; rfl
    | cons y ys =>
      subst hrest
      show (shiftPair e (y :: ys) x).2 = _
      rw [ih x (by simp)]
      have hlen : (x :: y :: ys).length - 1 = ((y :: ys).length - 1) + 1 := by
        simp
      rw [hlen, List.getD_cons_succ]

theorem norm_val (xs : List Nat) (e : Nat) (he : e ≤ 32) (hw : WfLimbs xs)
    (hne : xs ≠ []) :
    natVal (normListV xs e ++ [xs.getD (xs.length - 1) 0 >>> (32 - e)]) =
      natVal xs * 2 ^ e := by
  have hlen : (normListV xs e).length = xs.length := by
    rw [normListV_eq_shiftPair, shiftPair_length]
  rw [natVal_append, hlen]
  have hsingle : natVal [xs.getD (xs.length - 1) 0 >>> (32 - e)] =
      xs.getD (xs.length - 1) 0 >>> (32 - e) := by
    simp [natVal]
  rw [hsingle, normListV_eq_shiftPair, ← shiftPair_snd e xs 0 hne]
  have := shiftPair_val e he xs 0 hw bi_base_pos
  rw [Nat.zero_div, Nat.add_zero] at this
  rw [← this]
  ring

theorem wf_normListV (xs : List Nat) (e : Nat) (he : e ≤ 32)
    (hw : WfLimbs xs) : WfLimbs (normListV xs e) := by
  rw [normListV_eq_shiftPair]
  exact shiftPair_wf e he xs 0 hw bi_base_pos

theorem normListV_length (xs : List Nat) (e : Nat) :
    (normListV xs e).length = xs.length := by
  rw [normListV_eq_shiftPair, shiftPair_length]

/-- When the shifted top digit stays below the base, the normalized digit
vector alone (no extra top digit) carries the full shifted value. -/
theorem norm_val_exact (xs : List Nat) (e : Nat) (he : e ≤ 32)
    (hw : WfLimbs xs) (hne : xs ≠ [])
    (htop : xs.getD (xs.length - 1) 0 * 2 ^ e < bi_base) :
    natVal (normListV xs e) = natVal xs * 2 ^ e := by
  have h0 : xs.getD (xs.length - 1) 0 >>> (32 - e) = 0 := by
    rw [Nat.shiftRight_eq_div_pow, Nat.div_eq_of_lt]
    have hB : bi_base = 2 ^ (32 - e) * 2 ^ e := by
      rw [bi_base, ← pow_add]
      congr 1
      omega
    rw [hB] at htop
    have h2e : 0 < 2 ^ e := by positivity
    exact Nat.lt_of_mul_lt_mul_right htop
  have := norm_val xs e he hw hne
  rw [h0, natVal_append] at this
  simpa [natVal] using this

/-! ### The normalization shift search -/

theorem findShift32_spec :
    ∀ (f x e0 : Nat), 0 < x → x * 2 ^ e0 < bi_base →
      bi_base ≤ x * 2 ^ (e0 + f) →
      bi_base / 2 ≤ x * 2 ^ findShift32 x f e0 ∧
        x * 2 ^ findShift32 x f e0 < bi_base := by
  intro f
  induction f with
  | zero =>
    intro x e0 _ h1 h2
    rw [Nat.add_zero] at h2
    omega
  | succ f ih =>
    intro x e0 hx h1 h2
    rw [findShift32]
    have hsh : (x <<< e0) % bi_base = x * 2 ^ e0 := by
      rw [Nat.shiftLeft_eq, Nat.mod_eq_of_lt h1]
    rw [hsh]
    by_cases hc : x * 2 ^ e0 < bi_base / 2
    · rw [if_pos hc]
      have hnext : x * 2 ^ (e0 + 1) < bi_base := by
        rw [pow_succ, ← Nat.mul_assoc]
        have : bi_base / 2 * 2 = bi_base := by decide
        omega
      have hfin : bi_base ≤ x * 2 ^ (e0 + 1 + f) := by
        have : e0 + 1 + f = e0 + (f + 1) := by omega
        rw [this]
        exact h2
      exact ih x (e0 + 1) hx hnext hfin
    · rw [if_neg hc]
      exact ⟨by omega, h1⟩

/-! ### Single-digit division (`div_algo_single`) -/

theorem divSingleGo_spec (v0 : Nat) (hv : 0 < v0) (_hvB : v0 < bi_base) :
    ∀ (ds : List Nat) (rem0 : Nat), WfLimbs ds → rem0 < v0 →
      (divSingleGo v0 ds rem0).1.length = ds.length ∧
      WfLimbs (divSingleGo v0 ds rem0).1 ∧
      (divSingleGo v0 ds rem0).2 < v0 ∧
      rem0 * bi_base ^ ds.length + natVal ds.reverse =
        v0 * natVal (divSingleGo v0 ds rem0).1.reverse +
          (divSingleGo v0 ds rem0).2 := by
  intro ds
  induction ds with
  | nil =>
    intro rem0 _ hrem
    refine ⟨rfl, fun d hd => by simp [divSingleGo] at hd, hrem, ?_⟩
    simp [divSingleGo, natVal]
  | cons d ds ih =>
    intro rem0 hw hrem
    have hd : d < bi_base := hw d (List.mem_cons_self ..)
    have hds : WfLimbs ds := fun a ha => hw a (List.mem_cons_of_mem _ ha)
    have htemp : (rem0 <<< bi_dwidth) ||| d = rem0 * bi_base + d := by
      rw [Nat.lor_comm, Nat.shiftLeft_eq, bi_dwidth]
      rw [or_eq_add_of_lt_pow d rem0 32 (by simpa [bi_base] using hd)]
      rw [Nat.add_comm]
      rfl
    set temp := (rem0 <<< bi_dwidth) ||| d with htempdef
    have htv : temp = rem0 * bi_base + d := htemp
    have htlt : temp < v0 * bi_base := by
      have h1 : rem0 + 1 ≤ v0 := hrem
      have h2 : (rem0 + 1) * bi_base ≤ v0 * bi_base :=
        Nat.mul_le_mul_right _ h1
      rw [Nat.add_mul, Nat.one_mul] at h2
      omega
    have hq0 : temp / v0 < bi_base := by
      rw [Nat.div_lt_iff_lt_mul hv]
      calc temp < v0 * bi_base := htlt
        _ = bi_base * v0 := Nat.mul_comm _ _
    have hmod : temp % v0 < v0 := Nat.mod_lt _ hv
    obtain ⟨ihlen, ihwf, ihrem, ihval⟩ := ih (temp % v0) hds hmod
    have hstep : divSingleGo v0 (d :: ds) rem0 =
        (temp / v0 :: (divSingleGo v0 ds (temp % v0)).1,
          (divSingleGo v0 ds (temp % v0)).2) := by
      simp [divSingleGo]
    rw [hstep]
    refine ⟨by simp [ihlen], ?_, ihrem, ?_⟩
    · intro a ha
      rcases List.mem_cons.mp ha with rfl | ha
      · exact hq0
      · exact ihwf a ha
    · have hrevd : natVal (d :: ds).reverse =
          natVal ds.reverse + d * bi_base ^ ds.length := by
        rw [List.reverse_cons, natVal_append, List.length_reverse]
        simp [natVal]
        ring
      have hrevq : natVal (temp / v0 :: (divSingleGo v0 ds (temp % v0)).1).reverse =
          natVal (divSingleGo v0 ds (temp % v0)).1.reverse +
            temp / v0 * bi_base ^ ds.length := by
        rw [List.reverse_cons, natVal_append, List.length_reverse, ihlen]
        simp [natVal]
        ring
      have hdm := Nat.div_add_mod temp v0
      calc rem0 * bi_base ^ (d :: ds).length + natVal (d :: ds).reverse
          = temp * bi_base ^ ds.length + natVal ds.reverse := by
            rw [hrevd, htv, List.length_cons, pow_succ]
            ring
        _ = (v0 * (temp / v0) + temp % v0) * bi_base ^ ds.length +
            natVal ds.reverse := by rw [hdm]
        _ = v0 * (temp / v0 * bi_base ^ ds.length) +
            (temp % v0 * bi_base ^ ds.length + natVal ds.reverse) := by ring
        _ = v0 * (temp / v0 * bi_base ^ ds.length) +
            (v0 * natVal (divSingleGo v0 ds (temp % v0)).1.reverse +
              (divSingleGo v0 ds (temp % v0)).2) := by rw [ihval]
        _ = v0 * (natVal (divSingleGo v0 ds (temp % v0)).1.reverse +
              temp / v0 * bi_base ^ ds.length) +
            (divSingleGo v0 ds (temp % v0)).2 := by ring
        _ = _ := by rw [hrevq]

theorem div_algo_single_spec (u v : bi_t) (hu : WfLimbs u.limbs)
    (hv1 : v.limbs.length = 1) (hvw : WfLimbs v.limbs)
    (hvnz : 0 < v.limbs.getD 0 0) :
    (div_algo_single u v).1.negative = false ∧
    (div_algo_single u v).2.negative = false ∧
    Canonical (div_algo_single u v).1 ∧
    Canonical (div_algo_single u v).2 ∧
    natVal (div_algo_single u v).1.limbs = natVal u.limbs / natVal v.limbs ∧
    natVal (div_algo_single u v).2.limbs = natVal u.limbs % natVal v.limbs := by
  obtain ⟨x, hx⟩ : ∃ x, v.limbs = [x] := by
    cases hvl : v.limbs with
    | nil => rw [hvl] at hv1; simp at hv1
    | cons a as =>
      rw [hvl] at hv1
      simp only [List.length_cons, Nat.add_left_eq_self] at hv1
      exact ⟨a, by rw [List.eq_nil_of_length_eq_zero hv1]⟩
  have hv0 : v.limbs.getD 0 0 = x := by rw [hx]; rfl
  have hvnat : natVal v.limbs = x := by rw [hx]; simp [natVal]
  have hxB : x < bi_base := hvw x (by rw [hx]; exact List.mem_cons_self ..)
  have hxpos : 0 < x := by rw [← hv0]; exact hvnz
  obtain ⟨hlen, hwf, hrem, hval⟩ :=
    divSingleGo_spec x hxpos hxB u.limbs.reverse 0 (wf_reverse _ hu) hxpos
  rw [List.reverse_reverse, Nat.zero_mul, Nat.zero_add] at hval
  have hstep : div_algo_single u v =
      (⟨false, trimLimbs (divSingleGo x u.limbs.reverse 0).1.reverse⟩,
        ⟨false, trimLimbs [(divSingleGo x u.limbs.reverse 0).2]⟩) := by
    simp [div_algo_single, hx]
  rw [hstep]
  have hQ : natVal (divSingleGo x u.limbs.reverse 0).1.reverse =
      natVal u.limbs / x := by
    have : (x * natVal (divSingleGo x u.limbs.reverse 0).1.reverse +
        (divSingleGo x u.limbs.reverse 0).2) / x =
        natVal (divSingleGo x u.limbs.reverse 0).1.reverse := by
      rw [Nat.mul_add_div hxpos, Nat.div_eq_of_lt hrem, Nat.add_zero]
    rw [← this, ← hval]
  have hR : (divSingleGo x u.limbs.reverse 0).2 = natVal u.limbs % x := by
    have : (x * natVal (divSingleGo x u.limbs.reverse 0).1.reverse +
        (divSingleGo x u.limbs.reverse 0).2) % x =
        (divSingleGo x u.limbs.reverse 0).2 := by
      rw [Nat.mul_add_mod, Nat.mod_eq_of_lt hrem]
    rw [← this, ← hval]
  refine ⟨rfl, rfl, ⟨wf_trimLimbs _ (wf_reverse _ hwf), trimLimbs_getLast _,
    fun _ => rfl⟩, ⟨wf_trimLimbs _ (fun a ha => ?_), trimLimbs_getLast _,
    fun _ => rfl⟩, ?_, ?_⟩
  · simp only [List.mem_singleton] at ha
    subst ha
    omega
  · show natVal (trimLimbs (divSingleGo x u.limbs.reverse 0).1.reverse) = _
    rw [natVal_trimLimbs, hQ, hvnat]
  · show natVal (trimLimbs [(divSingleGo x u.limbs.reverse 0).2]) = _
    rw [natVal_trimLimbs, hvnat]
    simp only [natVal_cons, natVal]
    omega

/-! ### Window forms of the multiply-subtract and add-back loops

`mulsubLoop`/`addbackLoop` walk the full dividend buffer by index; the
window forms below walk the affected sublist directly and are related to
them by the translation lemmas. -/

def mulsubList (qhat : Nat) : List Nat → List Nat → Int → List Nat × Int
  | [], _, b => ([], b)
  | w0 :: ws, vs, b =>
    let product := qhat * vs.getD 0 0
    let stmp : Int := (w0 : Int) - ((product % bi_base : Nat) : Int) - b
    let res := mulsubList qhat ws vs.tail
      (((product >>> bi_dwidth : Nat) : Int) - Int.fdiv stmp (bi_base : Nat))
    ((stmp % (bi_base : Int)).toNat :: res.1, res.2)

def addbackList : List Nat → List Nat → Nat → List Nat × Nat
  | [], _, c => ([], c)
  | w0 :: ws, vs, c =>
    let tmp := w0 + vs.getD 0 0 + c
    let res := addbackList ws vs.tail (tmp / bi_base)
    (tmp % bi_base :: res.1, res.2)

theorem mulsubLoop_eq (vnorm : List Nat) (qhat j : Nat) :
    ∀ (ws : List Nat) (i : Nat) (pre rest : List Nat) (b : Int),
      pre.length = j + i →
      mulsubLoop vnorm qhat j i ws.length (pre ++ ws ++ rest) b =
        (pre ++ (mulsubList qhat ws (vnorm.drop i) b).1 ++ rest,
          (mulsubList qhat ws (vnorm.drop i) b).2) := by
  intro ws
  induction ws with
  | nil => intro i pre rest b _; rfl
  | cons w0 ws ih =>
    intro i pre rest b hlen
    have hget : (pre ++ (w0 :: ws) ++ rest).getD (j + i) 0 = w0 := by
      rw [← hlen, List.append_assoc]
      have := getD_append_add pre ((w0 :: ws) ++ rest) 0
      rw [Nat.add_zero] at this
      rw [this]
      rfl
    have hv0 : vnorm.getD i 0 = (vnorm.drop i).getD 0 0 := by
      rw [getD_drop, Nat.add_zero]
    have hvt : (vnorm.drop i).tail = vnorm.drop (i + 1) := by
      rw [← List.drop_drop, List.drop_one]
    show mulsubLoop vnorm qhat j i (ws.length + 1) (pre ++ (w0 :: ws) ++ rest) b = _
    rw [mulsubLoop, hget]
    have hset : ∀ x : Nat, (pre ++ (w0 :: ws) ++ rest).set (j + i) x =
        (pre ++ [x]) ++ ws ++ rest := by
      intro x
      rw [← hlen, List.append_assoc, List.cons_append, set_append_len]
      simp
    rw [hset]
    have hlen2 : (pre ++ [(((w0 : Int) -
        ((qhat * vnorm.getD i 0 % bi_base : Nat) : Int) - b) %
          (bi_base : Int)).toNat]).length = j + (i + 1) := by
      simp only [List.length_append, List.length_cons, List.length_nil, hlen]
      omega
    rw [ih (i + 1) _ rest _ hlen2]
    show (_ ++ _ ++ rest, _) = (_ ++ _ ++ rest, _)
    rw [mulsubList]
    simp only [← hv0, ← hvt, List.append_assoc, List.cons_append,
      List.singleton_append, List.nil_append]

theorem addbackLoop_eq (vnorm : List Nat) (j : Nat) :
    ∀ (ws : List Nat) (i : Nat) (pre rest : List Nat) (c : Nat),
      pre.length = j + i →
      addbackLoop vnorm j i ws.length (pre ++ ws ++ rest) c =
        (pre ++ (addbackList ws (vnorm.drop i) c).1 ++ rest,
          (addbackList ws (vnorm.drop i) c).2) := by
  intro ws
  induction ws with
  | nil => intro i pre rest c _; rfl
  | cons w0 ws ih =>
    intro i pre rest c hlen
    have hget : (pre ++ (w0 :: ws) ++ rest).getD (j + i) 0 = w0 := by
      rw [← hlen, List.append_assoc]
      have := getD_append_add pre ((w0 :: ws) ++ rest) 0
      rw [Nat.add_zero] at this
      rw [this]
      rfl
    have hv0 : vnorm.getD i 0 = (vnorm.drop i).getD 0 0 := by
      rw [getD_drop, Nat.add_zero]
    have hvt : (vnorm.drop i).tail = vnorm.drop (i + 1) := by
      rw [← List.drop_drop, List.drop_one]
    show addbackLoop vnorm j i (ws.length + 1) (pre ++ (w0 :: ws) ++ rest) c = _
    rw [addbackLoop, hget]
    have hset : ∀ x : Nat, (pre ++ (w0 :: ws) ++ rest).set (j + i) x =
        (pre ++ [x]) ++ ws ++ rest := by
      intro x
      rw [← hlen, List.append_assoc, List.cons_append, set_append_len]
      simp
    rw [hset]
    have hlen2 : (pre ++ [(w0 + vnorm.getD i 0 + c) % bi_base]).length =
        j + (i + 1) := by
      simp only [List.length_append, List.length_cons, List.length_nil, hlen]
      omega
    rw [ih (i + 1) _ rest _ hlen2]
    show (_ ++ _ ++ rest, _) = (_ ++ _ ++ rest, _)
    rw [addbackList]
    simp only [← hv0, ← hvt, List.append_assoc, List.cons_append,
      List.singleton_append, List.nil_append]

theorem mulsubList_spec (qhat : Nat) (hq : qhat ≤ bi_base) :
    ∀ (ws vs : List Nat) (b : Int), WfLimbs ws → WfLimbs vs →
      ws.length = vs.length → 0 ≤ b → b ≤ (bi_base : Int) + 1 →
      (mulsubList qhat ws vs b).1.length = ws.length ∧
      WfLimbs (mulsubList qhat ws vs b).1 ∧
      0 ≤ (mulsubList qhat ws vs b).2 ∧
      (mulsubList qhat ws vs b).2 ≤ (bi_base : Int) + 1 ∧
      (natVal (mulsubList qhat ws vs b).1 : Int) =
        (natVal ws : Int) - qhat * natVal vs - b +
          (mulsubList qhat ws vs b).2 * (bi_base : Int) ^ ws.length := by
  intro ws
  induction ws with
  | nil =>
    intro vs b _ _ hlen hb0 hb1
    have hvs : vs = [] := List.eq_nil_of_length_eq_zero (by simpa using hlen.symm)
    subst hvs
    refine ⟨rfl, fun d hd => by simp [mulsubList] at hd, hb0, hb1, ?_⟩
    simp [mulsubList, natVal]
  | cons w0 ws ih =>
    intro vs b hw hv hlen hb0 hb1
    cases vs with
    | nil => simp at hlen
    | cons v0 vs =>
      have hw0 : w0 < bi_base := hw w0 (List.mem_cons_self ..)
      have hv0 : v0 < bi_base := hv v0 (List.mem_cons_self ..)
      have hws : WfLimbs ws := fun a ha => hw a (List.mem_cons_of_mem _ ha)
      have hvs : WfLimbs vs := fun a ha => hv a (List.mem_cons_of_mem _ ha)
      have hlen' : ws.length = vs.length := by simpa using hlen
      have hBpos : (0 : Int) < (bi_base : Int) := by
        exact_mod_cast bi_base_pos
      set product := qhat * ((v0 :: vs).getD 0 0) with hproddef
      have hprodv : product = qhat * v0 := by rw [hproddef]; rfl
      have hprod_le : product ≤ bi_base * (bi_base - 1) := by
        rw [hprodv]
        calc qhat * v0 ≤ bi_base * v0 := Nat.mul_le_mul_right _ hq
          _ ≤ bi_base * (bi_base - 1) := Nat.mul_le_mul_left _ (by omega)
      have hphi : product >>> bi_dwidth = product / bi_base := by
        rw [Nat.shiftRight_eq_div_pow]
        rfl
      have hphi_le : product / bi_base ≤ bi_base - 1 := by
        rw [Nat.div_le_iff_le_mul_add_pred bi_base_pos]
        calc product ≤ bi_base * (bi_base - 1) := hprod_le
          _ ≤ bi_base * (bi_base - 1) + (bi_base - 1) := Nat.le_add_right _ _
      have hplow : product % bi_base < bi_base := Nat.mod_lt _ bi_base_pos
      set stmp : Int := (w0 : Int) - ((product % bi_base : Nat) : Int) - b
        with hstmpdef
      have hstmp_lo : -(2 * (bi_base : Int)) ≤ stmp := by
        rw [hstmpdef]
        have h1 : ((product % bi_base : Nat) : Int) < (bi_base : Int) := by
          exact_mod_cast hplow
        omega
      have hstmp_hi : stmp < (bi_base : Int) := by
        rw [hstmpdef]
        have h1 : (w0 : Int) < (bi_base : Int) := by exact_mod_cast hw0
        have h2 : (0 : Int) ≤ ((product % bi_base : Nat) : Int) := by positivity
        omega
      have hfd : Int.fdiv stmp (bi_base : Nat) = stmp / (bi_base : Int) :=
        Int.fdiv_eq_ediv _ (by exact_mod_cast Nat.zero_le bi_base)
      have hd_lo : -2 ≤ stmp / (bi_base : Int) := by
        rw [Int.le_ediv_iff_mul_le hBpos]
        omega
      have hd_hi : stmp / (bi_base : Int) ≤ 0 := by
        have : stmp / (bi_base : Int) < 1 := by
          rw [Int.ediv_lt_iff_lt_mul hBpos]
          omega
        omega
      set b' : Int := ((product >>> bi_dwidth : Nat) : Int) -
        Int.fdiv stmp (bi_base : Nat) with hbPdef
      have hb'0 : 0 ≤ b' := by
        rw [hbPdef, hfd]
        have : (0 : Int) ≤ ((product >>> bi_dwidth : Nat) : Int) := by positivity
        omega
      have hb'1 : b' ≤ (bi_base : Int) + 1 := by
        rw [hbPdef, hfd, hphi]
        have h1 : ((product / bi_base : Nat) : Int) ≤ (bi_base : Int) - 1 := by
          have := hphi_le
          have hc : ((product / bi_base : Nat) : Int) ≤
              ((bi_base - 1 : Nat) : Int) := by exact_mod_cast this
          have hc2 : ((bi_base - 1 : Nat) : Int) = (bi_base : Int) - 1 := by
            have := bi_base_pos
            omega
          omega
        omega
      obtain ⟨ihlen, ihwf, ihb0, ihb1, ihval⟩ :=
        ih vs b' hws hvs hlen' hb'0 hb'1
      have hdig_lo : (0 : Int) ≤ stmp % (bi_base : Int) :=
        Int.emod_nonneg _ (by omega)
      have hdig_hi : stmp % (bi_base : Int) < (bi_base : Int) :=
        Int.emod_lt_of_pos _ hBpos
      have hstep : mulsubList qhat (w0 :: ws) (v0 :: vs) b =
          ((stmp % (bi_base : Int)).toNat ::
            (mulsubList qhat ws vs b').1,
            (mulsubList qhat ws vs b').2) := by
        rw [mulsubList]
        rfl
      rw [hstep]
      refine ⟨by simp [ihlen], ?_, ihb0, ihb1, ?_⟩
      · intro a ha
        rcases List.mem_cons.mp ha with rfl | ha
        · have : ((stmp % (bi_base : Int)).toNat : Int) < (bi_base : Int) := by
            rwa [Int.toNat_of_nonneg hdig_lo]
          exact_mod_cast this
        · exact ihwf a ha
      · -- the value identity
        have hemod : stmp % (bi_base : Int) =
            stmp - (bi_base : Int) * (stmp / (bi_base : Int)) := by
          have := Int.ediv_add_emod stmp (bi_base : Int)
          omega
        have hprodsplit : ((product % bi_base : Nat) : Int) +
            (bi_base : Int) * ((product >>> bi_dwidth : Nat) : Int) =
            (qhat : Int) * (v0 : Int) := by
          rw [hphi]
          have h1 : product % bi_base + bi_base * (product / bi_base) =
              qhat * v0 := by
            rw [Nat.mod_add_div, hprodv]
          exact_mod_cast h1
        set D : Nat := (stmp % (bi_base : Int)).toNat with hDdef
        have hD : (D : Int) =
            stmp - (bi_base : Int) * (stmp / (bi_base : Int)) := by
          rw [hDdef, Int.toNat_of_nonneg hdig_lo]
          exact hemod
        simp only [natVal_cons, List.length_cons]
        push_cast
        rw [hD, ihval, hbPdef, hfd]
        linear_combination hstmpdef - hprodsplit

theorem addbackList_spec :
    ∀ (ws vs : List Nat) (c : Nat), WfLimbs ws → WfLimbs vs →
      ws.length = vs.length → c ≤ 1 →
      (addbackList ws vs c).1.length = ws.length ∧
      WfLimbs (addbackList ws vs c).1 ∧
      (addbackList ws vs c).2 ≤ 1 ∧
      natVal (addbackList ws vs c).1 +
          (addbackList ws vs c).2 * bi_base ^ ws.length =
        natVal ws + natVal vs + c := by
  intro ws
  induction ws with
  | nil =>
    intro vs c _ _ hlen hc
    have hvs : vs = [] := List.eq_nil_of_length_eq_zero (by simpa using hlen.symm)
    subst hvs
    refine ⟨rfl, fun d hd => by simp [addbackList] at hd, hc, ?_⟩
    simp [addbackList, natVal]
  | cons w0 ws ih =>
    intro vs c hw hv hlen hc
    cases vs with
    | nil => simp at hlen
    | cons v0 vs =>
      have hw0 : w0 < bi_base := hw w0 (List.mem_cons_self ..)
      have hv0 : v0 < bi_base := hv v0 (List.mem_cons_self ..)
      have hws : WfLimbs ws := fun a ha => hw a (List.mem_cons_of_mem _ ha)
      have hvs : WfLimbs vs := fun a ha => hv a (List.mem_cons_of_mem _ ha)
      have hlen' : ws.length = vs.length := by simpa using hlen
      set tmp := w0 + (v0 :: vs).getD 0 0 + c with htmpdef
      have htmpv : tmp = w0 + v0 + c := by rw [htmpdef]; rfl
      have htmplt : tmp < 2 * bi_base := by omega
      have hcarry : tmp / bi_base ≤ 1 := by
        rw [Nat.div_le_iff_le_mul_add_pred bi_base_pos]
        omega
      obtain ⟨ihlen, ihwf, ihc, ihval⟩ := ih vs (tmp / bi_base) hws hvs hlen' hcarry
      have hstep : addbackList (w0 :: ws) (v0 :: vs) c =
          (tmp % bi_base :: (addbackList ws vs (tmp / bi_base)).1,
            (addbackList ws vs (tmp / bi_base)).2) := by
        rw [addbackList]
        rfl
      rw [hstep]
      refine ⟨by simp [ihlen], ?_, ihc, ?_⟩
      · intro a ha
        rcases List.mem_cons.mp ha with rfl | ha
        · exact Nat.mod_lt _ bi_base_pos
        · exact ihwf a ha
      · have hdm := Nat.div_add_mod tmp bi_base
        simp only [natVal_cons, List.length_cons, pow_succ]
        have hmul : bi_base * natVal (addbackList ws vs (tmp / bi_base)).1 +
            bi_base * ((addbackList ws vs (tmp / bi_base)).2 *
              bi_base ^ ws.length) =
            bi_base * natVal ws + bi_base * natVal vs +
              bi_base * (tmp / bi_base) := by
          calc bi_base * natVal (addbackList ws vs (tmp / bi_base)).1 +
              bi_base * ((addbackList ws vs (tmp / bi_base)).2 *
                bi_base ^ ws.length) =
              bi_base * (natVal (addbackList ws vs (tmp / bi_base)).1 +
                (addbackList ws vs (tmp / bi_base)).2 * bi_base ^ ws.length) := by
                ring
            _ = bi_base * (natVal ws + natVal vs + tmp / bi_base) := by rw [ihval]
            _ = _ := by ring
        have hexp : (addbackList ws vs (tmp / bi_base)).2 *
            (bi_base ^ ws.length * bi_base) =
            bi_base * ((addbackList ws vs (tmp / bi_base)).2 *
              bi_base ^ ws.length) := by ring
        rw [hexp]
        omega

/-! ### The `q_hat` estimate (step 3 of Algorithm D) -/

/-- Any candidate `qh` with `qh · V2 ≤ w3` is at most `q + 1`, where `V2`
is the two-digit prefix of the normalized divisor and `w3` the three-digit
prefix of the window (Knuth's Theorem B, powered by `vp ≥ B/2`). -/
theorem qhat_exit_le (w V q w3 V2 c : Nat)
    (hq : q = w / V) (hVpos : 0 < V)
    (hw3c : w3 * c ≤ w)
    (hV2c : V ≤ V2 * c + (c - 1)) (hc : 0 < c)
    (hVlow : (bi_base / 2) * (c * bi_base) ≤ V)
    (hqB : q < bi_base) (hV2pos : 0 < V2)
    (qh : Nat) (hle : qh * V2 ≤ w3) : qh ≤ q + 1 := by
  have h1 : qh ≤ w3 / V2 := (Nat.le_div_iff_mul_le hV2pos).mpr hle
  have h2 : w3 / V2 ≤ q + 1 := by
    have h3 : w3 / V2 < q + 2 := by
      rw [Nat.div_lt_iff_lt_mul hV2pos]
      by_contra hcontra
      push_neg at hcontra
      -- (q+2)·V2 ≤ w3 leads to (q+2)(c-1) > V, impossible for V ≥ (B/2)·c·B
      have h4 : (q + 2) * V2 * c ≤ w3 * c := Nat.mul_le_mul_right _ hcontra
      have h5 : (q + 2) * V2 * c ≤ w := le_trans h4 hw3c
      have h6 : w < (q + 1) * V := by
        have := Nat.div_add_mod w V
        have hmod : w % V < V := Nat.mod_lt _ hVpos
        have : w = V * q + w % V := by rw [hq]; omega
        have hexp : (q + 1) * V = V * q + V := by ring
        omega
      have h7 : (q + 2) * V ≤ (q + 2) * (V2 * c) + (q + 2) * (c - 1) := by
        calc (q + 2) * V ≤ (q + 2) * (V2 * c + (c - 1)) :=
            Nat.mul_le_mul_left _ hV2c
          _ = (q + 2) * (V2 * c) + (q + 2) * (c - 1) := by ring
      have h8 : (q + 2) * (V2 * c) = (q + 2) * V2 * c := by ring
      -- combining: (q+2)·V ≤ w + (q+2)(c-1) < (q+1)V + (q+2)(c-1)
      -- so V < (q+2)(c-1)
      have h9 : (q + 2) * V = (q + 1) * V + V := by ring
      have h10 : V < (q + 2) * (c - 1) := by omega
      have h11 : (q + 2) * (c - 1) ≤ (bi_base + 1) * c := by
        calc (q + 2) * (c - 1) ≤ (bi_base + 1) * (c - 1) :=
            Nat.mul_le_mul_right _ (by omega)
          _ ≤ (bi_base + 1) * c := Nat.mul_le_mul_left _ (by omega)
      have h12 : (bi_base + 1) * c < bi_base / 2 * (c * bi_base) := by
        have hnum : bi_base + 1 < bi_base / 2 * bi_base := by decide
        calc (bi_base + 1) * c < (bi_base / 2 * bi_base) * c :=
            Nat.mul_lt_mul_of_lt_of_le hnum (le_refl c) hc
          _ = bi_base / 2 * (c * bi_base) := by ring
      omega
    omega
  omega

theorem qhatLoop_spec (vp vpp u2 tmp w3 V2 q : Nat)
    (hvpp : vpp < bi_base)
    (hw3 : w3 = tmp * bi_base + u2)
    (hqV2 : q * V2 ≤ w3)
    (hV2eq : V2 = vp * bi_base + vpp)
    (hqB : q < bi_base)
    (hexit : ∀ qh, qh * V2 ≤ w3 → qh ≤ q + 1) :
    ∀ (fuel qhat rhat : Nat),
      qhat * vp + rhat = tmp → q ≤ qhat → qhat ≤ bi_base + 1 →
      qhat - q < fuel →
      q ≤ (qhatLoop vp vpp u2 fuel qhat rhat).1 ∧
        (qhatLoop vp vpp u2 fuel qhat rhat).1 ≤ q + 1 := by
  intro fuel
  induction fuel with
  | zero =>
    intro qhat rhat _ _ _ hfuel
    omega
  | succ fuel ih =>
    intro qhat rhat hinv hlo hcap hfuel
    rw [qhatLoop]
    have hkey : qhat * V2 + bi_base * rhat = tmp * bi_base + qhat * vpp := by
      calc qhat * V2 + bi_base * rhat
          = (qhat * vp + rhat) * bi_base + qhat * vpp := by rw [hV2eq]; ring
        _ = tmp * bi_base + qhat * vpp := by rw [hinv]
    by_cases hcond : qhat = bi_base ∨ qhat * vpp > bi_base * rhat + u2
    · rw [if_pos hcond]
      have hgt : q < qhat := by
        rcases hcond with hB | htest
        · omega
        · by_contra hle
          push_neg at hle
          have h1 : qhat * V2 ≤ q * V2 := Nat.mul_le_mul_right _ hle
          omega
      have hinv' : (qhat - 1) * vp + (rhat + vp) = tmp := by
        have hsub : (qhat - 1) * vp + vp = qhat * vp := by
          have : qhat - 1 + 1 = qhat := by omega
          calc (qhat - 1) * vp + vp = (qhat - 1 + 1) * vp := by ring
            _ = qhat * vp := by rw [this]
        omega
      by_cases hbreak : bi_base ≤ rhat + vp
      · rw [if_pos hbreak]
        refine ⟨by omega, ?_⟩
        apply hexit
        -- (qhat-1)·V2 + B·(rhat+vp) = tmp·B + (qhat-1)·vpp and
        -- (qhat-1)·vpp < B·(rhat+vp), so (qhat-1)·V2 < tmp·B ≤ w3
        have hkey' : (qhat - 1) * V2 + bi_base * (rhat + vp) =
            tmp * bi_base + (qhat - 1) * vpp := by
          calc (qhat - 1) * V2 + bi_base * (rhat + vp)
              = ((qhat - 1) * vp + (rhat + vp)) * bi_base + (qhat - 1) * vpp := by
                rw [hV2eq]; ring
            _ = tmp * bi_base + (qhat - 1) * vpp := by rw [hinv']
        have hsmall : (qhat - 1) * vpp ≤ bi_base * (rhat + vp) := by
          calc (qhat - 1) * vpp ≤ bi_base * vpp :=
              Nat.mul_le_mul_right _ (by omega)
            _ ≤ bi_base * (rhat + vp) := Nat.mul_le_mul_left _ (by omega)
        show (qhat - 1) * V2 ≤ w3
        omega
      · rw [if_neg hbreak]
        exact ih (qhat - 1) (rhat + vp) hinv' (by omega) (by omega) (by omega)
    · rw [if_neg hcond]
      push_neg at hcond
      refine ⟨hlo, ?_⟩
      apply hexit
      -- qhat·V2 + B·rhat = tmp·B + qhat·vpp ≤ tmp·B + B·rhat + u2
      show qhat * V2 ≤ w3
      omega

theorem getD_lt_base (l : List Nat) (hw : WfLimbs l) (i : Nat) :
    l.getD i 0 < bi_base := by
  by_cases h : i < l.length
  · rw [List.getD_eq_getElem?_getD, List.getElem?_eq_getElem h, Option.getD_some]
    exact hw _ (List.getElem_mem ..)
  · rw [List.getD_eq_getElem?_getD, List.getElem?_eq_none (by omega),
      Option.getD_none]
    exact bi_base_pos

theorem drop_eq_singleton (ls : List Nat) (k : Nat) (h : ls.length = k + 1) :
    ls.drop k = [ls.getD k 0] := by
  have hlen : (ls.drop k).length = 1 := by
    rw [List.length_drop, h]
    omega
  cases hd : ls.drop k with
  | nil => rw [hd] at hlen; simp at hlen
  | cons x xs =>
    rw [hd] at hlen
    simp only [List.length_cons, Nat.add_left_eq_self] at hlen
    have hxs : xs = [] := List.eq_nil_of_length_eq_zero hlen
    subst hxs
    have hx : ls.getD k 0 = x := by
      have := getD_drop ls k 0
      rw [hd] at this
      simpa using this.symm
    rw [hx]

theorem natVal_pair (ls : List Nat) (h : ls.length = 2) :
    natVal ls = ls.getD 0 0 + bi_base * ls.getD 1 0 := by
  cases ls with
  | nil => simp at h
  | cons a t =>
    cases t with
    | nil => simp at h
    | cons b t2 =>
      have ht2 : t2 = [] := by
        simp only [List.length_cons] at h
        exact List.eq_nil_of_length_eq_zero (by omega)
      subst ht2
      simp [natVal]

theorem natVal_triple (ls : List Nat) (h : ls.length = 3) :
    natVal ls = ls.getD 0 0 + bi_base * ls.getD 1 0 +
      bi_base ^ 2 * ls.getD 2 0 := by
  cases ls with
  | nil => simp at h
  | cons a t =>
    cases t with
    | nil => simp at h
    | cons b t2 =>
      cases t2 with
      | nil => simp at h
      | cons c t3 =>
        have ht3 : t3 = [] := by
          simp only [List.length_cons] at h
          exact List.eq_nil_of_length_eq_zero (by omega)
        subst ht3
        simp [natVal]
        ring

theorem wf_take (ls : List Nat) (k : Nat) (hw : WfLimbs ls) :
    WfLimbs (ls.take k) :=
  fun d hd => hw d (List.mem_of_mem_take hd)

theorem wf_drop (ls : List Nat) (k : Nat) (hw : WfLimbs ls) :
    WfLimbs (ls.drop k) :=
  fun d hd => hw d (List.mem_of_mem_drop hd)

/-- Unfolding of `knuthStep` with the tuple-destructuring `let`s written
as projections. -/
theorem knuthStep_eq (vnorm : List Nat) (n : Nat) (u : List Nat) (j : Nat) :
    knuthStep vnorm n u j =
      (let vp := vnorm.getD (n - 1) 0
       let vpp := vnorm.getD (n - 2) 0
       let tmp := u.getD (j + n) 0 * bi_base + u.getD (j + n - 1) 0
       let qhat := (qhatLoop vp vpp (u.getD (j + n - 2) 0)
         (tmp / vp + 1) (tmp / vp) (tmp % vp)).1
       let mres := mulsubLoop vnorm qhat j 0 n u 0
       let neg : Bool := decide ((mres.1.getD (j + n) 0 : Int) < mres.2)
       let u2 := mres.1.set (j + n)
         (((mres.1.getD (j + n) 0 : Int) - mres.2) % (bi_base : Nat)).toNat
       let qj := qhat % bi_base
       if neg then
         let ares := addbackLoop vnorm j 0 n u2 0
         let u4 := ares.1.set (j + n) ((ares.1.getD (j + n) 0 + ares.2) % bi_base)
         ((qj + bi_base - 1) % bi_base, u4)
       else (qj, u2)) := rfl

/-- One iteration of the main loop of Algorithm D, in window form: with a
normalized divisor (`vp ≥ B/2`), an `n+1`-digit window of value below
`V · B`, the step emits the quotient digit `⌊w / V⌋` and replaces the
window with `w mod V` (top digit zero), leaving everything outside the
window untouched. -/
theorem knuthStep_spec (vnorm : List Nat) (n j : Nat)
    (pre win post : List Nat)
    (hn : 2 ≤ n) (hvlen : vnorm.length = n) (hwv : WfLimbs vnorm)
    (hvp : bi_base / 2 ≤ vnorm.getD (n - 1) 0)
    (hprelen : pre.length = j)
    (hwinlen : win.length = n + 1) (hwin : WfLimbs win)
    (hwlt : natVal win < natVal vnorm * bi_base) :
    ∃ res : List Nat,
      (knuthStep vnorm n (pre ++ win ++ post) j).1 =
        natVal win / natVal vnorm ∧
      (knuthStep vnorm n (pre ++ win ++ post) j).2 =
        pre ++ (res ++ [0]) ++ post ∧
      res.length = n ∧ WfLimbs res ∧
      natVal res = natVal win % natVal vnorm := by
  have hB2 : 2 ≤ bi_base := by decide
  have hBeven : bi_base = 2 * (bi_base / 2) := by decide
  have hBpos := bi_base_pos
  set vp := vnorm.getD (n - 1) 0 with hvpdef
  set vpp := vnorm.getD (n - 2) 0 with hvppdef
  set V := natVal vnorm with hVdef
  set w := natVal win with hwdef
  have hvpB : vp < bi_base := by rw [hvpdef]; exact getD_lt_base vnorm hwv _
  have hvppB : vpp < bi_base := by rw [hvppdef]; exact getD_lt_base vnorm hwv _
  have hvpos : 0 < vp := by omega
  have hVtop : V = natVal (vnorm.take (n - 1)) + vp * bi_base ^ (n - 1) := by
    rw [hVdef, hvpdef]
    exact natVal_top_decomp vnorm (n - 1) (by omega)
  have htakeV1 : natVal (vnorm.take (n - 1)) < bi_base ^ (n - 1) := by
    have h1 := natVal_lt (vnorm.take (n - 1)) (wf_take _ _ hwv)
    rwa [List.length_take_of_le (by omega)] at h1
  have hVlow : vp * bi_base ^ (n - 1) ≤ V := by omega
  have hVhigh : V < (vp + 1) * bi_base ^ (n - 1) := by
    have hx : (vp + 1) * bi_base ^ (n - 1) =
        vp * bi_base ^ (n - 1) + bi_base ^ (n - 1) := by ring
    omega
  have hpow1pos : 0 < bi_base ^ (n - 1) := pow_pos hBpos _
  have hVpos : 0 < V := by
    have h1 : 1 * 1 ≤ vp * bi_base ^ (n - 1) :=
      Nat.mul_le_mul (by omega) (by omega)
    omega
  set c := bi_base ^ (n - 2) with hcdef
  have hcpos : 0 < c := pow_pos hBpos _
  set V2 := vp * bi_base + vpp with hV2def
  have hV2pos : 0 < V2 := by
    have h1 : 1 * 1 ≤ vp * bi_base := Nat.mul_le_mul (by omega) (by omega)
    omega
  have hdropVpair : natVal (vnorm.drop (n - 2)) = vpp + bi_base * vp := by
    rw [natVal_pair _ (by rw [List.length_drop, hvlen]; omega)]
    rw [getD_drop, getD_drop]
    have h1 : n - 2 + 0 = n - 2 := by omega
    have h2 : n - 2 + 1 = n - 1 := by omega
    rw [h1, h2, ← hvpdef, ← hvppdef]
  have hVsplit : V = natVal (vnorm.take (n - 2)) + V2 * c := by
    have h1 := natVal_take_drop vnorm (n - 2) (by omega)
    rw [hdropVpair] at h1
    have h2 : bi_base ^ (n - 2) * (vpp + bi_base * vp) = V2 * c := by
      rw [hV2def, hcdef]
      ring
    rw [hVdef, h1, h2]
  have htakeV2 : natVal (vnorm.take (n - 2)) < c := by
    have h1 := natVal_lt (vnorm.take (n - 2)) (wf_take _ _ hwv)
    rwa [List.length_take_of_le (by omega), ← hcdef] at h1
  have hV2c_le : V2 * c ≤ V := by omega
  have hVle : V ≤ V2 * c + (c - 1) := by omega
  have hVlowc : bi_base / 2 * (c * bi_base) ≤ V := by
    have h1 : c * bi_base = bi_base ^ (n - 1) := by
      rw [hcdef, ← pow_succ]
      congr 1
      omega
    rw [h1]
    calc bi_base / 2 * bi_base ^ (n - 1) ≤ vp * bi_base ^ (n - 1) :=
        Nat.mul_le_mul_right _ hvp
      _ ≤ V := hVlow
  set wl := win.take n with hwldef
  set wtop := win.getD n 0 with hwtopdef
  have hwleq : win = wl ++ [wtop] := by
    conv_lhs => rw [← List.take_append_drop n win]
    rw [drop_eq_singleton win n hwinlen, ← hwldef, ← hwtopdef]
  have hwllen : wl.length = n := by
    rw [hwldef]
    exact List.length_take_of_le (by omega)
  have hwfwl : WfLimbs wl := by rw [hwldef]; exact wf_take _ _ hwin
  have hwtopB : wtop < bi_base := by
    rw [hwtopdef]
    exact getD_lt_base win hwin n
  have hwval : w = natVal wl + wtop * bi_base ^ n := by
    rw [hwdef, hwldef, hwtopdef]
    exact natVal_top_decomp win n hwinlen
  have hwlB : natVal wl < bi_base ^ n := by
    have h1 := natVal_lt wl hwfwl
    rwa [hwllen] at h1
  have hVltBn : V < bi_base ^ n := by
    have h1 := natVal_lt vnorm hwv
    rw [hvlen] at h1
    rw [hVdef]
    exact h1
  set w3 := natVal (win.drop (n - 2)) with hw3def
  have hw3triple : w3 = win.getD (n - 2) 0 + bi_base * win.getD (n - 1) 0 +
      bi_base ^ 2 * wtop := by
    rw [hw3def, natVal_triple _ (by rw [List.length_drop, hwinlen]; omega)]
    rw [getD_drop, getD_drop, getD_drop]
    have h1 : n - 2 + 0 = n - 2 := by omega
    have h2 : n - 2 + 1 = n - 1 := by omega
    have h3 : n - 2 + 2 = n := by omega
    rw [h1, h2, h3, ← hwtopdef]
  set tmp := wtop * bi_base + win.getD (n - 1) 0 with htmpdef
  have hw3tmp : w3 = tmp * bi_base + win.getD (n - 2) 0 := by
    rw [hw3triple, htmpdef]
    ring
  have hwsplitw3 : w = natVal (win.take (n - 2)) + c * w3 := by
    rw [hwdef, hw3def, hcdef]
    exact natVal_take_drop win (n - 2) (by omega)
  have htakew3 : natVal (win.take (n - 2)) < c := by
    have h1 := natVal_lt (win.take (n - 2)) (wf_take _ _ hwin)
    rwa [List.length_take_of_le (by omega), ← hcdef] at h1
  have hw3c : w3 * c ≤ w := by
    have h1 : c * w3 = w3 * c := by ring
    omega
  set q := w / V with hqdef
  have hqB : q < bi_base := by
    rw [hqdef, Nat.div_lt_iff_lt_mul hVpos]
    calc w < V * bi_base := hwlt
      _ = bi_base * V := by ring
  have hqmul : q * V ≤ w := by
    rw [hqdef]
    exact Nat.div_mul_le_self _ _
  have hwq : w < (q + 1) * V := by
    have h1 := Nat.div_add_mod w V
    rw [← hqdef] at h1
    have h2 : w % V < V := Nat.mod_lt _ hVpos
    have h3 : (q + 1) * V = V * q + V := by ring
    omega
  have hqV2 : q * V2 ≤ w3 := by
    have h0 : 0 < V2 * c := by positivity
    have h1 : q ≤ w / (V2 * c) := by
      rw [hqdef]
      exact Nat.div_le_div_left hV2c_le h0
    have hcc : c * w3 = w3 * c := by ring
    have h2 : w ≤ w3 * c + (c - 1) := by omega
    have h3 : w / (V2 * c) ≤ (w3 * c + (c - 1)) / (V2 * c) :=
      Nat.div_le_div_right h2
    have h4 : (w3 * c + (c - 1)) / (V2 * c) = w3 / V2 :=
      div_scale_bound w3 V2 c (c - 1) hcpos (by omega)
    have h5 : q ≤ w3 / V2 := by omega
    exact (Nat.le_div_iff_mul_le hV2pos).mp h5
  have hexit : ∀ qh, qh * V2 ≤ w3 → qh ≤ q + 1 := fun qh hle =>
    qhat_exit_le w V q w3 V2 c hqdef hVpos hw3c hVle hcpos hVlowc hqB hV2pos
      qh hle
  set u := pre ++ win ++ post with hudef
  have hassoc : u = pre ++ (win ++ post) := by rw [hudef, List.append_assoc]
  have hun : u.getD (j + n) 0 = wtop := by
    have hidx : j + n = pre.length + n := by omega
    rw [hassoc, hidx, getD_append_add,
      getD_append_lt _ _ _ (by rw [hwinlen]; omega), ← hwtopdef]
  have hun1 : u.getD (j + n - 1) 0 = win.getD (n - 1) 0 := by
    have hidx : j + n - 1 = pre.length + (n - 1) := by omega
    rw [hassoc, hidx, getD_append_add,
      getD_append_lt _ _ _ (by rw [hwinlen]; omega)]
  have hun2 : u.getD (j + n - 2) 0 = win.getD (n - 2) 0 := by
    have hidx : j + n - 2 = pre.length + (n - 2) := by omega
    rw [hassoc, hidx, getD_append_add,
      getD_append_lt _ _ _ (by rw [hwinlen]; omega)]
  have hdm := Nat.div_add_mod tmp vp
  have hinv0 : (tmp / vp) * vp + tmp % vp = tmp := by
    have h1 : (tmp / vp) * vp = vp * (tmp / vp) := by ring
    omega
  have hdrop1 : natVal (win.drop (n - 1)) = tmp := by
    rw [natVal_pair _ (by rw [List.length_drop, hwinlen]; omega),
      getD_drop, getD_drop]
    have h1 : n - 1 + 0 = n - 1 := by omega
    have h2 : n - 1 + 1 = n := by omega
    rw [h1, h2, ← hwtopdef, htmpdef]
    ring
  have hwdec1 : w = natVal (win.take (n - 1)) + bi_base ^ (n - 1) * tmp := by
    have h1 := natVal_take_drop win (n - 1) (by omega)
    rw [hdrop1] at h1
    rw [hwdef, h1]
  have htakew1 : natVal (win.take (n - 1)) < bi_base ^ (n - 1) := by
    have h1 := natVal_lt (win.take (n - 1)) (wf_take _ _ hwin)
    rwa [List.length_take_of_le (by omega)] at h1
  have hq_le : q ≤ tmp / vp := by
    have h0 : 0 < vp * bi_base ^ (n - 1) := by positivity
    have h1 : q ≤ w / (vp * bi_base ^ (n - 1)) := by
      rw [hqdef]
      exact Nat.div_le_div_left hVlow h0
    have hcc : bi_base ^ (n - 1) * tmp = tmp * bi_base ^ (n - 1) := by ring
    have h2 : w ≤ tmp * bi_base ^ (n - 1) + (bi_base ^ (n - 1) - 1) := by omega
    have h3 : w / (vp * bi_base ^ (n - 1)) ≤
        (tmp * bi_base ^ (n - 1) + (bi_base ^ (n - 1) - 1)) /
          (vp * bi_base ^ (n - 1)) := Nat.div_le_div_right h2
    have h4 : (tmp * bi_base ^ (n - 1) + (bi_base ^ (n - 1) - 1)) /
        (vp * bi_base ^ (n - 1)) = tmp / vp :=
      div_scale_bound tmp vp _ _ hpow1pos (by omega)
    omega
  have hwtople : wtop ≤ vp := by
    have h1 : wtop * bi_base ^ n ≤ w := by omega
    have hpw : bi_base ^ (n - 1) * bi_base = bi_base ^ n := by
      rw [← pow_succ]
      congr 1
      omega
    have h2 : V * bi_base < (vp + 1) * bi_base ^ n := by
      have h3 := Nat.mul_lt_mul_of_pos_right hVhigh hBpos
      calc V * bi_base < (vp + 1) * bi_base ^ (n - 1) * bi_base := h3
        _ = (vp + 1) * bi_base ^ n := by rw [Nat.mul_assoc, hpw]
    have h4 : wtop * bi_base ^ n < (vp + 1) * bi_base ^ n := by
      calc wtop * bi_base ^ n ≤ w := h1
        _ < V * bi_base := hwlt
        _ < (vp + 1) * bi_base ^ n := h2
    have h5 := Nat.lt_of_mul_lt_mul_right h4
    omega
  have hwn1B : win.getD (n - 1) 0 < bi_base := getD_lt_base win hwin _
  have htmple : tmp ≤ vp * bi_base + (bi_base - 1) := by
    have h1 : wtop * bi_base ≤ vp * bi_base := Nat.mul_le_mul_right _ hwtople
    omega
  have hcap : tmp / vp ≤ bi_base + 1 := by
    have h1 : tmp / vp ≤ (vp * bi_base + (bi_base - 1)) / vp :=
      Nat.div_le_div_right htmple
    have h2 : (vp * bi_base + (bi_base - 1)) / vp =
        bi_base + (bi_base - 1) / vp := Nat.mul_add_div hvpos _ _
    have h3 : (bi_base - 1) / vp ≤ 1 := by
      have h4 : (bi_base - 1) / vp < 2 := by
        rw [Nat.div_lt_iff_lt_mul hvpos]
        omega
      omega
    omega
  obtain ⟨hqhlo, hqhhi⟩ := qhatLoop_spec vp vpp (win.getD (n - 2) 0) tmp w3 V2 q
    hvppB hw3tmp hqV2 hV2def hqB hexit (tmp / vp + 1) (tmp / vp) (tmp % vp)
    hinv0 hq_le hcap (Nat.lt_succ_of_le (Nat.sub_le _ _))
  set qhat := (qhatLoop vp vpp (win.getD (n - 2) 0) (tmp / vp + 1) (tmp / vp)
    (tmp % vp)).1 with hqhatdef
  have hqhatB : qhat ≤ bi_base := by omega
  have hmslen_arg : wl.length = vnorm.length := by rw [hwllen, hvlen]
  obtain ⟨hmlen, hmwf, hmb0, hmb1, hmval⟩ :=
    mulsubList_spec qhat hqhatB wl vnorm 0 hwfwl hwv hmslen_arg (le_refl 0)
      (by positivity)
  set ms := mulsubList qhat wl vnorm 0 with hmsdef
  have hms_n : ms.1.length = n := by rw [hmlen, hwllen]
  have hprej0 : pre.length = j + 0 := by omega
  have hueq : u = pre ++ wl ++ ([wtop] ++ post) := by
    rw [hudef, hwleq]
    simp [List.append_assoc]
  have humul : mulsubLoop vnorm qhat j 0 n u 0 =
      (pre ++ ms.1 ++ ([wtop] ++ post), ms.2) := by
    have h1 := mulsubLoop_eq vnorm qhat j wl 0 pre ([wtop] ++ post) 0 hprej0
    rw [List.drop_zero, ← hmsdef] at h1
    calc mulsubLoop vnorm qhat j 0 n u 0
        = mulsubLoop vnorm qhat j 0 wl.length (pre ++ wl ++ ([wtop] ++ post))
          0 := by rw [hueq, hwllen]
      _ = (pre ++ ms.1 ++ ([wtop] ++ post), ms.2) := h1
  have hpm_len : (pre ++ ms.1).length = j + n := by
    rw [List.length_append, hprelen, hms_n]
  have hu'get : (pre ++ ms.1 ++ ([wtop] ++ post)).getD (j + n) 0 = wtop := by
    have h1 := getD_append_add (pre ++ ms.1) ([wtop] ++ post) 0
    rw [hpm_len, Nat.add_zero] at h1
    rw [h1]
    rfl
  have hu'set : ∀ x : Nat, (pre ++ ms.1 ++ ([wtop] ++ post)).set (j + n) x =
      pre ++ ms.1 ++ (x :: post) := by
    intro x
    have h1 := set_append_len (pre ++ ms.1) wtop x post
    rw [hpm_len] at h1
    exact h1
  set bfi := ms.2 with hbfidef
  set T := (((wtop : Int) - bfi) % ((bi_base : Nat) : Int)).toNat with hTdef
  have hmvaln : (natVal ms.1 : Int) =
      (natVal wl : Int) - qhat * V + bfi * (bi_base : Int) ^ n := by
    rw [hwllen, ← hVdef] at hmval
    calc (natVal ms.1 : Int)
        = (natVal wl : Int) - qhat * V - 0 + bfi * (bi_base : Int) ^ n := by
          exact_mod_cast hmval
      _ = (natVal wl : Int) - qhat * V + bfi * (bi_base : Int) ^ n := by ring
  have hwindow : (w : Int) - qhat * V =
      (natVal ms.1 : Int) + ((wtop : Int) - bfi) * (bi_base : Int) ^ n := by
    have hwc : (w : Int) = (natVal wl : Int) + wtop * (bi_base : Int) ^ n := by
      exact_mod_cast hwval
    rw [hmvaln, hwc]
    ring
  have hr_lt : w % V < V := Nat.mod_lt _ hVpos
  have hrdef : ((w % V : Nat) : Int) = (w : Int) - q * V := by
    have h1 := Nat.div_add_mod w V
    rw [← hqdef] at h1
    have h2 : ((V * q + w % V : Nat) : Int) = (w : Int) := by exact_mod_cast h1
    push_cast at h2
    have h3 : (V : Int) * q = (q : Int) * V := by ring
    omega
  have hKSgen : knuthStep vnorm n u j =
      (if decide ((wtop : Int) < bfi) = true then
        ((qhat % bi_base + bi_base - 1) % bi_base,
          (addbackLoop vnorm j 0 n (pre ++ ms.1 ++ (T :: post)) 0).1.set (j + n)
            (((addbackLoop vnorm j 0 n (pre ++ ms.1 ++ (T :: post)) 0).1.getD
                (j + n) 0 +
              (addbackLoop vnorm j 0 n (pre ++ ms.1 ++ (T :: post)) 0).2) %
              bi_base))
       else (qhat % bi_base, pre ++ ms.1 ++ (T :: post))) := by
    rw [knuthStep_eq]
    simp only [hun, hun1, hun2]
    rw [← hvpdef, ← hvppdef, ← htmpdef, ← hqhatdef, humul]
    simp only [hu'get, ← hbfidef]
    rw [hu'set, ← hTdef]
  by_cases hneg : ((wtop : Int) < bfi)
  · -- add-back case: q̂ = q + 1
    have hlt0 : (w : Int) - qhat * V < 0 := by
      rw [hwindow]
      have h1 : (natVal ms.1 : Int) < (bi_base : Int) ^ n := by
        have h2 := natVal_lt ms.1 hmwf
        rw [hms_n] at h2
        exact_mod_cast h2
      have h2 : (wtop : Int) - bfi ≤ -1 := by omega
      have h3 : ((wtop : Int) - bfi) * (bi_base : Int) ^ n ≤
          -1 * (bi_base : Int) ^ n :=
        mul_le_mul_of_nonneg_right h2 (by positivity)
      have h4 : (-1 : Int) * (bi_base : Int) ^ n = -((bi_base : Int) ^ n) := by
        ring
      omega
    have hqhatq1 : qhat = q + 1 := by
      have h1 : (w : Int) < (qhat : Int) * V := by omega
      have h2 : w < qhat * V := by exact_mod_cast h1
      have h3 : q < qhat := by
        by_contra hle
        push_neg at hle
        have h4 : qhat * V ≤ q * V := Nat.mul_le_mul_right _ hle
        omega
      omega
    obtain ⟨halen, hawf, hac, haval⟩ :=
      addbackList_spec ms.1 vnorm 0 hmwf hwv (by rw [hms_n, hvlen]) (by omega)
    set ab := addbackList ms.1 vnorm 0 with habdef
    have hab_n : ab.1.length = n := by
      rw [halen, hms_n]
    have hab_trans : addbackLoop vnorm j 0 n (pre ++ ms.1 ++ (T :: post)) 0 =
        (pre ++ ab.1 ++ (T :: post), ab.2) := by
      have h1 := addbackLoop_eq vnorm j ms.1 0 pre ([T] ++ post) 0 hprej0
      rw [List.drop_zero, ← habdef] at h1
      calc addbackLoop vnorm j 0 n (pre ++ ms.1 ++ (T :: post)) 0
          = addbackLoop vnorm j 0 ms.1.length
            (pre ++ ms.1 ++ ([T] ++ post)) 0 := by
              rw [hms_n, List.singleton_append]
        _ = (pre ++ ab.1 ++ (T :: post), ab.2) := h1
    have hpa_len : (pre ++ ab.1).length = j + n := by
      rw [List.length_append, hprelen, hab_n]
    have hu3get : (pre ++ ab.1 ++ (T :: post)).getD (j + n) 0 = T := by
      have h1 := getD_append_add (pre ++ ab.1) (T :: post) 0
      rw [hpa_len, Nat.add_zero] at h1
      rw [h1]
      rfl
    have hu3set : (pre ++ ab.1 ++ (T :: post)).set (j + n)
        ((T + ab.2) % bi_base) = pre ++ ab.1 ++ (((T + ab.2) % bi_base) :: post) := by
      have h1 := set_append_len (pre ++ ab.1) T ((T + ab.2) % bi_base) post
      rw [hpa_len] at h1
      exact h1
    have havalI : (natVal ab.1 : Int) + ab.2 * (bi_base : Int) ^ n =
        (natVal ms.1 : Int) + V := by
      rw [hms_n, ← hVdef] at haval
      have h1 : natVal ab.1 + ab.2 * bi_base ^ n = natVal ms.1 + V := by omega
      exact_mod_cast h1
    have hkeyI : ((w % V : Nat) : Int) = (natVal ab.1 : Int) +
        ((ab.2 : Int) + (wtop : Int) - bfi) * (bi_base : Int) ^ n := by
      rw [hrdef]
      have h1 : (q : Int) * V = (qhat : Int) * V - V := by
        rw [hqhatq1]
        push_cast
        ring
      rw [h1]
      linear_combination hwindow - havalI
    have habnB : natVal ab.1 < bi_base ^ n := by
      have h1 := natVal_lt ab.1 hawf
      rwa [hab_n] at h1
    have ht0 : (ab.2 : Int) + (wtop : Int) - bfi = 0 := by
      by_contra ht
      have hrnn : (0 : Int) ≤ ((w % V : Nat) : Int) := by positivity
      have h2 : ((w % V : Nat) : Int) < (bi_base : Int) ^ n := by
        exact_mod_cast lt_trans hr_lt hVltBn
      have h3 : (0 : Int) ≤ (natVal ab.1 : Int) := by positivity
      have h4 : (natVal ab.1 : Int) < (bi_base : Int) ^ n := by
        exact_mod_cast habnB
      rcases lt_or_gt_of_ne ht with hlt | hgt
      · have h5 : (ab.2 : Int) + (wtop : Int) - bfi ≤ -1 := by omega
        have h6 : ((ab.2 : Int) + (wtop : Int) - bfi) * (bi_base : Int) ^ n ≤
            -1 * (bi_base : Int) ^ n :=
          mul_le_mul_of_nonneg_right h5 (by positivity)
        have h7 : (-1 : Int) * (bi_base : Int) ^ n =
            -((bi_base : Int) ^ n) := by ring
        omega
      · have h5 : 1 ≤ (ab.2 : Int) + (wtop : Int) - bfi := by omega
        have h6 : 1 * (bi_base : Int) ^ n ≤
            ((ab.2 : Int) + (wtop : Int) - bfi) * (bi_base : Int) ^ n :=
          mul_le_mul_of_nonneg_right h5 (by positivity)
        have h7 : (1 : Int) * (bi_base : Int) ^ n = (bi_base : Int) ^ n := by
          ring
        omega
    have habr : natVal ab.1 = w % V := by
      rw [ht0] at hkeyI
      have h1 : ((w % V : Nat) : Int) = (natVal ab.1 : Int) := by
        rw [hkeyI]
        ring
      exact_mod_cast h1.symm
    have hbfval : bfi = (ab.2 : Int) + (wtop : Int) := by omega
    have hT2 : (T + ab.2) % bi_base = 0 := by
      rcases Nat.le_one_iff_eq_zero_or_eq_one.mp hac with hc0 | hc1
      · have h1 : (wtop : Int) - bfi = 0 := by
          rw [hbfval, hc0]
          push_cast
          ring
        have h2 : T = 0 := by
          rw [hTdef, h1]
          simp
        rw [h2, hc0]
        simp
      · have h1 : (wtop : Int) - bfi = -1 := by
          rw [hbfval, hc1]
          push_cast
          ring
        have h2 : T = bi_base - 1 := by
          rw [hTdef, h1]
          have h3 : (-1 : Int) % ((bi_base : Nat) : Int) = (bi_base : Int) - 1 := by
            decide
          rw [h3]
          omega
        rw [h2, hc1]
        have h4 : bi_base - 1 + 1 = bi_base := by omega
        rw [h4, Nat.mod_self]
    have hqj : (qhat % bi_base + bi_base - 1) % bi_base = q := by
      rw [hqhatq1]
      by_cases hq1 : q + 1 = bi_base
      · rw [hq1, Nat.mod_self]
        have h1 : 0 + bi_base - 1 = bi_base - 1 := by omega
        rw [h1, Nat.mod_eq_of_lt (by omega)]
        omega
      · have h0 : (q + 1) % bi_base = q + 1 := Nat.mod_eq_of_lt (by omega)
        rw [h0]
        have h1 : q + 1 + bi_base - 1 = q + bi_base := by omega
        rw [h1, Nat.add_mod_right, Nat.mod_eq_of_lt hqB]
    have hKS : knuthStep vnorm n u j = (q,
        pre ++ ab.1 ++ (((T + ab.2) % bi_base) :: post)) := by
      rw [hKSgen, if_pos (by simpa using hneg), hab_trans]
      show ((qhat % bi_base + bi_base - 1) % bi_base,
        (pre ++ ab.1 ++ (T :: post)).set (j + n)
          (((pre ++ ab.1 ++ (T :: post)).getD (j + n) 0 + ab.2) % bi_base)) = _
      rw [hu3get, hu3set, hqj]
    refine ⟨ab.1, ?_, ?_, hab_n, hawf, habr⟩
    · rw [hKS]
    · rw [hKS, hT2]
      show pre ++ ab.1 ++ (0 :: post) = pre ++ (ab.1 ++ [0]) ++ post
      simp [List.append_assoc]
  · -- no add-back: q̂ = q
    have hbige : bfi ≤ (wtop : Int) := not_lt.mp hneg
    have hge0 : (0 : Int) ≤ (w : Int) - qhat * V := by
      rw [hwindow]
      have h1 : (0 : Int) ≤ (natVal ms.1 : Int) := by positivity
      have h2 : (0 : Int) ≤ ((wtop : Int) - bfi) := by omega
      have h3 : (0 : Int) ≤ ((wtop : Int) - bfi) * (bi_base : Int) ^ n :=
        mul_nonneg h2 (by positivity)
      omega
    have hqhatq : qhat = q := by
      have h1 : (qhat : Int) * V ≤ (w : Int) := by omega
      have h2 : qhat * V ≤ w := by exact_mod_cast h1
      have h3 : qhat ≤ q := by
        rw [hqdef]
        exact (Nat.le_div_iff_mul_le hVpos).mpr h2
      omega
    set bn := bfi.toNat with hbndef
    have hbncast : (bn : Int) = bfi := by
      rw [hbndef]
      exact Int.toNat_of_nonneg hmb0
    have hbnle : bn ≤ wtop := by omega
    have hTval : T = wtop - bn := by
      rw [hTdef]
      have h1 : (wtop : Int) - bfi = ((wtop - bn : Nat) : Int) := by
        omega
      rw [h1, Int.emod_eq_of_lt (by positivity)
        (by exact_mod_cast Nat.lt_of_le_of_lt (Nat.sub_le _ _) hwtopB)]
      omega
    have hmsval_final : natVal ms.1 + T * bi_base ^ n = w % V := by
      have hTc : (T : Int) = (wtop : Int) - bfi := by
        rw [hTval]
        omega
      have h1 : (natVal ms.1 : Int) + (T : Int) * (bi_base : Int) ^ n =
          (w : Int) - q * V := by
        rw [hTc, ← hqhatq, hwindow]
      rw [← hrdef] at h1
      exact_mod_cast h1
    have hT0 : T = 0 := by
      by_contra hT
      have h1 : 1 ≤ T := by omega
      have h2 : bi_base ^ n ≤ T * bi_base ^ n := by
        calc bi_base ^ n = 1 * bi_base ^ n := by ring
          _ ≤ T * bi_base ^ n := Nat.mul_le_mul_right _ h1
      have h3 : w % V < bi_base ^ n := lt_trans hr_lt hVltBn
      omega
    have hmsr : natVal ms.1 = w % V := by
      rw [hT0] at hmsval_final
      simpa using hmsval_final
    have hKS : knuthStep vnorm n u j = (q, pre ++ ms.1 ++ (T :: post)) := by
      rw [hKSgen, if_neg (by simpa using hneg), hqhatq,
        Nat.mod_eq_of_lt hqB]
    refine ⟨ms.1, ?_, ?_, hms_n, hmwf, hmsr⟩
    · rw [hKS]
    · rw [hKS, hT0]
      show pre ++ ms.1 ++ (0 :: post) = pre ++ (ms.1 ++ [0]) ++ post
      simp [List.append_assoc]

theorem getD_set_ne (q : List Nat) (p i x : Nat) (h : p ≠ i) :
    (q.set p x).getD i 0 = q.getD i 0 := by
  induction q generalizing p i with
  | nil => rfl
  | cons d ds ih =>
    cases p with
    | zero =>
      cases i with
      | zero => exact absurd rfl h
      | succ i => rfl
    | succ p =>
      cases i with
      | zero => rfl
      | succ i =>
        simp only [List.set_cons_succ, List.getD_cons_succ]
        exact ih p i (by omega)

theorem knuthLoop_zero (vnorm : List Nat) (n : Nat) (u q : List Nat) :
    knuthLoop vnorm n u q 0 =
      (q.set 0 (knuthStep vnorm n u 0).1, (knuthStep vnorm n u 0).2) := rfl

theorem knuthLoop_succ (vnorm : List Nat) (n : Nat) (u q : List Nat)
    (j : Nat) :
    knuthLoop vnorm n u q (j + 1) =
      knuthLoop vnorm n (knuthStep vnorm n u (j + 1)).2
        (q.set (j + 1) (knuthStep vnorm n u (j + 1)).1) j := rfl

/-- The main loop of Algorithm D (counter `j` from `m - n` down to `0`):
starting from a buffer `pre ++ win ++ post` with `j` untouched dividend
digits below an `n+1`-digit window, it fills quotient digits `0..j` of
`q` (whose low digits must be zero) and leaves the buffer as the
`n`-digit remainder, `j + 1` zeros, and the untouched suffix. -/
theorem knuthLoop_spec (vnorm : List Nat) (n : Nat) (hn : 2 ≤ n)
    (hvlen : vnorm.length = n) (hwv : WfLimbs vnorm)
    (hvp : bi_base / 2 ≤ vnorm.getD (n - 1) 0) :
    ∀ (j : Nat) (pre win post q : List Nat),
      pre.length = j → WfLimbs pre → win.length = n + 1 → WfLimbs win →
      natVal win < natVal vnorm * bi_base →
      j < q.length → (∀ i, i ≤ j → q.getD i 0 = 0) →
      ∃ rq res,
        knuthLoop vnorm n (pre ++ win ++ post) q j =
          (rq, res ++ (List.replicate (j + 1) 0 ++ post)) ∧
        res.length = n ∧ WfLimbs res ∧
        natVal res =
          (natVal pre + natVal win * bi_base ^ j) % natVal vnorm ∧
        natVal rq = natVal q +
          (natVal pre + natVal win * bi_base ^ j) / natVal vnorm := by
  have hBpos := bi_base_pos
  have hB2 : 2 ≤ bi_base := by decide
  have hVpos : 0 < natVal vnorm := by
    have h1 := natVal_top_decomp vnorm (n - 1) (by omega)
    have h2 : 1 * 1 ≤ vnorm.getD (n - 1) 0 * bi_base ^ (n - 1) :=
      Nat.mul_le_mul (by omega) (pow_pos hBpos _)
    omega
  intro j
  induction j with
  | zero =>
    intro pre win post q hprelen hwfpre hwinlen hwfwin hwlt hqlen hq0
    have hpre : pre = [] := List.eq_nil_of_length_eq_zero hprelen
    subst hpre
    obtain ⟨res, h1, h2, hlen, hwf, hval⟩ :=
      knuthStep_spec vnorm n 0 [] win post hn hvlen hwv hvp rfl hwinlen
        hwfwin hwlt
    refine ⟨q.set 0 (knuthStep vnorm n ([] ++ win ++ post) 0).1, res, ?_,
      hlen, hwf, ?_, ?_⟩
    · rw [knuthLoop_zero, h2]
      simp [List.append_assoc]
    · rw [hval]
      have h3 : natVal ([] : List Nat) = 0 := rfl
      rw [h3, pow_zero, Nat.mul_one, Nat.zero_add]
    · rw [h1, natVal_set_pos q 0 _ (by omega) (hq0 0 (le_refl 0))]
      have h3 : natVal ([] : List Nat) = 0 := rfl
      rw [h3, pow_zero, Nat.mul_one, Nat.mul_one, Nat.zero_add]
  | succ j ih =>
    intro pre win post q hprelen hwfpre hwinlen hwfwin hwlt hqlen hq0
    set d := pre.getD j 0 with hddef
    set pre' := pre.take j with hprePdef
    have hpre'len : pre'.length = j := by
      rw [hprePdef]
      exact List.length_take_of_le (by omega)
    have hwfpre' : WfLimbs pre' := by rw [hprePdef]; exact wf_take _ _ hwfpre
    have hdB : d < bi_base := by rw [hddef]; exact getD_lt_base pre hwfpre j
    have hpredec : pre = pre' ++ [d] := by
      conv_lhs => rw [← List.take_append_drop j pre]
      rw [drop_eq_singleton pre j hprelen, ← hddef, ← hprePdef]
    obtain ⟨res, h1, h2, hlen, hwfres, hval⟩ :=
      knuthStep_spec vnorm n (j + 1) pre win post hn hvlen hwv hvp hprelen
        hwinlen hwfwin hwlt
    have hbuf : pre ++ (res ++ [0]) ++ post =
        pre' ++ (d :: res) ++ (0 :: post) := by
      rw [hpredec]
      simp [List.append_assoc]
    have hwin'len : (d :: res).length = n + 1 := by simp [hlen]
    have hwfwin' : WfLimbs (d :: res) := by
      intro x hx
      rcases List.mem_cons.mp hx with rfl | hx
      · exact hdB
      · exact hwfres x hx
    have hresV : natVal res < natVal vnorm := by
      rw [hval]
      exact Nat.mod_lt _ hVpos
    have hwin'lt : natVal (d :: res) < natVal vnorm * bi_base := by
      rw [natVal_cons]
      have h3 : bi_base * natVal res ≤ bi_base * (natVal vnorm - 1) :=
        Nat.mul_le_mul_left _ (by omega)
      have h4 : bi_base * (natVal vnorm - 1) + bi_base =
          bi_base * natVal vnorm := by
        have h5 : natVal vnorm - 1 + 1 = natVal vnorm := by omega
        calc bi_base * (natVal vnorm - 1) + bi_base
            = bi_base * ((natVal vnorm - 1) + 1) := by ring
          _ = bi_base * natVal vnorm := by rw [h5]
      have h6 : bi_base * natVal vnorm = natVal vnorm * bi_base := by ring
      omega
    have hq0' : ∀ i, i ≤ j →
        (q.set (j + 1) (knuthStep vnorm n (pre ++ win ++ post) (j + 1)).1).getD
          i 0 = 0 := by
      intro i hi
      rw [getD_set_ne q (j + 1) i _ (by omega)]
      exact hq0 i (by omega)
    have hqlen' : j <
        (q.set (j + 1)
          (knuthStep vnorm n (pre ++ win ++ post) (j + 1)).1).length := by
      rw [List.length_set]
      omega
    obtain ⟨rq, res0, heq, hlen0, hwf0, hvalr, hvalq⟩ :=
      ih pre' (d :: res) (0 :: post)
        (q.set (j + 1) (knuthStep vnorm n (pre ++ win ++ post) (j + 1)).1)
        hpre'len hwfpre' hwin'len hwfwin' hwin'lt hqlen' hq0'
    have hPdec : natVal pre = natVal pre' + d * bi_base ^ j := by
      have h3 := natVal_top_decomp pre j hprelen
      rw [← hprePdef, ← hddef] at h3
      exact h3
    have hWsplit : natVal win * bi_base ^ (j + 1) =
        (natVal win % natVal vnorm) * bi_base ^ (j + 1) +
          ((natVal win / natVal vnorm) * bi_base ^ (j + 1)) * natVal vnorm := by
      have h3 := Nat.div_add_mod (natVal win) (natVal vnorm)
      calc natVal win * bi_base ^ (j + 1)
          = (natVal vnorm * (natVal win / natVal vnorm) +
              natVal win % natVal vnorm) * bi_base ^ (j + 1) := by rw [h3]
        _ = (natVal win % natVal vnorm) * bi_base ^ (j + 1) +
            ((natVal win / natVal vnorm) * bi_base ^ (j + 1)) *
              natVal vnorm := by ring
    have hinner : natVal pre' +
        (d + bi_base * (natVal win % natVal vnorm)) * bi_base ^ j =
        natVal pre + (natVal win % natVal vnorm) * bi_base ^ (j + 1) := by
      rw [hPdec]
      ring
    refine ⟨rq, res0, ?_, hlen0, hwf0, ?_, ?_⟩
    · rw [knuthLoop_succ, h2, hbuf, heq]
      have hrep : List.replicate (j + 1 + 1) (0 : Nat) ++ post =
          List.replicate (j + 1) 0 ++ (0 :: post) := by
        rw [List.replicate_succ']
        simp [List.append_assoc]
      rw [hrep]
    · rw [hvalr, natVal_cons, hval, hinner, hWsplit, ← Nat.add_assoc,
        Nat.add_mul_mod_self_right]
    · rw [hvalq, natVal_set_pos q (j + 1) _ (by omega)
        (hq0 (j + 1) (le_refl _)), h1, natVal_cons, hval, hinner]
      have h3 : (natVal pre + natVal win * bi_base ^ (j + 1)) / natVal vnorm =
          (natVal pre + (natVal win % natVal vnorm) * bi_base ^ (j + 1)) /
            natVal vnorm + (natVal win / natVal vnorm) * bi_base ^ (j + 1) := by
        rw [hWsplit, ← Nat.add_assoc, Nat.add_mul_div_right _ _ hVpos]
      rw [h3]
      ring

theorem lor_mod_two_pow (a b k : Nat) :
    (a ||| b) % 2 ^ k = a % 2 ^ k ||| b % 2 ^ k := by
  apply Nat.eq_of_testBit_eq
  intro i
  simp only [Nat.testBit_mod_two_pow, Nat.testBit_lor, Bool.and_or_distrib_left]

theorem getD_replicate (k i : Nat) :
    (List.replicate k (0 : Nat)).getD i 0 = 0 := by
  induction k generalizing i with
  | zero => rfl
  | succ k ih =>
    cases i with
    | zero => rfl
    | succ i =>
      rw [List.replicate_succ, List.getD_cons_succ]
      exact ih i

theorem wf_append (xs ys : List Nat) (hx : WfLimbs xs) (hy : WfLimbs ys) :
    WfLimbs (xs ++ ys) := fun d hd => by
  rcases List.mem_append.mp hd with h | h
  · exact hx d h
  · exact hy d h

theorem getLast?_eq_getD (ls : List Nat) (hne : ls ≠ []) :
    ls.getLast? = some (ls.getD (ls.length - 1) 0) := by
  induction ls with
  | nil => exact absurd rfl hne
  | cons d ds ih =>
    cases ds with
    | nil => rfl
    | cons e es =>
      rw [List.getLast?_cons_cons, ih (by simp)]
      congr 1

theorem getD_last_pos (ls : List Nat) (hne : ls ≠ [])
    (hl : ls.getLast? ≠ some 0) : 0 < ls.getD (ls.length - 1) 0 := by
  rw [getLast?_eq_getD ls hne] at hl
  by_contra h
  push_neg at h
  have h0 : ls.getD (ls.length - 1) 0 = 0 := by omega
  rw [h0] at hl
  exact hl rfl

/-- On a buffer whose digit just past the remainder is zero, the
unnormalization loop computes the same digits as the `right_shift` digit
map (with the roles of the two `lor` operands swapped and the truncation
moved inside). -/
theorem unnormList_map (rs rest : List Nat) (e : Nat) (hn : 1 ≤ rs.length)
    (hw : WfLimbs rs) (_hrest0 : rest.getD 0 0 = 0) :
    unnormList (rs ++ rest) rs.length e =
      (List.range rs.length).map fun i =>
        (rs.getD i 0 >>> e) ||| ((rs.getD (i + 1) 0 <<< (32 - e)) % bi_base) := by
  unfold unnormList
  apply List.map_congr_left
  intro i hi
  rw [List.mem_range] at hi
  by_cases hlast : i = rs.length - 1
  · rw [if_pos hlast]
    have h1 : (rs ++ rest).getD i 0 = rs.getD i 0 :=
      getD_append_lt _ _ _ (by omega)
    rw [h1]
    have h2 : rs.getD (i + 1) 0 = 0 := by
      apply List.getD_eq_default
      omega
    rw [h2, Nat.zero_shiftLeft, Nat.zero_mod, Nat.or_zero]
  · rw [if_neg hlast]
    have hi' : i + 1 < rs.length := by omega
    have h1 : (rs ++ rest).getD i 0 = rs.getD i 0 :=
      getD_append_lt _ _ _ (by omega)
    have h2 : (rs ++ rest).getD (i + 1) 0 = rs.getD (i + 1) 0 :=
      getD_append_lt _ _ _ hi'
    rw [h1, h2]
    have hB : bi_base = 2 ^ 32 := rfl
    rw [hB, lor_mod_two_pow]
    have h3 : rs.getD i 0 >>> e % 2 ^ 32 = rs.getD i 0 >>> e := by
      apply Nat.mod_eq_of_lt
      have h4 : rs.getD i 0 >>> e ≤ rs.getD i 0 := by
        rw [Nat.shiftRight_eq_div_pow]
        exact Nat.div_le_self _ _
      have h5 := getD_lt_base rs hw i
      rw [hB] at h5
      omega
    rw [h3, Nat.lor_comm]

/-- Value of the unnormalization: the low `rs.length` remainder digits
divided by `2 ^ e` (`e < 32`; `e = 0` is the identity map). -/
theorem unnormList_val (rs rest : List Nat) (e : Nat) (he : e < 32)
    (hn : 1 ≤ rs.length) (hw : WfLimbs rs) (hrest0 : rest.getD 0 0 = 0) :
    natVal (unnormList (rs ++ rest) rs.length e) = natVal rs / 2 ^ e := by
  by_cases he0 : e = 0
  · subst he0
    have hmap : unnormList (rs ++ rest) rs.length 0 = rs := by
      rw [unnormList_map rs rest 0 hn hw hrest0]
      have h1 : ((List.range rs.length).map fun i =>
          (rs.getD i 0 >>> 0) ||| ((rs.getD (i + 1) 0 <<< (32 - 0)) % bi_base)) =
          (List.range rs.length).map fun i => rs.getD i 0 := by
        apply List.map_congr_left
        intro i _
        rw [Nat.shiftRight_zero]
        have h2 : (rs.getD (i + 1) 0 <<< (32 - 0)) % bi_base = 0 := by
          rw [Nat.shiftLeft_eq]
          show rs.getD (i + 1) 0 * 2 ^ (32 - 0) % 2 ^ 32 = 0
          exact Nat.mul_mod_left _ _
        rw [h2, Nat.or_zero]
      rw [h1, range_map_getD]
    rw [hmap, pow_zero, Nat.div_one]
  · rw [unnormList_map rs rest e hn hw hrest0,
      natVal_bitShiftList rs e (by omega) he hw]

/-- xs shorter than the trimmed ys means a strictly smaller value. -/
theorem val_lt_of_shorter (xs ys : List Nat) (hwx : WfLimbs xs)
    (hly : ys.getLast? ≠ some 0) (h : xs.length < ys.length) :
    natVal xs < natVal ys := by
  have hyne : ys ≠ [] := by
    intro hy
    rw [hy] at h
    simp at h
  calc natVal xs < bi_base ^ xs.length := natVal_lt xs hwx
    _ ≤ bi_base ^ (ys.length - 1) :=
      Nat.pow_le_pow_right (by have := bi_base_pos; omega) (by omega)
    _ ≤ natVal ys := natVal_ge_getLast ys hyne hly

/-- Equal lengths and a smaller top digit mean a strictly smaller value. -/
theorem val_lt_of_top (xs ys : List Nat) (hwx : WfLimbs xs)
    (hlen : xs.length = ys.length)
    (htop : xs.getD (xs.length - 1) 0 < ys.getD (ys.length - 1) 0) :
    natVal xs < natVal ys := by
  by_cases hxe : xs.length = 0
  · have hxnil : xs = [] := List.eq_nil_of_length_eq_zero hxe
    have hynil : ys = [] := List.eq_nil_of_length_eq_zero (by omega)
    rw [hxnil, hynil] at htop
    have h0 : ∀ i, ([] : List Nat).getD i 0 = 0 := fun i => rfl
    rw [h0] at htop
    omega
  · have hdx := natVal_top_decomp xs (xs.length - 1) (by omega)
    have hdy := natVal_top_decomp ys (ys.length - 1) (by omega)
    have htakex := natVal_lt (xs.take (xs.length - 1)) (wf_take _ _ hwx)
    rw [List.length_take_of_le (by omega)] at htakex
    have hkk : ys.length - 1 = xs.length - 1 := by omega
    rw [hkk] at hdy htop
    have h1 : natVal xs <
        (xs.getD (xs.length - 1) 0 + 1) * bi_base ^ (xs.length - 1) := by
      have h2 : (xs.getD (xs.length - 1) 0 + 1) * bi_base ^ (xs.length - 1) =
          xs.getD (xs.length - 1) 0 * bi_base ^ (xs.length - 1) +
            bi_base ^ (xs.length - 1) := by ring
      omega
    have h3 : (xs.getD (xs.length - 1) 0 + 1) * bi_base ^ (xs.length - 1) ≤
        ys.getD (xs.length - 1) 0 * bi_base ^ (xs.length - 1) :=
      Nat.mul_le_mul_right _ (by omega)
    omega

/-- Unfolding of `div_algo_knuth` with the tuple-destructuring `let`s
written as projections. -/
theorem div_algo_knuth_eq (u v : bi_t) :
    div_algo_knuth u v =
      (let e := findShift32 (v.limbs.getD (v.limbs.length - 1) 0) 32 0
       let u_norm := normListV u.limbs e ++
         [u.limbs.getD (u.limbs.length - 1) 0 >>> (32 - e)]
       let kl := knuthLoop (normListV v.limbs e) v.limbs.length u_norm
         (List.replicate (u.limbs.length - v.limbs.length + 1) 0)
         (u.limbs.length - v.limbs.length)
       (⟨false, trimLimbs kl.1⟩,
        ⟨false, trimLimbs (unnormList kl.2 v.limbs.length e)⟩)) := rfl

/-- `div_algo_knuth` computes the true quotient and remainder of the
magnitudes (both with a positive sign flag and trimmed digit vectors):
normalization by `2 ^ e` preserves the quotient and scales the remainder,
which the final unnormalization divides back out. -/
theorem div_algo_knuth_spec (u v : bi_t)
    (hwu : WfLimbs u.limbs) (hwv : WfLimbs v.limbs)
    (hn2 : 2 ≤ v.limbs.length) (hnm : v.limbs.length ≤ u.limbs.length)
    (htop : 0 < v.limbs.getD (v.limbs.length - 1) 0) :
    (div_algo_knuth u v).1.negative = false ∧
    (div_algo_knuth u v).2.negative = false ∧
    natVal (div_algo_knuth u v).1.limbs = natVal u.limbs / natVal v.limbs ∧
    natVal (div_algo_knuth u v).2.limbs = natVal u.limbs % natVal v.limbs ∧
    (div_algo_knuth u v).1.limbs.getLast? ≠ some 0 ∧
    (div_algo_knuth u v).2.limbs.getLast? ≠ some 0 := by
  have hBpos := bi_base_pos
  set x := v.limbs.getD (v.limbs.length - 1) 0 with hxdef
  have hxB : x < bi_base := by rw [hxdef]; exact getD_lt_base _ hwv _
  obtain ⟨hE1, hE2⟩ := findShift32_spec 32 x 0 htop (by simpa using hxB)
    (by
      have h3 : 1 * 2 ^ (0 + 32) ≤ x * 2 ^ (0 + 32) :=
        Nat.mul_le_mul_right _ htop
      have h4 : (1 : Nat) * 2 ^ (0 + 32) = bi_base := by decide
      omega)
  set E := findShift32 x 32 0 with hEdef
  have hElt : E < 32 := by
    by_contra hge
    push_neg at hge
    have h1 : (2 : Nat) ^ 32 ≤ 2 ^ E := Nat.pow_le_pow_right (by omega) hge
    have h2 : 2 ^ E ≤ x * 2 ^ E := Nat.le_mul_of_pos_left _ htop
    have h3 : bi_base = 2 ^ 32 := rfl
    omega
  have hEle : E ≤ 32 := by omega
  have hvne : v.limbs ≠ [] := by
    intro h
    rw [h] at hn2
    simp at hn2
  have hune : u.limbs ≠ [] := by
    intro h
    have h1 : u.limbs.length = 0 := by rw [h]; rfl
    omega
  have hVnormval : natVal (normListV v.limbs E) = natVal v.limbs * 2 ^ E :=
    norm_val_exact v.limbs E hEle hwv hvne (by rw [← hxdef]; exact hE2)
  have hwfvnorm : WfLimbs (normListV v.limbs E) := wf_normListV _ _ hEle hwv
  have hvnlen : (normListV v.limbs E).length = v.limbs.length :=
    normListV_length _ _
  have hVlowdigit : x * bi_base ^ (v.limbs.length - 1) ≤ natVal v.limbs := by
    have h1 := natVal_top_decomp v.limbs (v.limbs.length - 1) (by omega)
    rw [← hxdef] at h1
    omega
  have hvp : bi_base / 2 ≤ (normListV v.limbs E).getD (v.limbs.length - 1)
      0 := by
    have hklen : (normListV v.limbs E).length = (v.limbs.length - 1) + 1 := by
      rw [hvnlen]
      omega
    have hdec := natVal_top_decomp (normListV v.limbs E) (v.limbs.length - 1)
      hklen
    have htake := natVal_lt ((normListV v.limbs E).take (v.limbs.length - 1))
      (wf_take _ _ hwfvnorm)
    rw [List.length_take_of_le (by omega)] at htake
    have hlow : bi_base / 2 * bi_base ^ (v.limbs.length - 1) ≤
        natVal (normListV v.limbs E) := by
      rw [hVnormval]
      calc bi_base / 2 * bi_base ^ (v.limbs.length - 1)
          ≤ (x * 2 ^ E) * bi_base ^ (v.limbs.length - 1) :=
            Nat.mul_le_mul_right _ hE1
        _ = (x * bi_base ^ (v.limbs.length - 1)) * 2 ^ E := by ring
        _ ≤ natVal v.limbs * 2 ^ E := Nat.mul_le_mul_right _ hVlowdigit
    have hupper : natVal (normListV v.limbs E) <
        ((normListV v.limbs E).getD (v.limbs.length - 1) 0 + 1) *
          bi_base ^ (v.limbs.length - 1) := by
      have h2 : ((normListV v.limbs E).getD (v.limbs.length - 1) 0 + 1) *
          bi_base ^ (v.limbs.length - 1) =
          (normListV v.limbs E).getD (v.limbs.length - 1) 0 *
            bi_base ^ (v.limbs.length - 1) +
            bi_base ^ (v.limbs.length - 1) := by ring
      omega
    have hfin := Nat.lt_of_mul_lt_mul_right (lt_of_le_of_lt hlow hupper)
    omega
  set un := normListV u.limbs E ++
    [u.limbs.getD (u.limbs.length - 1) 0 >>> (32 - E)] with hundef
  have hUval : natVal un = natVal u.limbs * 2 ^ E := by
    rw [hundef]
    exact norm_val u.limbs E hEle hwu hune
  have hunlen : un.length = u.limbs.length + 1 := by
    rw [hundef, List.length_append, normListV_length]
    rfl
  have hwfun : WfLimbs un := by
    rw [hundef]
    apply wf_append _ _ (wf_normListV _ _ hEle hwu)
    intro d hd
    rw [List.mem_singleton] at hd
    subst hd
    have h1 : u.limbs.getD (u.limbs.length - 1) 0 >>> (32 - E) ≤
        u.limbs.getD (u.limbs.length - 1) 0 := by
      rw [Nat.shiftRight_eq_div_pow]
      exact Nat.div_le_self _ _
    have h2 := getD_lt_base u.limbs hwu (u.limbs.length - 1)
    omega
  have hprelen : (un.take (u.limbs.length - v.limbs.length)).length =
      u.limbs.length - v.limbs.length :=
    List.length_take_of_le (by omega)
  have hwinlen : (un.drop (u.limbs.length - v.limbs.length)).length =
      v.limbs.length + 1 := by
    rw [List.length_drop, hunlen]
    omega
  have hwlt : natVal (un.drop (u.limbs.length - v.limbs.length)) <
      natVal (normListV v.limbs E) * bi_base := by
    have hd := natVal_take_drop un (u.limbs.length - v.limbs.length)
      (by omega)
    have hUlt : natVal u.limbs < bi_base ^ u.limbs.length := natVal_lt _ hwu
    have hvlow : bi_base ^ (v.limbs.length - 1) ≤ natVal v.limbs := by
      have h1 : 1 * bi_base ^ (v.limbs.length - 1) ≤
          x * bi_base ^ (v.limbs.length - 1) :=
        Nat.mul_le_mul_right _ htop
      omega
    have hkey : bi_base ^ (u.limbs.length - v.limbs.length) *
        natVal (un.drop (u.limbs.length - v.limbs.length)) <
        bi_base ^ (u.limbs.length - v.limbs.length) *
          (natVal (normListV v.limbs E) * bi_base) := by
      have h1 : bi_base ^ (u.limbs.length - v.limbs.length) *
          natVal (un.drop (u.limbs.length - v.limbs.length)) ≤ natVal un := by
        omega
      have h2 : natVal un < bi_base ^ u.limbs.length * 2 ^ E := by
        rw [hUval]
        exact Nat.mul_lt_mul_of_pos_right hUlt (by positivity)
      have h3 : bi_base ^ u.limbs.length * 2 ^ E ≤
          bi_base ^ (u.limbs.length - v.limbs.length) *
            (natVal (normListV v.limbs E) * bi_base) := by
        rw [hVnormval]
        have h4 : bi_base ^ (u.limbs.length - v.limbs.length) *
            (natVal v.limbs * 2 ^ E * bi_base) ≥
            bi_base ^ (u.limbs.length - v.limbs.length) *
              (bi_base ^ (v.limbs.length - 1) * 2 ^ E * bi_base) :=
          Nat.mul_le_mul_left _
            (Nat.mul_le_mul_right _ (Nat.mul_le_mul_right _ hvlow))
        have h5 : bi_base ^ (u.limbs.length - v.limbs.length) *
            (bi_base ^ (v.limbs.length - 1) * 2 ^ E * bi_base) =
            bi_base ^ ((u.limbs.length - v.limbs.length) +
              ((v.limbs.length - 1) + 1)) * 2 ^ E := by
          rw [pow_add, pow_add, pow_one]
          ring
        have h6 : (u.limbs.length - v.limbs.length) +
            ((v.limbs.length - 1) + 1) = u.limbs.length := by omega
        rw [h5, h6] at h4
        omega
      omega
    exact Nat.lt_of_mul_lt_mul_left hkey
  obtain ⟨rq, res, heq, hreslen, hwfres, hvalr, hvalq⟩ :=
    knuthLoop_spec (normListV v.limbs E) v.limbs.length hn2 hvnlen hwfvnorm
      hvp (u.limbs.length - v.limbs.length)
      (un.take (u.limbs.length - v.limbs.length))
      (un.drop (u.limbs.length - v.limbs.length)) []
      (List.replicate (u.limbs.length - v.limbs.length + 1) 0)
      hprelen (wf_take _ _ hwfun) hwinlen (wf_drop _ _ hwfun) hwlt
      (by rw [List.length_replicate]; omega)
      (fun i _ => getD_replicate _ i)
  have huneq : un.take (u.limbs.length - v.limbs.length) ++
      un.drop (u.limbs.length - v.limbs.length) ++ [] = un := by
    rw [List.append_nil, List.take_append_drop]
  rw [huneq] at heq
  have hsum : natVal (un.take (u.limbs.length - v.limbs.length)) +
      natVal (un.drop (u.limbs.length - v.limbs.length)) *
        bi_base ^ (u.limbs.length - v.limbs.length) = natVal un := by
    have h := natVal_take_drop un (u.limbs.length - v.limbs.length) (by omega)
    have hc : bi_base ^ (u.limbs.length - v.limbs.length) *
        natVal (un.drop (u.limbs.length - v.limbs.length)) =
        natVal (un.drop (u.limbs.length - v.limbs.length)) *
          bi_base ^ (u.limbs.length - v.limbs.length) := by ring
    omega
  rw [hsum] at hvalr hvalq
  rw [natVal_replicate_zero] at hvalq
  have hquo : natVal un / natVal (normListV v.limbs E) =
      natVal u.limbs / natVal v.limbs := by
    rw [hUval, hVnormval]
    have h := div_scale_bound (natVal u.limbs) (natVal v.limbs) (2 ^ E) 0
      (by positivity) (by positivity)
    rw [Nat.add_zero] at h
    exact h
  have hrem : natVal un % natVal (normListV v.limbs E) =
      (natVal u.limbs % natVal v.limbs) * 2 ^ E := by
    rw [hUval, hVnormval, Nat.mul_mod_mul_right]
  have hrestz : (List.replicate (u.limbs.length - v.limbs.length + 1)
      (0 : Nat) ++ []).getD 0 0 = 0 := by
    rw [List.append_nil]
    exact getD_replicate _ 0
  have hrval : natVal (unnormList (res ++
      (List.replicate (u.limbs.length - v.limbs.length + 1) 0 ++ []))
      v.limbs.length E) = natVal u.limbs % natVal v.limbs := by
    have h1 : v.limbs.length = res.length := hreslen.symm
    rw [h1] at hrestz ⊢
    rw [unnormList_val res _ E hElt (by omega) hwfres hrestz, hvalr,
      hrem, Nat.mul_div_cancel _ (by positivity)]
  have hDAK : div_algo_knuth u v =
      (⟨false, trimLimbs rq⟩,
       ⟨false, trimLimbs (unnormList (res ++
         (List.replicate (u.limbs.length - v.limbs.length + 1) 0 ++ []))
         v.limbs.length E)⟩) := by
    have hDAK0 : div_algo_knuth u v =
        (⟨false, trimLimbs (knuthLoop (normListV v.limbs E) v.limbs.length un
          (List.replicate (u.limbs.length - v.limbs.length + 1) 0)
          (u.limbs.length - v.limbs.length)).1⟩,
         ⟨false, trimLimbs (unnormList (knuthLoop (normListV v.limbs E)
           v.limbs.length un
           (List.replicate (u.limbs.length - v.limbs.length + 1) 0)
           (u.limbs.length - v.limbs.length)).2 v.limbs.length E)⟩) := rfl
    rw [hDAK0, heq]
  rw [hDAK]
  refine ⟨rfl, rfl, ?_, ?_, trimLimbs_getLast _, trimLimbs_getLast _⟩
  · show natVal (trimLimbs rq) = _
    rw [natVal_trimLimbs, hvalq, hquo, Nat.zero_add]
  · show natVal (trimLimbs (unnormList _ _ _)) = _
    rw [natVal_trimLimbs, hrval]

/-- `divide` on canonical operands (nonzero divisor, dividend below the
digit-capacity limit) succeeds, and the two results carry the magnitude
quotient and remainder with the signs `divide` assigns
(`Q.negative_ = D.negative() ^ N.negative()`,
`R.negative_ = R.size() > 0 && N.negative()`), stated as `toInt`
equations that absorb the zero-magnitude cases. -/
theorem divide_vals (N D : bi_t) (hN : Canonical N) (hD : Canonical D)
    (hDne : D.limbs ≠ []) (hsize : N.limbs.length < bi_max_digits) :
    ∃ Q R : bi_t, divide N D = .ok (Q, R) ∧
      toInt Q = (if (D.negative != N.negative) = true
        then -((natVal N.limbs / natVal D.limbs : Nat) : Int)
        else ((natVal N.limbs / natVal D.limbs : Nat) : Int)) ∧
      toInt R = (if N.negative = true
        then -((natVal N.limbs % natVal D.limbs : Nat) : Int)
        else ((natVal N.limbs % natVal D.limbs : Nat) : Int)) := by
  obtain ⟨hwN, hlN, hzN⟩ := hN
  obtain ⟨hwD, hlD, hzD⟩ := hD
  have hbpos : 0 < natVal D.limbs := natVal_pos_of_getLast _ hDne hlD
  have hD0 : ¬(D.limbs.length = 0) := by
    intro h
    exact hDne (List.eq_nil_of_length_eq_zero h)
  by_cases hearly : (N.limbs.length = D.limbs.length ∧
      N.limbs.getD (N.limbs.length - 1) 0 <
        D.limbs.getD (D.limbs.length - 1) 0) ∨
      N.limbs.length < D.limbs.length
  · have hab : natVal N.limbs < natVal D.limbs := by
      rcases hearly with ⟨hlen, htop⟩ | hlt
      · exact val_lt_of_top _ _ hwN hlen htop
      · exact val_lt_of_shorter _ _ hwN hlD hlt
    refine ⟨⟨false, []⟩, N, ?_, ?_, ?_⟩
    · simp only [divide]
      rw [if_neg hD0, if_pos hearly]
    · rw [Nat.div_eq_of_lt hab]
      cases hb : (D.negative != N.negative) <;> simp [toInt, natVal]
    · rw [Nat.mod_eq_of_lt hab]
      cases hsn : N.negative
      · rw [toInt_of_nonneg N hsn]
        simp
      · rw [toInt_of_neg N hsn]
        simp
  · have hnotearly := hearly
    push_neg at hearly
    have hmn : D.limbs.length ≤ N.limbs.length := hearly.2
    have h1D : 1 ≤ D.limbs.length := by
      by_contra h
      exact hD0 (by omega)
    have hov : ¬(N.limbs.length - D.limbs.length + 1 > bi_max_digits ∨
        D.limbs.length > bi_max_digits) := by
      push_neg
      constructor <;> omega
    by_cases hD1 : D.limbs.length = 1
    · have hvnz : 0 < D.limbs.getD 0 0 := by
        have h2 := getD_last_pos D.limbs hDne hlD
        have h3 : D.limbs.length - 1 = 0 := by omega
        rw [h3] at h2
        exact h2
      obtain ⟨hqneg, hrneg, hqcan, hrcan, hqval, hrval⟩ :=
        div_algo_single_spec N D hwN hD1 hwD hvnz
      refine ⟨⟨D.negative != N.negative, (div_algo_single N D).1.limbs⟩,
        ⟨decide ((div_algo_single N D).2.limbs.length > 0) && N.negative,
          (div_algo_single N D).2.limbs⟩, ?_, ?_, ?_⟩
      · simp only [divide]
        rw [if_neg hD0, if_neg hnotearly, if_neg hov, if_pos hD1]
      · cases hb : (D.negative != N.negative)
        · rw [toInt_of_nonneg _ rfl]
          simp [hqval]
        · rw [toInt_of_neg _ rfl]
          simp [hqval]
      · cases hsn : N.negative
        · rw [toInt_of_nonneg _ (by simp)]
          simp [hrval]
        · by_cases hlen0 : (div_algo_single N D).2.limbs.length = 0
          · have hemp : (div_algo_single N D).2.limbs = [] :=
              List.eq_nil_of_length_eq_zero hlen0
            have hval0 : natVal N.limbs % natVal D.limbs = 0 := by
              rw [← hrval, hemp]
              rfl
            rw [hval0, toInt_of_nonneg _ (by simp [hlen0])]
            simp [hemp, natVal]
          · have h5 : 0 < (div_algo_single N D).2.limbs.length :=
              Nat.pos_of_ne_zero hlen0
            rw [toInt_of_neg _ (by simp [h5])]
            simp [hrval]
    · have hn2 : 2 ≤ D.limbs.length := by omega
      have hov2 : ¬(N.limbs.length + 1 > bi_max_digits) := by omega
      have htopD : 0 < D.limbs.getD (D.limbs.length - 1) 0 :=
        getD_last_pos D.limbs hDne hlD
      obtain ⟨hqneg, hrneg, hqval, hrval, hqlast, hrlast⟩ :=
        div_algo_knuth_spec N D hwN hwD hn2 hmn htopD
      refine ⟨⟨D.negative != N.negative, (div_algo_knuth N D).1.limbs⟩,
        ⟨decide ((div_algo_knuth N D).2.limbs.length > 0) && N.negative,
          (div_algo_knuth N D).2.limbs⟩, ?_, ?_, ?_⟩
      · simp only [divide]
        rw [if_neg hD0, if_neg hnotearly, if_neg hov, if_neg hD1, if_neg hov2]
      · cases hb : (D.negative != N.negative)
        · rw [toInt_of_nonneg _ rfl]
          simp [hqval]
        · rw [toInt_of_neg _ rfl]
          simp [hqval]
      · cases hsn : N.negative
        · rw [toInt_of_nonneg _ (by simp)]
          simp [hrval]
        · by_cases hlen0 : (div_algo_knuth N D).2.limbs.length = 0
          · have hemp : (div_algo_knuth N D).2.limbs = [] :=
              List.eq_nil_of_length_eq_zero hlen0
            have hval0 : natVal N.limbs % natVal D.limbs = 0 := by
              rw [← hrval, hemp]
              rfl
            rw [hval0, toInt_of_nonneg _ (by simp [hlen0])]
            simp [hemp, natVal]
          · have h5 : 0 < (div_algo_knuth N D).2.limbs.length :=
              Nat.pos_of_ne_zero hlen0
            rw [toInt_of_neg _ (by simp [h5])]
            simp [hrval]

/-- C1 (amended): for canonical operands with a nonzero divisor (and a
dividend within the digit capacity), `divide` — and hence `/`, `%`, `div`
— returns `q` and `r` with `q·d + r = n`, `|r| < |d|`,
`r = 0 ∨ sign r = sign n`, and `q = 0 ∨ sign q = sign n · sign d`
(truncated division). The original claim's unconditional
`sign(q) = sign(n) XOR sign(d)` is amended with the `q = 0` escape: a
zero quotient from operands of opposite signs has sign `0`, not `−1`. -/
theorem divide_contract (N D : bi_t) (hN : Canonical N) (hD : Canonical D)
    (hDne : D.limbs ≠ []) (hsize : N.limbs.length < bi_max_digits) :
    ∃ Q R : bi_t, divide N D = .ok (Q, R) ∧
      toInt Q * toInt D + toInt R = toInt N ∧
      (toInt R).natAbs < (toInt D).natAbs ∧
      (toInt R = 0 ∨ Int.sign (toInt R) = Int.sign (toInt N)) ∧
      (toInt Q = 0 ∨
        Int.sign (toInt Q) = Int.sign (toInt N) * Int.sign (toInt D)) := by
  obtain ⟨Q, R, hok, hQ, hR⟩ := divide_vals N D hN hD hDne hsize
  set a := natVal N.limbs with hadef
  set b := natVal D.limbs with hbdef
  have hbpos : 0 < b := natVal_pos_of_getLast _ hDne hD.2.1
  have hnd : toInt N = (if N.negative = true then -(a : Int) else (a : Int)) := by
    cases hsn : N.negative
    · rw [toInt_of_nonneg N hsn]
      simp
    · rw [toInt_of_neg N hsn]
      simp
  have hdd : toInt D = (if D.negative = true then -(b : Int) else (b : Int)) := by
    cases hsd : D.negative
    · rw [toInt_of_nonneg D hsd]
      simp
    · rw [toInt_of_neg D hsd]
      simp
  have hdm : (b : Int) * ((a / b : Nat) : Int) + ((a % b : Nat) : Int) =
      (a : Int) := by exact_mod_cast Nat.div_add_mod a b
  refine ⟨Q, R, hok, ?_, ?_, ?_, ?_⟩
  · rw [hQ, hR, hnd, hdd]
    cases hsn : N.negative <;> cases hsd : D.negative
    · show ((a / b : Nat) : Int) * (b : Int) + ((a % b : Nat) : Int) =
        (a : Int)
      linear_combination hdm
    · show (-((a / b : Nat) : Int)) * (-(b : Int)) + ((a % b : Nat) : Int) =
        (a : Int)
      linear_combination hdm
    · show (-((a / b : Nat) : Int)) * (b : Int) + (-((a % b : Nat) : Int)) =
        -(a : Int)
      linear_combination -hdm
    · show ((a / b : Nat) : Int) * (-(b : Int)) + (-((a % b : Nat) : Int)) =
        -(a : Int)
      linear_combination -hdm
  · rw [hR, hdd]
    have hmod : a % b < b := Nat.mod_lt _ hbpos
    cases hsn : N.negative <;> cases hsd : D.negative <;>
      simpa [Int.natAbs_neg] using hmod
  · by_cases hr0 : a % b = 0
    · left
      rw [hR, hr0]
      cases hsn : N.negative <;> simp
    · right
      rw [hR, hnd]
      have hapos : 0 < a := by
        have h1 := Nat.mod_le a b
        have h2 := Nat.pos_of_ne_zero hr0
        omega
      have h1 : (0 : Int) < (a : Int) := by exact_mod_cast hapos
      have h2 : (0 : Int) < ((a % b : Nat) : Int) := by
        exact_mod_cast Nat.pos_of_ne_zero hr0
      have hs1 : Int.sign ((a % b : Nat) : Int) = 1 :=
        Int.sign_eq_one_iff_pos.mpr h2
      have hs2 : Int.sign (a : Int) = 1 := Int.sign_eq_one_iff_pos.mpr h1
      cases hsn : N.negative
      · show Int.sign ((a % b : Nat) : Int) = Int.sign (a : Int)
        rw [hs1, hs2]
      · show Int.sign (-((a % b : Nat) : Int)) = Int.sign (-(a : Int))
        rw [Int.sign_neg, Int.sign_neg, hs1, hs2]
  · by_cases hq0 : a / b = 0
    · left
      rw [hQ, hq0]
      cases hb0 : (D.negative != N.negative) <;> simp
    · right
      have hq1 : 0 < a / b := Nat.pos_of_ne_zero hq0
      have hba : b ≤ a := by
        by_contra h
        push_neg at h
        have h2 := Nat.div_eq_of_lt h
        omega
      have hapos : 0 < a := by omega
      rw [hQ, hnd, hdd]
      have h2 : (0 : Int) < ((a / b : Nat) : Int) := by exact_mod_cast hq1
      have h1 : (0 : Int) < (a : Int) := by exact_mod_cast hapos
      have h3 : (0 : Int) < (b : Int) := by exact_mod_cast hbpos
      have hsq : Int.sign ((a / b : Nat) : Int) = 1 :=
        Int.sign_eq_one_iff_pos.mpr h2
      have hsa : Int.sign (a : Int) = 1 := Int.sign_eq_one_iff_pos.mpr h1
      have hsb : Int.sign (b : Int) = 1 := Int.sign_eq_one_iff_pos.mpr h3
      cases hsn : N.negative <;> cases hsd : D.negative
      · show Int.sign ((a / b : Nat) : Int) =
          Int.sign (a : Int) * Int.sign (b : Int)
        rw [hsq, hsa, hsb]
        decide
      · show Int.sign (-((a / b : Nat) : Int)) =
          Int.sign (a : Int) * Int.sign (-(b : Int))
        rw [Int.sign_neg, Int.sign_neg, hsq, hsa, hsb]
        decide
      · show Int.sign (-((a / b : Nat) : Int)) =
          Int.sign (-(a : Int)) * Int.sign (b : Int)
        rw [Int.sign_neg, Int.sign_neg, hsq, hsa, hsb]
        decide
      · show Int.sign ((a / b : Nat) : Int) =
          Int.sign (-(a : Int)) * Int.sign (-(b : Int))
        rw [Int.sign_neg, Int.sign_neg, hsq, hsa, hsb]
        decide

/-- Witness: the contract instantiated at `N = -7`, `D = 2`
(`q = -3`, `r = -1`). -/
theorem divide_contract_witness :
    (Canonical ⟨true, [7]⟩ ∧ Canonical ⟨false, [2]⟩ ∧
      (⟨false, [2]⟩ : bi_t).limbs ≠ [] ∧
      (⟨true, [7]⟩ : bi_t).limbs.length < bi_max_digits) ∧
    (∃ Q R : bi_t, divide ⟨true, [7]⟩ ⟨false, [2]⟩ = .ok (Q, R) ∧
      toInt Q * toInt ⟨false, [2]⟩ + toInt R = toInt ⟨true, [7]⟩ ∧
      (toInt R).natAbs < (toInt (⟨false, [2]⟩ : bi_t)).natAbs ∧
      (toInt R = 0 ∨
        Int.sign (toInt R) = Int.sign (toInt (⟨true, [7]⟩ : bi_t))) ∧
      (toInt Q = 0 ∨
        Int.sign (toInt Q) = Int.sign (toInt (⟨true, [7]⟩ : bi_t)) *
          Int.sign (toInt (⟨false, [2]⟩ : bi_t)))) :=
  ⟨⟨by decide, by decide, by decide, by decide⟩,
    divide_contract ⟨true, [7]⟩ ⟨false, [2]⟩ (by decide) (by decide)
      (by decide) (by decide)⟩

end Bi
